import Mathlib

/-!
# HexChat GTK4 front end: the IRC text rendering pipeline

A shallow embedding of the two scanners of `src/fe-gtk4/fe-gtk4.c`:

* `fe_print_text` (the loop that splits a line at the IRC formatting codes and
  inserts each literal segment into the text buffer with the style tags in
  effect), and
* `apply_url_tags_to_line` (the second pass over the same raw line that
  collects whitespace-delimited words, strips the formatting codes from them,
  asks `url_check_word` and tags the URL ranges).

A line is the content of a C string: a list of bytes (`Nat`), read through
`byteAt`, which yields the terminating NUL (0) at and after the end.  Pointers
into the line (`p`, `segment_start`, `format_pos`, `word_start`, `src`) are
offsets from the start of the line.
-/

namespace FeGtk4

/-! ## IRC formatting constants -/

abbrev ATTR_BOLD : Nat := 2
abbrev ATTR_COLOR : Nat := 3
abbrev ATTR_BLINK : Nat := 6
abbrev ATTR_BEEP : Nat := 7
abbrev ATTR_HIDDEN : Nat := 8
abbrev ATTR_TAB : Nat := 9
abbrev ATTR_RESET : Nat := 15
abbrev ATTR_REVERSE : Nat := 22
abbrev ATTR_ITALICS : Nat := 29
abbrev ATTR_STRIKETHROUGH : Nat := 30
abbrev ATTR_UNDERLINE : Nat := 31

/-- The mIRC colour palette of the front end (16 colours and the extended ramp). -/
def mirc_colors : List String :=
  [ "#FFFFFF", "#000000", "#00007F", "#009300", "#FF0000", "#7F0000", "#9C009C", "#FC7F00",
    "#FFFF00", "#00FC00", "#009393", "#00FFFF", "#0000FC", "#FF00FF", "#7F7F7F", "#D2D2D2",
    "#470000", "#472100", "#474700", "#324700", "#004700", "#00472C", "#004747", "#002747",
    "#000047", "#2E0047", "#470047", "#47002A", "#740000", "#743A00", "#747400", "#517400",
    "#007400", "#007449", "#007474", "#004074", "#000074", "#4B0074", "#740074", "#740045",
    "#B50000", "#B56300", "#B5B500", "#7DB500", "#00B500", "#00B571", "#00B5B5", "#0063B5",
    "#0000B5", "#7500B5", "#B500B5", "#B5006B", "#FF0000", "#FF8C00", "#FFFF00", "#B2FF00",
    "#00FF00", "#00FFA0", "#00FFFF", "#008CFF", "#0000FF", "#A500FF", "#FF00FF", "#FF0098",
    "#FF5959", "#FFB459", "#FFFF71", "#CFFF60", "#6FFF6F", "#65FFC9", "#6DFFFF", "#59B4FF",
    "#5959FF", "#C459FF", "#FF66FF", "#FF59BC", "#FF9C9C", "#FFD39C", "#FFFF9C", "#E2FF9C",
    "#9CFF9C", "#9CFFDB", "#9CFFFF", "#9CD3FF", "#9C9CFF", "#DC9CFF", "#FF9CFF", "#FF94D3",
    "#000000", "#131313", "#282828", "#363636", "#4D4D4D", "#656565", "#818181", "#9F9F9F",
    "#BCBCBC", "#E2E2E2", "#FFFFFF" ]

/-- Number of palette entries: `sizeof (mirc_colors) / sizeof (mirc_colors[0])`. -/
def MIRC_COLORS_COUNT : Nat := mirc_colors.length

/-! ## Reading the line -/

/-- The byte `*p` of a C string whose content is `text`: the terminating NUL at the end. -/
def byteAt (text : List Nat) (p : Nat) : Nat := text.getD p 0

/-- The bytes `text[a], ..., text[b-1]`: what an insert of `b - a` bytes at pointer `a` copies. -/
def slice (text : List Nat) (a b : Nat) : List Nat := (text.drop a).take (b - a)

/-- The C string that starts at pointer `a`: the bytes up to the first NUL
(what an insert with length `-1` copies). -/
def cstr_from (text : List Nat) (a : Nat) : List Nat := (text.drop a).takeWhile (fun b => b ≠ 0)

/-- The length `strlen` finds for the line. -/
def strlen (text : List Nat) : Nat := (cstr_from text 0).length

/-- GLib `g_ascii_isdigit`: the ASCII digits `0` to `9`. -/
def g_ascii_isdigit (c : Nat) : Bool := decide (48 ≤ c) && decide (c ≤ 57)

/-- GLib `g_ascii_isspace`: space, horizontal tab, line feed, form feed and
carriage return (GLib does not count the vertical tab). -/
def g_ascii_isspace (c : Nat) : Bool :=
  c == 32 || c == 9 || c == 10 || c == 12 || c == 13

/-! ## Style state of `fe_print_text` -/

/-- The formatting variables of `fe_print_text`: six flags and two colour
indices, `-1` meaning no colour. -/
structure Style where
  bold : Bool
  italic : Bool
  underline : Bool
  strikethrough : Bool
  hidden : Bool
  reverse : Bool
  fg_color : Int
  bg_color : Int
deriving DecidableEq, Repr

/-- The initial values of the formatting variables. -/
def Style.init : Style := ⟨false, false, false, false, false, false, -1, -1⟩

/-- A segment of the line inserted into the buffer with the tags of a style:
`start` is the offset of `segment_start` in the raw line, `text` the inserted bytes. -/
structure Span where
  start : Nat
  text : List Nat
  style : Style
deriving DecidableEq, Repr

/-- A buffer insertion made by `fe_print_text`: a tagged segment, or bytes
inserted with no tag (the space of a tab, the final newline). -/
inductive BufOp where
  | span (s : Span)
  | plain (bytes : List Nat)
deriving DecidableEq, Repr

/-- The `ATTR_COLOR` case after its `p++`: `p` points behind the colour byte.
Returns the new `p` and the style with the parsed colours. -/
def parse_color (text : List Nat) (p : Nat) (st : Style) : Nat × Style :=
  if g_ascii_isdigit (byteAt text p) then
    let fg0 : Int := (byteAt text p : Int) - 48
    let p1 := p + 1
    let fg1 : Int :=
      if g_ascii_isdigit (byteAt text p1) then fg0 * 10 + ((byteAt text p1 : Int) - 48) else fg0
    let p2 := if g_ascii_isdigit (byteAt text p1) then p1 + 1 else p1
    let fg : Int := if fg1 ≥ (MIRC_COLORS_COUNT : Int) then fg1 % 16 else fg1
    if byteAt text p2 = 44 then
      let p3 := p2 + 1
      if g_ascii_isdigit (byteAt text p3) then
        let bg0 : Int := (byteAt text p3 : Int) - 48
        let p4 := p3 + 1
        let bg1 : Int :=
          if g_ascii_isdigit (byteAt text p4) then bg0 * 10 + ((byteAt text p4 : Int) - 48)
          else bg0
        let p5 := if g_ascii_isdigit (byteAt text p4) then p4 + 1 else p4
        let bg : Int := if bg1 ≥ (MIRC_COLORS_COUNT : Int) then bg1 % 16 else bg1
        (p5, { st with fg_color := fg, bg_color := bg })
      else (p3, { st with fg_color := fg })
    else (p2, { st with fg_color := fg })
  else (p, { st with fg_color := -1, bg_color := -1 })

/-- The `switch (*p)` of `fe_print_text`.  `none` is the `default` case (a
literal byte: `p++; continue`); otherwise the new `p`, the new formatting
variables and `insert_space` (`format_change` is true in every such case). -/
def fe_switch (text : List Nat) (p : Nat) (st : Style) : Option (Nat × Style × Bool) :=
  let c := byteAt text p
  if c = ATTR_BOLD then some (p + 1, { st with bold := !st.bold }, false)
  else if c = ATTR_ITALICS then some (p + 1, { st with italic := !st.italic }, false)
  else if c = ATTR_TAB then some (p + 1, st, true)
  else if c = ATTR_UNDERLINE then some (p + 1, { st with underline := !st.underline }, false)
  else if c = ATTR_STRIKETHROUGH then
    some (p + 1, { st with strikethrough := !st.strikethrough }, false)
  else if c = ATTR_HIDDEN then some (p + 1, { st with hidden := !st.hidden }, false)
  else if c = ATTR_REVERSE then some (p + 1, { st with reverse := !st.reverse }, false)
  else if c = ATTR_RESET then
    some (p + 1, ⟨false, false, false, false, false, false, -1, -1⟩, false)
  else if c = ATTR_COLOR then
    let r := parse_color text (p + 1) st
    some (r.1, r.2, false)
  else if c = ATTR_BEEP ∨ c = ATTR_BLINK then some (p + 1, st, false)
  else none

/-- The local variables of the scan loop of `fe_print_text`, and the buffer
insertions made so far. -/
structure PrintState where
  p : Nat
  segment_start : Nat
  cur : Style
  prev : Style
  buf : List BufOp
deriving DecidableEq, Repr

/-- One iteration of the `while (*p)` loop of `fe_print_text` (entered with `*p` not NUL). -/
def fe_print_step (text : List Nat) (s : PrintState) : PrintState :=
  let format_pos := s.p
  match fe_switch text s.p s.cur with
  | none => { s with p := s.p + 1 }
  | some (p', st', insert_space) =>
    let buf1 :=
      if format_pos > s.segment_start then
        s.buf ++ [BufOp.span ⟨s.segment_start, slice text s.segment_start format_pos, s.prev⟩]
      else s.buf
    let buf2 := if insert_space then buf1 ++ [BufOp.plain [32]] else buf1
    ⟨p', p', st', st', buf2⟩

/-- The `while (*p)` loop of `fe_print_text`, at most `fuel` iterations. -/
def fe_print_loop : Nat → List Nat → PrintState → PrintState
  | 0, _, s => s
  | fuel + 1, text, s =>
    if byteAt text s.p = 0 then s else fe_print_loop fuel text (fe_print_step text s)

/-- What follows the loop: the remaining text is inserted with the current
formatting, and a newline is added unless the line ends with one. -/
def fe_print_finish (text : List Nat) (s : PrintState) : List BufOp :=
  let buf1 :=
    if s.p > s.segment_start then
      s.buf ++ [BufOp.span ⟨s.segment_start, cstr_from text s.segment_start, s.cur⟩]
    else s.buf
  let len := strlen text
  if len = 0 ∨ byteAt text (len - 1) ≠ 10 then buf1 ++ [BufOp.plain [10]] else buf1

/-- The state in which `fe_print_text` enters its loop, from a given style. -/
def PrintState.start (st : Style) : PrintState := ⟨0, 0, st, st, []⟩

/-- The text processing of `fe_print_text`: the insertions it makes for a line
(every iteration advances `p`, so `text.length` iterations reach the NUL). -/
def fe_print_text (text : List Nat) : List BufOp :=
  fe_print_finish text (fe_print_loop text.length text (PrintState.start Style.init))

/-- The tagged segments among the insertions, in order. -/
def spans : List BufOp → List Span
  | [] => []
  | BufOp.span s :: r => s :: spans r
  | BufOp.plain _ :: r => spans r

/-- All the bytes inserted into the buffer, in order. -/
def inserted : List BufOp → List Nat
  | [] => []
  | BufOp.span s :: r => s.text ++ inserted r
  | BufOp.plain b :: r => b ++ inserted r

/-- The concatenation of the texts of a list of spans. -/
def span_text : List Span → List Nat
  | [] => []
  | s :: r => s.text ++ span_text r

/-! ## The URL pass: `apply_url_tags_to_line` -/

/-- The nine formatting bytes that the URL pass skips one at a time. -/
def is_format_code (c : Nat) : Bool :=
  c == ATTR_BOLD || c == ATTR_ITALICS || c == ATTR_UNDERLINE || c == ATTR_STRIKETHROUGH ||
  c == ATTR_HIDDEN || c == ATTR_REVERSE || c == ATTR_RESET || c == ATTR_BEEP || c == ATTR_BLINK

/-- The colour skipping block of `apply_url_tags_to_line` (it occurs three
times, letter for letter): `p` points at `ATTR_COLOR`; the result points
behind the colour digits. -/
def skip_color (text : List Nat) (p : Nat) : Nat :=
  let p1 := p + 1
  if g_ascii_isdigit (byteAt text p1) then
    let p2 := p1 + 1
    let p3 := if g_ascii_isdigit (byteAt text p2) then p2 + 1 else p2
    if byteAt text p3 = 44 then
      let p4 := p3 + 1
      if g_ascii_isdigit (byteAt text p4) then
        let p5 := p4 + 1
        if g_ascii_isdigit (byteAt text p5) then p5 + 1 else p5
      else p4
    else p3
  else p1

/-- The inner loop that finds the end of a word: from `p` and `text_offset`
to the `p` and `text_offset` behind the word, at most `fuel` iterations. -/
def url_word_end : Nat → List Nat → Nat → Nat → Nat × Nat
  | 0, _, p, text_offset => (p, text_offset)
  | fuel + 1, text, p, text_offset =>
    let c := byteAt text p
    if c ≠ 0 ∧ g_ascii_isspace c = false ∧ c ≠ ATTR_TAB then
      if is_format_code c then url_word_end fuel text (p + 1) text_offset
      else if c = ATTR_COLOR then url_word_end fuel text (skip_color text p) text_offset
      else url_word_end fuel text (p + 1) (text_offset + 1)
    else (p, text_offset)

/-- The loop that copies the word without its format codes: `src` runs from
`word_start` up to `p`, the bytes stored through `dst` are collected in order.
After a colour sequence the source steps `src` back by one for the loop increment. -/
def url_extract : Nat → List Nat → Nat → Nat → List Nat → List Nat
  | 0, _, _, _, dst => dst
  | fuel + 1, text, src, p, dst =>
    if src < p then
      let c := byteAt text src
      if is_format_code c then url_extract fuel text (src + 1) p dst
      else if c = ATTR_COLOR then url_extract fuel text (skip_color text src - 1 + 1) p dst
      else url_extract fuel text (src + 1) p (dst ++ [c])
    else dst

/-- One word handled by `apply_url_tags_to_line`: the stripped word handed to
`url_check_word`, the two buffer offsets `line_start_offset + word_start_offset`
and `line_start_offset + text_offset`, and whether the `url` tag was applied. -/
structure UrlWord where
  word : List Nat
  start_offset : Int
  end_offset : Int
  tagged : Bool
deriving DecidableEq, Repr

/-- The local variables of the outer loop of `apply_url_tags_to_line`, and the words handled so far. -/
structure UrlState where
  p : Nat
  text_offset : Nat
  out : List UrlWord
deriving DecidableEq, Repr

/-- One iteration of the outer `while (*p)` loop (entered with `*p` not NUL).
The two sums with `line_start_offset` are taken as exact integers; they are the
`int` sums of the source as long as these do not overflow (`url_step_int` has
the `int` sums). -/
def url_step (url_check_word : List Nat → Int) (line_start_offset : Int) (text : List Nat)
    (s : UrlState) : UrlState :=
  let c := byteAt text s.p
  if is_format_code c then { s with p := s.p + 1 }
  else if c = ATTR_COLOR then { s with p := skip_color text s.p }
  else if g_ascii_isspace c then { s with p := s.p + 1, text_offset := s.text_offset + 1 }
  else
    let word_start := s.p
    let word_start_offset := s.text_offset
    let e := url_word_end text.length text s.p s.text_offset
    let word := url_extract text.length text word_start e.1 []
    let w : UrlWord :=
      ⟨word, line_start_offset + (word_start_offset : Int), line_start_offset + (e.2 : Int),
        decide (url_check_word word > 0)⟩
    ⟨e.1, e.2, s.out ++ [w]⟩

/-- The outer `while (*p)` loop of `apply_url_tags_to_line`, at most `fuel` iterations. -/
def url_loop (url_check_word : List Nat → Int) (line_start_offset : Int) :
    Nat → List Nat → UrlState → UrlState
  | 0, _, s => s
  | fuel + 1, text, s =>
    if byteAt text s.p = 0 then s
    else url_loop url_check_word line_start_offset fuel text
      (url_step url_check_word line_start_offset text s)

/-- The words `apply_url_tags_to_line` hands to the classifier for a line, in
order, each with its offsets and whether it was tagged (an empty line returns
at once). -/
def apply_url_tags_to_line (url_check_word : List Nat → Int) (line_start_offset : Int)
    (text : List Nat) : List UrlWord :=
  if byteAt text 0 = 0 then []
  else (url_loop url_check_word line_start_offset text.length text ⟨0, 0, []⟩).out

/-- The ranges that received the `url` tag, in order. -/
def url_ranges (ws : List UrlWord) : List (Int × Int) :=
  (ws.filter (fun w => w.tagged)).map (fun w => (w.start_offset, w.end_offset))

/-- The words handed to the classifier, in order. -/
def url_words (ws : List UrlWord) : List (List Nat) := ws.map (fun w => w.word)

/-! ## The text buffer -/

/-- A byte that starts a UTF-8 character (anything but a continuation byte `10xxxxxx`). -/
def utf8_is_start (b : Nat) : Bool := !(decide (128 ≤ b) && decide (b < 192))

/-- The bytes of the characters number `s` to `e - 1` of a UTF-8 text whose
characters before it number `i`: the text between the iterators that
`gtk_text_buffer_get_iter_at_offset` returns, since GTK counts buffer offsets in
characters. -/
def chars_between : List Nat → Nat → Nat → Nat → List Nat
  | [], _, _, _ => []
  | b :: r, i, s, e =>
    let j := if utf8_is_start b then i + 1 else i
    if s < j ∧ j ≤ e then b :: chars_between r j s e else chars_between r j s e

/-- The text of a line between two character offsets taken from the start of the line. -/
def gtk_text_between (line : List Nat) (s e : Nat) : List Nat := chars_between line 0 s e

/-- The text of a line between two byte offsets taken from the start of the line. -/
def bytes_between (line : List Nat) (s e : Nat) : List Nat := slice line s e

/-- The style state in which the loop of `fe_print_text` ends when it scans
`text` starting with the formatting variables `st`. -/
def run_style (st : Style) (text : List Nat) : Style :=
  (fe_print_loop text.length text (PrintState.start st)).cur

/-! ## The specification's reading of a line -/

/-- The eleven control bytes of the control code contract. -/
def is_control_code (c : Nat) : Bool :=
  c == ATTR_BOLD || c == ATTR_COLOR || c == ATTR_BLINK || c == ATTR_BEEP || c == ATTR_HIDDEN ||
  c == ATTR_TAB || c == ATTR_RESET || c == ATTR_REVERSE || c == ATTR_ITALICS ||
  c == ATTR_STRIKETHROUGH || c == ATTR_UNDERLINE

/-- A colour field as the specification words it, one or two decimal digits at
the head of the bytes: their decimal value and how many digits there are. -/
def spec_field : List Nat → Option (Nat × Nat)
  | [] => none
  | [a] => if g_ascii_isdigit a then some (a - 48, 1) else none
  | a :: b :: _ =>
    if g_ascii_isdigit a then
      if g_ascii_isdigit b then some ((a - 48) * 10 + (b - 48), 2) else some (a - 48, 1)
    else none

/-- Folding of a parsed colour index into the palette: indices from 99 on are taken modulo 16. -/
def spec_fold (n : Nat) : Int := if 99 ≤ n then ((n % 16 : Nat) : Int) else (n : Int)

/-- The Color code as the specification words it, on the bytes that follow
the code byte: how many of them belong to the colour sequence, and the style
with the colours they select (no digit: both colours unset; a comma after the
foreground digits belongs to the sequence). -/
def spec_color (st : Style) (l : List Nat) : Nat × Style :=
  match spec_field l with
  | none => (0, { st with fg_color := -1, bg_color := -1 })
  | some (v, n) =>
    match l.drop n with
    | 44 :: r =>
      match spec_field r with
      | some (w, m) => (n + 1 + m, { st with fg_color := spec_fold v, bg_color := spec_fold w })
      | none => (n + 1, { st with fg_color := spec_fold v })
    | _ => (n, { st with fg_color := spec_fold v })

/-- The effect on the style of a single-byte control code, as the control code
contract gives it (toggles flip, Reset clears, Beep, Blink and Tab change nothing). -/
def spec_apply (st : Style) (c : Nat) : Style :=
  if c = ATTR_BOLD then { st with bold := !st.bold }
  else if c = ATTR_ITALICS then { st with italic := !st.italic }
  else if c = ATTR_UNDERLINE then { st with underline := !st.underline }
  else if c = ATTR_STRIKETHROUGH then { st with strikethrough := !st.strikethrough }
  else if c = ATTR_HIDDEN then { st with hidden := !st.hidden }
  else if c = ATTR_REVERSE then { st with reverse := !st.reverse }
  else if c = ATTR_RESET then Style.init
  else st

/-- The style reached from `st` by applying, in order, the control codes that
start among the first `n` bytes of a line; `k` counts the bytes still to skip
as the arguments of a colour code. -/
def spec_style_scan : Nat → Style → List Nat → Nat → Style
  | _, st, [], _ => st
  | _, st, _ :: _, 0 => st
  | k + 1, st, _ :: r, n + 1 => spec_style_scan k st r n
  | 0, st, c :: r, n + 1 =>
    if c = ATTR_COLOR then spec_style_scan (spec_color st r).1 (spec_color st r).2 r n
    else spec_style_scan 0 (spec_apply st c) r n

/-- The style in effect at offset `pos` of a line: all off and colours unset,
then every control code that occurs before `pos`. -/
def spec_style_before (text : List Nat) (pos : Nat) : Style :=
  spec_style_scan 0 Style.init text pos

/-- The line with its control codes taken out, each tab replaced by `tab`;
`k` counts the bytes still to skip as the arguments of a colour code. -/
def spec_strip (tab : List Nat) : Nat → List Nat → List Nat
  | _, [] => []
  | k + 1, _ :: r => spec_strip tab k r
  | 0, c :: r =>
    if c = ATTR_COLOR then spec_strip tab (spec_color Style.init r).1 r
    else if c = ATTR_TAB then tab ++ spec_strip tab 0 r
    else if is_control_code c then spec_strip tab 0 r
    else c :: spec_strip tab 0 r

/-- The input with every control code removed (the ten single-byte codes, tab
among them, and each colour sequence). -/
def strip_codes (text : List Nat) : List Nat := spec_strip [] 0 text

/-- The visible text of a line: control codes removed, each tab shown as one space. -/
def visible_text (text : List Nat) : List Nat := spec_strip [32] 0 text

/-- The maximal runs of non-whitespace bytes of a text, in order; `cur` is the
run collected so far. -/
def spec_runs : List Nat → List Nat → List (List Nat)
  | cur, [] => if cur = [] then [] else [cur]
  | cur, c :: r =>
    if g_ascii_isspace c then
      if cur = [] then spec_runs [] r else cur :: spec_runs [] r
    else spec_runs (cur ++ [c]) r

/-- The whitespace-delimited words of a text. -/
def spec_words (vis : List Nat) : List (List Nat) := spec_runs [] vis

/-! ## Auxiliary definitions for the proofs -/

/-- The bytes a list of insertions puts into the buffer, the untagged ones
counted only when `plain` is set. -/
def ops_text (plain : Bool) : List BufOp → List Nat
  | [] => []
  | BufOp.span s :: r => s.text ++ ops_text plain r
  | BufOp.plain b :: r => (if plain then b else []) ++ ops_text plain r

/-- The replacement of a tab in the stripped text that corresponds to `ops_text plain`. -/
def tab_text (plain : Bool) : List Nat := if plain then [32] else []

/-- A line holds no NUL byte: it is the content of a C string. -/
def is_cstr (text : List Nat) : Prop := ∀ b ∈ text, b ≠ 0

/-- A run `cur` that ends before the words `rest`: it counts as a word unless it is empty. -/
def close_run (cur : List Nat) (rest : List (List Nat)) : List (List Nat) :=
  if cur = [] then rest else cur :: rest

/-- The line `é http://a.b` in UTF-8 (`é` is the two bytes 195, 169). -/
def line_e_acute_url : List Nat := [195, 169, 32, 104, 116, 116, 112, 58, 47, 47, 97, 46, 98]

/-- The word `http://a.b`. -/
def word_http_a_b : List Nat := [104, 116, 116, 112, 58, 47, 47, 97, 46, 98]

/-- A classifier that accepts the word `http://a.b` and nothing else. -/
def accept_http_a_b (w : List Nat) : Int := if w = word_http_a_b then 1 else 0

/-! ## Further definitions: the rendered text, `open_url`, Beep and Blink -/

/-- The insertions of `fe_print_text` up to and including the flush of the
remaining text, before the newline step. -/
def fe_print_flush (text : List Nat) (s : PrintState) : List BufOp :=
  if s.p > s.segment_start then
    s.buf ++ [BufOp.span ⟨s.segment_start, cstr_from text s.segment_start, s.cur⟩]
  else s.buf

/-- What `fe_print_text` renders for a line: its insertions before the newline step. -/
def fe_print_render (text : List Nat) : List BufOp :=
  fe_print_flush text (fe_print_loop text.length text (PrintState.start Style.init))

/-- The bytes a list of insertions puts into the buffer, each with the style
whose tags it received (`none` for a byte inserted without tags). -/
def styled : List BufOp → List (Nat × Option Style)
  | [] => []
  | BufOp.span s :: r => s.text.map (fun b => (b, some s.style)) ++ styled r
  | BufOp.plain b :: r => b.map (fun x => (x, none)) ++ styled r

/-- The function `open_url`: the string handed to `fe_open_url` for a clicked
token, `none` when the token is empty and nothing is opened.  The classifier
`url_check_word` and its class numbers `WORD_PATH` and `WORD_HOST6` are declared
outside the front end and are parameters; `u` is the C string `url` points to. -/
def open_url (url_check_word : List Nat → Int) (WORD_PATH WORD_HOST6 : Int) (url : List Nat) :
    Option (List Nat) :=
  let u := cstr_from url 0
  if byteAt url 0 = 0 then none
  else
    let url_type := url_check_word u
    if url_type = WORD_PATH then some ([102, 105, 108, 101, 58, 47, 47] ++ u)
    else if url_type = WORD_HOST6 then
      if byteAt url 0 ≠ 91 then some ([104, 116, 116, 112, 58, 47, 47, 91] ++ u ++ [93])
      else some ([104, 116, 116, 112, 58, 47, 47] ++ u)
    else if 58 ∉ u then some ([104, 116, 116, 112, 58, 47, 47] ++ u)
    else some u

/-- The record of a word with the tag decision of the classifier `chk`. -/
def retag (chk : List Nat → Int) (w : UrlWord) : UrlWord :=
  ⟨w.word, w.start_offset, w.end_offset, decide (chk w.word > 0)⟩

/-- The visible bytes of a line with the style in effect at each, as the
specification words it: control codes removed, a tab shown as an untagged
space; `k` counts the bytes still to skip as the arguments of a colour code. -/
def spec_styled : Nat → Style → List Nat → List (Nat × Option Style)
  | _, _, [] => []
  | k + 1, st, _ :: r => spec_styled k st r
  | 0, st, c :: r =>
    if c = ATTR_COLOR then spec_styled (spec_color st r).1 (spec_color st r).2 r
    else if c = ATTR_TAB then (32, none) :: spec_styled 0 st r
    else if is_control_code c then spec_styled 0 (spec_apply st c) r
    else (c, some st) :: spec_styled 0 st r

/-- The two control bytes that are consumed without effect. -/
def is_beep_blink (c : Nat) : Bool := c == ATTR_BEEP || c == ATTR_BLINK

/-- The line with all its Beep and Blink bytes taken out. -/
def strip_beep_blink (text : List Nat) : List Nat := text.filter (fun c => !is_beep_blink c)

/-- A byte that can belong to the arguments of a colour code: a digit or a comma. -/
def is_color_arg (c : Nat) : Bool := g_ascii_isdigit c || c == 44

/-- Some Beep or Blink byte of the line is immediately followed by a digit or a comma. -/
def beep_before_arg : List Nat → Bool
  | [] => false
  | [_] => false
  | x :: y :: r => (is_beep_blink x && is_color_arg y) || beep_before_arg (y :: r)

/-- The line `check http://example.com please`. -/
def line_check_url : List Nat :=
  [99, 104, 101, 99, 107, 32, 104, 116, 116, 112, 58, 47, 47, 101, 120, 97, 109, 112, 108, 101,
    46, 99, 111, 109, 32, 112, 108, 101, 97, 115, 101]

/-- The word `http://example.com`. -/
def word_http_example_com : List Nat :=
  [104, 116, 116, 112, 58, 47, 47, 101, 120, 97, 109, 112, 108, 101, 46, 99, 111, 109]

/-- A classifier that accepts the word `http://example.com` and nothing else. -/
def accept_http_example_com (w : List Nat) : Int := if w = word_http_example_com then 1 else 0

/-- The token `example.com`. -/
def word_example_com : List Nat := [101, 120, 97, 109, 112, 108, 101, 46, 99, 111, 109]

/-- A sample classifier with the class numbers 3 for `example.com`, 4 for `::1`
and -2 for `/tmp`, and 0 for every other word. -/
def classify_sample (w : List Nat) : Int :=
  if w = word_example_com then 3
  else if w = [58, 58, 49] then 4
  else if w = [47, 116, 109, 112] then -2
  else 0

/-! ## Further definitions: the palette, the tags, offsets of the URL pass -/

/-- A hexadecimal digit. -/
def is_hex_digit (c : Char) : Bool :=
  (decide ('0' ≤ c) && decide (c ≤ '9')) || (decide ('A' ≤ c) && decide (c ≤ 'F')) ||
    (decide ('a' ≤ c) && decide (c ≤ 'f'))

/-- A palette entry of the form `#RRGGBB`: a `#` and exactly six hexadecimal digits. -/
def is_hex_color (s : String) : Bool :=
  match s.data with
  | [] => false
  | c :: r => c == '#' && r.length == 6 && r.all is_hex_digit

/-- The record of a word with both offsets moved by `k`. -/
def shift_word (k : Int) (w : UrlWord) : UrlWord :=
  ⟨w.word, k + w.start_offset, k + w.end_offset, w.tagged⟩

/-- The number of UTF-8 characters that start in a byte sequence. -/
def utf8_chars (l : List Nat) : Nat := (l.filter utf8_is_start).length

/-- The line `0x03 "4,abc"`: a Color code with the foreground 4 and a comma that no digit follows. -/
def line_color_comma : List Nat := [3, 52, 44, 97, 98, 99]

/-- The text that `g_snprintf` gives for the conversion `%02u`: the decimal
digits, with a leading zero when there is one digit only. -/
def fmt_02u (n : Nat) : String := if n < 10 then "0" ++ toString n else toString n

/-- The text that `g_snprintf` gives for the conversion `%02d`: as `%02u` for a
number that is not negative, a minus sign and the digits for a negative one. -/
def fmt_02d (n : Int) : String :=
  if 0 ≤ n then fmt_02u n.toNat else "-" ++ toString n.natAbs

/-- The names of the tags that `fe_gtk4_init_tags` creates, in order: a
foreground and a background tag for every palette index, the six formatting
tags, the four special tags. -/
def fe_gtk4_init_tags : List String :=
  (List.range MIRC_COLORS_COUNT).flatMap (fun i => ["fg-" ++ fmt_02u i, "bg-" ++ fmt_02u i])
    ++ ["bold", "italic", "underline", "strikethrough", "hidden", "reverse",
        "timestamp", "url", "highlight", "marker-line"]

/-- The names of the tags that `fe_print_text` applies to a segment it inserts
with the formatting variables `st`, in order. -/
def applied_tags (st : Style) : List String :=
  (if st.bold then ["bold"] else []) ++ (if st.italic then ["italic"] else []) ++
  (if st.underline then ["underline"] else []) ++
  (if st.strikethrough then ["strikethrough"] else []) ++
  (if st.hidden then ["hidden"] else []) ++ (if st.reverse then ["reverse"] else []) ++
  (if st.fg_color ≥ 0 then ["fg-" ++ fmt_02d st.fg_color] else []) ++
  (if st.bg_color ≥ 0 then ["bg-" ++ fmt_02d st.bg_color] else [])

/-- A colour field that is unset (`-1`) or a palette index, 0 to 98. -/
def color_valid (c : Int) : Bool := c == -1 || (decide (0 ≤ c) && decide (c ≤ 98))

/-- What holds of the variables of the outer loop of `apply_url_tags_to_line`
whenever the loop condition is tested: `text_offset` is the number of visible
bytes before `p`; every word handled is not empty, holds no NUL, whitespace or
control byte, and lies in the visible text between its two offsets taken from
`line_start_offset`; the words follow one another with a gap; a word that ends
at `text_offset` is followed by the end of the line or by whitespace. -/
def url_inv (line_start_offset : Int) (text : List Nat) (s : UrlState) : Prop :=
  s.p ≤ text.length ∧
  (∃ pre : List Nat, visible_text text = pre ++ spec_strip [32] 0 (text.drop s.p) ∧
    s.text_offset = pre.length) ∧
  (∀ w ∈ s.out, w.word ≠ [] ∧
    (∀ b ∈ w.word, b ≠ 0 ∧ g_ascii_isspace b = false ∧ is_control_code b = false) ∧
    w.end_offset ≤ line_start_offset + (s.text_offset : Int) ∧
    ∃ pre post : List Nat, visible_text text = pre ++ w.word ++ post ∧
      w.start_offset = line_start_offset + (pre.length : Int) ∧
      w.end_offset = line_start_offset + (pre.length : Int) + (w.word.length : Int)) ∧
  s.out.Pairwise (fun a b => a.end_offset < b.start_offset) ∧
  ((byteAt text s.p = 0 ∨ g_ascii_isspace (byteAt text s.p) = true) ∨
    ∀ w ∈ s.out, w.end_offset < line_start_offset + (s.text_offset : Int))

/-- The number of visible bytes of the part of the line that `fe_print_text` has
scanned: the bytes inserted into the buffer so far, and the bytes of the segment
from `segment_start` to `p`, which the next insertion adds. -/
def PrintState.visible (s : PrintState) : Nat :=
  (inserted s.buf).length + (s.p - s.segment_start)

/-- The line `^B a ^I ^C4, b c`: a bold code, a tab and a colour sequence among
the words. -/
def line_codes_words : List Nat := [2, 97, 9, 3, 52, 44, 98, 32, 99]

/-- The line `ab ^B cd ^C12 e`, with a classifier that accepts every word. -/
def line_two_words : List Nat := [97, 98, 32, 2, 99, 100, 3, 49, 50, 101]

/-! ## Further definitions: the line start offset as a C `int` -/

/-- The largest value of a C `int` (32 bits). -/
def INT_MAX : Int := 2147483647

/-- The smallest value of a C `int` (32 bits). -/
def INT_MIN : Int := -2147483648

/-- The value a C `int` holds for a computation whose exact result is `x`: `x`
itself when `INT_MIN ≤ x ≤ INT_MAX`; outside that range signed overflow is
undefined in C and the compiled code wraps around modulo `2^32` (two's
complement), which is the value given here. -/
def wrap_int (x : Int) : Int := (x + 2147483648) % 4294967296 - 2147483648

/-- The C addition `a + b` of two `int`s. -/
def int_add (a b : Int) : Int := wrap_int (a + b)

/-- One iteration of the outer `while (*p)` loop with the two sums
`line_start_offset + word_start_offset` and `line_start_offset + text_offset`
computed as the `int` additions of the source (`url_step` computes them as exact
integers).  Wrapping the sum once also accounts for the `int` counter
`text_offset`, since wrapping commutes with the increments. -/
def url_step_int (url_check_word : List Nat → Int) (line_start_offset : Int) (text : List Nat)
    (s : UrlState) : UrlState :=
  let c := byteAt text s.p
  if is_format_code c then { s with p := s.p + 1 }
  else if c = ATTR_COLOR then { s with p := skip_color text s.p }
  else if g_ascii_isspace c then { s with p := s.p + 1, text_offset := s.text_offset + 1 }
  else
    let word_start := s.p
    let word_start_offset := s.text_offset
    let e := url_word_end text.length text s.p s.text_offset
    let word := url_extract text.length text word_start e.1 []
    let w : UrlWord :=
      ⟨word, int_add line_start_offset (word_start_offset : Int),
        int_add line_start_offset (e.2 : Int), decide (url_check_word word > 0)⟩
    ⟨e.1, e.2, s.out ++ [w]⟩

/-- The outer loop of `apply_url_tags_to_line` with `int` sums, at most `fuel` iterations. -/
def url_loop_int (url_check_word : List Nat → Int) (line_start_offset : Int) :
    Nat → List Nat → UrlState → UrlState
  | 0, _, s => s
  | fuel + 1, text, s =>
    if byteAt text s.p = 0 then s
    else url_loop_int url_check_word line_start_offset fuel text
      (url_step_int url_check_word line_start_offset text s)

/-- The function `apply_url_tags_to_line` with the offsets it hands to the
buffer computed as C `int`s: the words in order, each with its two offsets and
whether it was tagged. -/
def apply_url_tags_to_line_int (url_check_word : List Nat → Int) (line_start_offset : Int)
    (text : List Nat) : List UrlWord :=
  if byteAt text 0 = 0 then []
  else (url_loop_int url_check_word line_start_offset text.length text ⟨0, 0, []⟩).out

/-- The record of a word with both offsets moved by `k` in `int` arithmetic. -/
def shift_word_int (k : Int) (w : UrlWord) : UrlWord :=
  ⟨w.word, int_add k w.start_offset, int_add k w.end_offset, w.tagged⟩

/-! ## Lemmas: reading the line, the colour sequence, the switch -/

theorem MIRC_COLORS_COUNT_eq : MIRC_COLORS_COUNT = 99 := by decide

theorem byteAt_drop (text : List Nat) (p k : Nat) :
    byteAt text (p + k) = byteAt (text.drop p) k := by
  simp [byteAt, List.getD_eq_getElem?_getD, List.getElem?_drop]

theorem byteAt_drop_zero (text : List Nat) (p : Nat) :
    byteAt text p = byteAt (text.drop p) 0 := by
  simpa using byteAt_drop text p 0

theorem byteAt_nil (k : Nat) : byteAt [] k = 0 := by simp [byteAt]

theorem byteAt_cons_zero (a : Nat) (l : List Nat) : byteAt (a :: l) 0 = a := by simp [byteAt]

theorem byteAt_cons_succ (a : Nat) (l : List Nat) (k : Nat) :
    byteAt (a :: l) (k + 1) = byteAt l k := by simp [byteAt]

theorem digit_cast (a : Nat) (h : g_ascii_isdigit a = true) :
    ((a : Int) - 48) = ((a - 48 : Nat) : Int) := by
  simp [g_ascii_isdigit] at h
  omega

theorem fold_cast (n : Nat) :
    (if ((n : Nat) : Int) ≥ (MIRC_COLORS_COUNT : Int) then ((n : Nat) : Int) % 16 else ((n : Nat) : Int))
      = spec_fold n := by
  rw [MIRC_COLORS_COUNT_eq]
  unfold spec_fold
  split_ifs <;> first | rfl | omega

theorem spec_field_of_digits (a b : Nat) (l : List Nat) (ha : g_ascii_isdigit a = true)
    (hb : g_ascii_isdigit b = true) :
    spec_field (a :: b :: l) = some ((a - 48) * 10 + (b - 48), 2) := by
  simp [spec_field, ha, hb]

theorem spec_field_of_digit (a : Nat) (l : List Nat) (ha : g_ascii_isdigit a = true)
    (hb : g_ascii_isdigit (byteAt l 0) = false) :
    spec_field (a :: l) = some (a - 48, 1) := by
  cases l with
  | nil => simp [spec_field, ha]
  | cons b l => simp [byteAt] at hb; simp [spec_field, ha, hb]

theorem spec_field_of_not (l : List Nat) (ha : g_ascii_isdigit (byteAt l 0) = false) :
    spec_field l = none := by
  cases l with
  | nil => simp [spec_field]
  | cons a l =>
    simp [byteAt] at ha
    cases l <;> simp [spec_field, ha]

theorem spec_field_at (text : List Nat) (p : Nat) :
    spec_field (text.drop p) =
      if g_ascii_isdigit (byteAt text p) then
        if g_ascii_isdigit (byteAt text (p + 1)) then
          some ((byteAt text p - 48) * 10 + (byteAt text (p + 1) - 48), 2)
        else some (byteAt text p - 48, 1)
      else none := by
  rw [byteAt_drop_zero text p, byteAt_drop text p 1]
  generalize text.drop p = l
  rcases l with _ | ⟨a, _ | ⟨b, l⟩⟩
  · simp [spec_field, byteAt, g_ascii_isdigit]
  · simp [spec_field, byteAt, g_ascii_isdigit]
  · simp [spec_field, byteAt]

theorem drop_cases (text : List Nat) (q : Nat) :
    (text.drop q = [] ∧ byteAt text q = 0) ∨
      text.drop q = byteAt text q :: text.drop (q + 1) := by
  by_cases h : q < text.length
  · right
    rw [List.drop_eq_getElem_cons h]
    simp [byteAt, List.getD_eq_getElem?_getD, List.getElem?_eq_getElem h]
  · left
    have h1 : text.length ≤ q := Nat.le_of_not_lt h
    exact ⟨List.drop_of_length_le h1, by simp [byteAt, List.getD_eq_getElem?_getD, List.getElem?_eq_none h1]⟩

theorem spec_color_at (st : Style) (text : List Nat) (p : Nat) :
    spec_color st (text.drop p) =
      match spec_field (text.drop p) with
      | none => (0, { st with fg_color := -1, bg_color := -1 })
      | some (v, n) =>
        if byteAt text (p + n) = 44 then
          match spec_field (text.drop (p + n + 1)) with
          | some (w, m) =>
            (n + 1 + m, { st with fg_color := spec_fold v, bg_color := spec_fold w })
          | none => (n + 1, { st with fg_color := spec_fold v })
        else (n, { st with fg_color := spec_fold v }) := by
  unfold spec_color
  cases hf : spec_field (text.drop p) with
  | none => rfl
  | some vn =>
    obtain ⟨v, n⟩ := vn
    simp only [List.drop_drop]
    rcases drop_cases text (p + n) with ⟨h1, h2⟩ | h1
    · rw [h1, h2]; simp
    · rw [h1]
      by_cases hc : byteAt text (p + n) = 44
      · rw [hc]; simp
      · simp only [hc, if_false]
        split
        · next r heq => simp at heq; exact absurd heq.1 hc
        · rfl

theorem fold1 (a : Nat) (ha : g_ascii_isdigit a = true) :
    (if (MIRC_COLORS_COUNT : Int) ≤ (a : Int) - 48 then ((a : Int) - 48) % 16 else (a : Int) - 48)
      = spec_fold (a - 48) := by
  rw [digit_cast a ha]
  exact fold_cast (a - 48)

theorem fold2 (a b : Nat) (ha : g_ascii_isdigit a = true) (hb : g_ascii_isdigit b = true) :
    (if (MIRC_COLORS_COUNT : Int) ≤ ((a : Int) - 48) * 10 + ((b : Int) - 48)
      then (((a : Int) - 48) * 10 + ((b : Int) - 48)) % 16
      else ((a : Int) - 48) * 10 + ((b : Int) - 48))
      = spec_fold ((a - 48) * 10 + (b - 48)) := by
  rw [digit_cast a ha, digit_cast b hb]
  have h : ((a - 48 : Nat) : Int) * 10 + ((b - 48 : Nat) : Int)
      = (((a - 48) * 10 + (b - 48) : Nat) : Int) := by push_cast; rfl
  rw [h]
  exact fold_cast _

theorem parse_color_spec (text : List Nat) (p : Nat) (st : Style) :
    parse_color text p st
      = (p + (spec_color st (text.drop p)).1, (spec_color st (text.drop p)).2) := by
  rw [spec_color_at, spec_field_at]
  by_cases hd0 : g_ascii_isdigit (byteAt text p) = true
  · by_cases hd1 : g_ascii_isdigit (byteAt text (p + 1)) = true
    · simp only [hd0, hd1, if_true]
      by_cases hc : byteAt text (p + 2) = 44
      · simp only [hc, if_true]
        rw [spec_field_at]
        by_cases hd3 : g_ascii_isdigit (byteAt text (p + 2 + 1)) = true
        · by_cases hd4 : g_ascii_isdigit (byteAt text (p + 2 + 1 + 1)) = true
          · simp only [hd3, hd4, if_true]
            simp [parse_color, hd0, hd1, hc, hd3, hd4]
            exact ⟨fold2 _ _ hd0 hd1, fold2 _ _ hd3 hd4⟩
          · simp only [hd3, hd4, if_true]
            simp [parse_color, hd0, hd1, hc, hd3, hd4]
            exact ⟨fold2 _ _ hd0 hd1, fold1 _ hd3⟩
        · simp only [hd3, if_false]
          simp [parse_color, hd0, hd1, hc, hd3]
          exact fold2 _ _ hd0 hd1
      · simp only [hc, if_false]
        simp [parse_color, hd0, hd1, hc]
        exact fold2 _ _ hd0 hd1
    · have hd1' : g_ascii_isdigit (byteAt text (p + 1)) = false := by simpa using hd1
      have h44 : g_ascii_isdigit 44 = false := by decide
      simp only [hd0, hd1', if_true, Bool.false_eq_true, if_false]
      by_cases hc : byteAt text (p + 1) = 44
      · simp only [hc, if_true]
        rw [spec_field_at]
        by_cases hd3 : g_ascii_isdigit (byteAt text (p + 1 + 1)) = true
        · by_cases hd4 : g_ascii_isdigit (byteAt text (p + 1 + 1 + 1)) = true
          · simp only [hd3, hd4, if_true]
            simp [parse_color, hd0, hc, h44, hd3, hd4]
            exact ⟨fold1 _ hd0, fold2 _ _ hd3 hd4⟩
          · simp only [hd3, hd4, if_true]
            simp [parse_color, hd0, hc, h44, hd3, hd4]
            exact ⟨fold1 _ hd0, fold1 _ hd3⟩
        · simp only [hd3, if_false]
          simp [parse_color, hd0, hc, h44, hd3]
          exact fold1 _ hd0
      · simp only [hc, if_false]
        simp [parse_color, hd0, hd1, hc]
        exact fold1 _ hd0
  · simp [parse_color, hd0]

theorem skip_color_spec (text : List Nat) (p : Nat) (st : Style) :
    skip_color text p = (parse_color text (p + 1) st).1 := by
  unfold skip_color parse_color
  simp only []
  split_ifs <;> rfl

theorem spec_field_le (l : List Nat) (v n : Nat) (h : spec_field l = some (v, n)) :
    n ≤ l.length ∧ 1 ≤ n ∧ n ≤ 2 := by
  rcases l with _ | ⟨a, _ | ⟨b, l⟩⟩
  · simp [spec_field] at h
  · simp only [spec_field] at h
    split_ifs at h
    simp at h
    simp [← h.2]
  · simp only [spec_field] at h
    split_ifs at h <;> simp at h <;> simp [← h.2]

theorem spec_color_le (st : Style) (l : List Nat) : (spec_color st l).1 ≤ l.length := by
  unfold spec_color
  cases hf : spec_field l with
  | none => simp
  | some vn =>
    obtain ⟨v, n⟩ := vn
    have hn := (spec_field_le l v n hf).1
    simp only []
    split
    · next r heq =>
      have hl : (List.drop n l).length = r.length + 1 := by rw [heq]; simp
      rw [List.length_drop] at hl
      cases hg : spec_field r with
      | none => simp; omega
      | some wm =>
        obtain ⟨w, m⟩ := wm
        have hm := (spec_field_le r w m hg).1
        simp; omega
    · simpa using hn

theorem spec_color_len_indep (st st' : Style) (l : List Nat) :
    (spec_color st l).1 = (spec_color st' l).1 := by
  unfold spec_color
  cases spec_field l with
  | none => rfl
  | some vn =>
    obtain ⟨v, n⟩ := vn
    simp only []
    split
    · next r heq => cases spec_field r <;> rfl
    · rfl

theorem byteAt_of_drop (text : List Nat) (p c : Nat) (r : List Nat) (h : text.drop p = c :: r) :
    byteAt text p = c ∧ text.drop (p + 1) = r ∧ p < text.length := by
  have hp : p < text.length := by
    by_contra hn
    rw [List.drop_of_length_le (Nat.le_of_not_lt hn)] at h
    cases h
  rcases drop_cases text p with ⟨h1, _⟩ | h1
  · rw [h1] at h; cases h
  · rw [h1] at h
    injection h with ha hb
    exact ⟨ha, hb, hp⟩

theorem fe_switch_spec (text : List Nat) (p : Nat) (st : Style) (c : Nat) (r : List Nat)
    (h : text.drop p = c :: r) :
    fe_switch text p st =
      if c = ATTR_COLOR then some (p + 1 + (spec_color st r).1, (spec_color st r).2, false)
      else if c = ATTR_TAB then some (p + 1, st, true)
      else if is_control_code c = true then some (p + 1, spec_apply st c, false)
      else none := by
  obtain ⟨hc, hr, _⟩ := byteAt_of_drop text p c r h
  unfold fe_switch
  simp only [hc, parse_color_spec, hr]
  by_cases h3 : c = 3
  · subst h3; simp
  by_cases h9 : c = 9
  · subst h9; simp
  by_cases h2 : c = 2
  · subst h2; simp [spec_apply, is_control_code]
  by_cases h29 : c = 29
  · subst h29; simp [spec_apply, is_control_code]
  by_cases h31 : c = 31
  · subst h31; simp [spec_apply, is_control_code]
  by_cases h30 : c = 30
  · subst h30; simp [spec_apply, is_control_code]
  by_cases h8 : c = 8
  · subst h8; simp [spec_apply, is_control_code]
  by_cases h22 : c = 22
  · subst h22; simp [spec_apply, is_control_code]
  by_cases h15 : c = 15
  · subst h15; simp [spec_apply, is_control_code, Style.init]
  by_cases h7 : c = 7
  · subst h7; simp [spec_apply, is_control_code]
  by_cases h6 : c = 6
  · subst h6; simp [spec_apply, is_control_code]
  simp [h3, h9, h2, h29, h31, h30, h8, h22, h15, h7, h6, is_control_code]

/-! ## Lemmas: the scan loop of `fe_print_text` -/

theorem ops_text_append (b : Bool) (x y : List BufOp) :
    ops_text b (x ++ y) = ops_text b x ++ ops_text b y := by
  induction x with
  | nil => rfl
  | cons a x ih => cases a <;> simp [ops_text, ih]

theorem span_text_spans (ops : List BufOp) : span_text (spans ops) = ops_text false ops := by
  induction ops with
  | nil => rfl
  | cons a x ih => cases a <;> simp [ops_text, spans, span_text, ih]

theorem inserted_eq (ops : List BufOp) : inserted ops = ops_text true ops := by
  induction ops with
  | nil => rfl
  | cons a x ih => cases a <;> simp [ops_text, inserted, ih]

theorem slice_self (text : List Nat) (p : Nat) : slice text p p = [] := by
  simp [slice]

theorem slice_succ (text : List Nat) (a p c : Nat) (r : List Nat) (hle : a ≤ p)
    (h : text.drop p = c :: r) : slice text a (p + 1) = slice text a p ++ [c] := by
  unfold slice
  have h1 : p + 1 - a = (p - a) + 1 := by omega
  rw [h1, List.take_succ]
  congr 1
  have h2 : (List.drop a text)[p - a]? = some c := by
    rw [List.getElem?_drop]
    have h3 : a + (p - a) = p := by omega
    rw [h3]
    have := (byteAt_of_drop text p c r h)
    rw [List.getElem?_eq_getElem this.2.2]
    have h4 := this.1
    simp [byteAt, List.getD_eq_getElem?_getD, List.getElem?_eq_getElem this.2.2] at h4
    rw [h4]
  rw [h2]; rfl

theorem slice_to_end (text : List Nat) (a p : Nat) (h : text.length ≤ p) :
    slice text a p = text.drop a := by
  unfold slice
  apply List.take_of_length_le
  rw [List.length_drop]; omega

theorem byteAt_zero_len (text : List Nat) (h0 : is_cstr text) (p : Nat)
    (h : byteAt text p = 0) : text.length ≤ p := by
  by_contra hn
  have hp : p < text.length := Nat.lt_of_not_le hn
  have : byteAt text p ∈ text := by
    simp [byteAt, List.getD_eq_getElem?_getD, List.getElem?_eq_getElem hp]
  exact h0 _ this h

theorem cstr_from_eq (text : List Nat) (h0 : is_cstr text) (a : Nat) :
    cstr_from text a = text.drop a := by
  unfold cstr_from
  rw [List.takeWhile_eq_self_iff]
  intro b hb
  have := h0 b (List.mem_of_mem_drop hb)
  simpa using this

theorem spec_strip_skip (tab : List Nat) (k : Nat) (l : List Nat) :
    spec_strip tab k l = spec_strip tab 0 (l.drop k) := by
  induction k generalizing l with
  | zero => rfl
  | succ k ih =>
    cases l with
    | nil => simp [spec_strip]
    | cons a l => simp [spec_strip, ih]

theorem spec_strip_nil (tab : List Nat) (k : Nat) : spec_strip tab k [] = [] := by
  cases k <;> rfl

theorem drop_of_lt (text : List Nat) (p : Nat) (h : p < text.length) :
    ∃ c r, text.drop p = c :: r := by
  rcases drop_cases text p with ⟨h1, _⟩ | h1
  · have := congrArg List.length h1
    rw [List.length_drop] at this
    simp at this; omega
  · exact ⟨_, _, h1⟩

theorem flush_text (b : Bool) (text : List Nat) (s : PrintState) (hseg : s.segment_start ≤ s.p) :
    ops_text b (if s.p > s.segment_start then
        s.buf ++ [BufOp.span ⟨s.segment_start, slice text s.segment_start s.p, s.prev⟩]
      else s.buf) = ops_text b s.buf ++ slice text s.segment_start s.p := by
  by_cases hgt : s.p > s.segment_start
  · simp [hgt, ops_text_append, ops_text]
  · have : s.segment_start = s.p := by omega
    simp [hgt, this, slice_self]

theorem fe_print_step_code (text : List Nat) (s : PrintState) (q : Nat) (st' : Style)
    (sp : Bool) (h : fe_switch text s.p s.cur = some (q, st', sp)) :
    fe_print_step text s = ⟨q, q, st', st',
      if sp = true then
        (if s.p > s.segment_start then
          s.buf ++ [BufOp.span ⟨s.segment_start, slice text s.segment_start s.p, s.prev⟩]
        else s.buf) ++ [BufOp.plain [32]]
      else
        (if s.p > s.segment_start then
          s.buf ++ [BufOp.span ⟨s.segment_start, slice text s.segment_start s.p, s.prev⟩]
        else s.buf)⟩ := by
  simp [fe_print_step, h]

theorem fe_print_step_literal (text : List Nat) (s : PrintState)
    (h : fe_switch text s.p s.cur = none) :
    fe_print_step text s = ⟨s.p + 1, s.segment_start, s.cur, s.prev, s.buf⟩ := by
  simp [fe_print_step, h]

theorem byteAt_ne_zero_lt (text : List Nat) (p : Nat) (hz : byteAt text p ≠ 0) :
    p < text.length := by
  by_contra hn
  exact hz (by simp [byteAt, List.getD_eq_getElem?_getD, List.getElem?_eq_none (Nat.le_of_not_lt hn)])

theorem fe_print_loop_text (b : Bool) (text : List Nat) (h0 : is_cstr text) :
    ∀ (fuel : Nat) (s : PrintState), s.segment_start ≤ s.p → text.length ≤ s.p + fuel →
      text.length ≤ (fe_print_loop fuel text s).p ∧
      (fe_print_loop fuel text s).segment_start ≤ (fe_print_loop fuel text s).p ∧
      ops_text b (fe_print_loop fuel text s).buf
          ++ slice text (fe_print_loop fuel text s).segment_start (fe_print_loop fuel text s).p
        = ops_text b s.buf ++ slice text s.segment_start s.p
          ++ spec_strip (tab_text b) 0 (text.drop s.p) := by
  intro fuel
  induction fuel with
  | zero =>
    intro s hseg hlen
    have hl : text.length ≤ s.p := by omega
    simp [fe_print_loop, hseg, hl, List.drop_of_length_le hl, spec_strip]
  | succ fuel ih =>
    intro s hseg hlen
    unfold fe_print_loop
    by_cases hz : byteAt text s.p = 0
    · have hl : text.length ≤ s.p := byteAt_zero_len text h0 s.p hz
      simp [hz, hseg, hl, List.drop_of_length_le hl, spec_strip]
    · have hp : s.p < text.length := byteAt_ne_zero_lt text s.p hz
      obtain ⟨c, r, hd⟩ := drop_of_lt text s.p hp
      obtain ⟨hc, hr, _⟩ := byteAt_of_drop text s.p c r hd
      have hsw := fe_switch_spec text s.p s.cur c r hd
      simp only [hz, if_false]
      -- a step that ends a segment at `s.p` and resumes at `q`
      have aux : ∀ (q : Nat) (st' : Style) (sp : Bool) (extra : List Nat),
          fe_switch text s.p s.cur = some (q, st', sp) → s.p < q → 
          (if sp = true then tab_text b else []) = extra →
          spec_strip (tab_text b) 0 (text.drop s.p)
            = extra ++ spec_strip (tab_text b) 0 (text.drop q) →
          text.length ≤ (fe_print_loop fuel text (fe_print_step text s)).p ∧
          (fe_print_loop fuel text (fe_print_step text s)).segment_start
            ≤ (fe_print_loop fuel text (fe_print_step text s)).p ∧
          ops_text b (fe_print_loop fuel text (fe_print_step text s)).buf
            ++ slice text (fe_print_loop fuel text (fe_print_step text s)).segment_start
                (fe_print_loop fuel text (fe_print_step text s)).p
          = ops_text b s.buf ++ slice text s.segment_start s.p
            ++ spec_strip (tab_text b) 0 (text.drop s.p) := by
        intro q st' sp extra hq hlt hex hstrip
        rw [fe_print_step_code text s q st' sp hq]
        obtain ⟨i1, i2, i3⟩ := ih ⟨q, q, st', st', _⟩ (Nat.le_refl _)
          (by show text.length ≤ q + fuel; omega)
        refine ⟨i1, i2, ?_⟩
        rw [i3, hstrip]
        simp only [slice_self, List.append_nil]
        rw [← hex]
        cases sp
        · simp [flush_text b text s hseg]
        · simp [ops_text_append, flush_text b text s hseg, ops_text, tab_text]
      by_cases h3 : c = ATTR_COLOR
      · simp only [h3, if_true] at hsw
        apply aux _ _ _ [] hsw (by omega) (by simp)
        rw [hd, h3]
        simp only [spec_strip, if_true, List.nil_append]
        rw [spec_strip_skip, ← hr, List.drop_drop, spec_color_len_indep Style.init s.cur]
      · by_cases h9 : c = ATTR_TAB
        · simp only [h3, h9, if_true, if_false] at hsw
          apply aux _ _ _ (tab_text b) hsw (by omega) (by simp)
          rw [hd, h9, hr]
          simp [spec_strip]
        · by_cases hcc : is_control_code c = true
          · simp only [h3, h9, hcc, if_true, if_false] at hsw
            apply aux _ _ _ [] hsw (by omega) (by simp)
            rw [hd, hr]
            simp [spec_strip, h3, h9, hcc]
          · simp only [h3, h9, hcc, if_true, if_false] at hsw
            rw [fe_print_step_literal text s hsw]
            obtain ⟨i1, i2, i3⟩ := ih ⟨s.p + 1, s.segment_start, s.cur, s.prev, s.buf⟩
              (by show s.segment_start ≤ s.p + 1; omega)
              (by show text.length ≤ s.p + 1 + fuel; omega)
            refine ⟨i1, i2, ?_⟩
            rw [i3]
            simp only []
            rw [slice_succ text s.segment_start s.p c r hseg hd, hd, hr]
            simp [spec_strip, h3, h9, hcc]

theorem spans_append (x y : List BufOp) : spans (x ++ y) = spans x ++ spans y := by
  induction x with
  | nil => rfl
  | cons a x ih => cases a <;> simp [spans, ih]

theorem mem_spans_flush (text : List Nat) (s : PrintState) (sp : Span)
    (h : sp ∈ spans (if s.p > s.segment_start then
        s.buf ++ [BufOp.span ⟨s.segment_start, slice text s.segment_start s.p, s.prev⟩]
      else s.buf)) :
    sp ∈ spans s.buf ∨ sp = ⟨s.segment_start, slice text s.segment_start s.p, s.prev⟩ := by
  by_cases hgt : s.p > s.segment_start
  · simp only [hgt, if_true, spans_append, List.mem_append] at h
    rcases h with h | h
    · exact Or.inl h
    · right; simpa [spans] using h
  · simp only [hgt, if_false] at h
    exact Or.inl h

theorem spans_finish (text : List Nat) (s : PrintState) :
    spans (fe_print_finish text s) = spans (if s.p > s.segment_start then
        s.buf ++ [BufOp.span ⟨s.segment_start, cstr_from text s.segment_start, s.cur⟩]
      else s.buf) := by
  unfold fe_print_finish
  simp only []
  by_cases hn : strlen text = 0 ∨ byteAt text (strlen text - 1) ≠ 10
  · rw [if_pos hn, spans_append]
    simp [spans]
  · rw [if_neg hn]

theorem mem_spans_finish (text : List Nat) (s : PrintState) (sp : Span)
    (h : sp ∈ spans (fe_print_finish text s)) :
    sp ∈ spans s.buf ∨
      (s.p > s.segment_start ∧ sp = ⟨s.segment_start, cstr_from text s.segment_start, s.cur⟩) := by
  rw [spans_finish] at h
  by_cases hgt : s.p > s.segment_start
  · simp only [hgt, if_true, spans_append, List.mem_append] at h
    rcases h with h | h
    · exact Or.inl h
    · right; exact ⟨hgt, by simpa [spans] using h⟩
  · simp only [hgt, if_false] at h
    exact Or.inl h

theorem spec_style_scan_zero (k : Nat) (st : Style) (l : List Nat) :
    spec_style_scan k st l 0 = st := by
  cases l <;> cases k <;> rfl

theorem spec_style_scan_skip (k : Nat) (st : Style) (l : List Nat) (n : Nat) (h : k ≤ n) :
    spec_style_scan k st l n = spec_style_scan 0 st (l.drop k) (n - k) := by
  induction k generalizing l n with
  | zero => rfl
  | succ k ih =>
    cases l with
    | nil => cases n <;> simp [spec_style_scan]
    | cons a l =>
      cases n with
      | zero => omega
      | succ n =>
        simp only [spec_style_scan, List.drop_succ_cons]
        rw [ih l n (by omega)]
        congr 1
        omega

theorem spec_apply_literal (st : Style) (c : Nat) (h : is_control_code c = false) :
    spec_apply st c = st := by
  simp [is_control_code] at h
  simp [spec_apply, h]

theorem spec_apply_tab (st : Style) : spec_apply st ATTR_TAB = st := by
  simp [spec_apply]

theorem spans_step_buf (text : List Nat) (s : PrintState) (b : Bool) (sp : Span)
    (h : sp ∈ spans (if b = true then
        (if s.p > s.segment_start then
          s.buf ++ [BufOp.span ⟨s.segment_start, slice text s.segment_start s.p, s.prev⟩]
        else s.buf) ++ [BufOp.plain [32]]
      else
        (if s.p > s.segment_start then
          s.buf ++ [BufOp.span ⟨s.segment_start, slice text s.segment_start s.p, s.prev⟩]
        else s.buf))) :
    sp ∈ spans s.buf ∨ sp = ⟨s.segment_start, slice text s.segment_start s.p, s.prev⟩ := by
  cases b
  · exact mem_spans_flush text s sp (by simpa using h)
  · simp only [if_true, spans_append, spans, List.append_nil] at h
    exact mem_spans_flush text s sp h

theorem fe_print_loop_styles (text : List Nat) :
    ∀ (fuel : Nat) (s : PrintState), s.prev = s.cur → s.segment_start ≤ s.p →
      text.length ≤ s.p + fuel →
      ∀ sp ∈ spans (fe_print_finish text (fe_print_loop fuel text s)),
        sp ∈ spans s.buf ∨
        (s.segment_start ≤ sp.start ∧
          sp.style = spec_style_scan 0 s.cur (text.drop s.p) (sp.start - s.p)) := by
  intro fuel
  induction fuel with
  | zero =>
    intro s _ hseg _ sp hsp
    rcases mem_spans_finish text s sp hsp with h | ⟨_, h⟩
    · exact Or.inl h
    · right
      subst h
      simp [hseg, spec_style_scan_zero]
  | succ fuel ih =>
    intro s hprev hseg hlen sp hsp
    unfold fe_print_loop at hsp
    by_cases hz : byteAt text s.p = 0
    · simp only [hz, if_true] at hsp
      rcases mem_spans_finish text s sp hsp with h | ⟨_, h⟩
      · exact Or.inl h
      · right
        subst h
        simp [hseg, spec_style_scan_zero]
    · have hp : s.p < text.length := byteAt_ne_zero_lt text s.p hz
      obtain ⟨c, r, hd⟩ := drop_of_lt text s.p hp
      obtain ⟨hc, hr, _⟩ := byteAt_of_drop text s.p c r hd
      have hsw := fe_switch_spec text s.p s.cur c r hd
      simp only [hz, if_false] at hsp
      have aux : ∀ (q : Nat) (st' : Style) (b : Bool),
          fe_switch text s.p s.cur = some (q, st', b) → s.p < q →
          (∀ n, q ≤ n → spec_style_scan 0 s.cur (text.drop s.p) (n - s.p)
            = spec_style_scan 0 st' (text.drop q) (n - q)) →
          sp ∈ spans s.buf ∨
          (s.segment_start ≤ sp.start ∧
            sp.style = spec_style_scan 0 s.cur (text.drop s.p) (sp.start - s.p)) := by
        intro q st' b hq hlt hscan
        rw [fe_print_step_code text s q st' b hq] at hsp
        rcases ih ⟨q, q, st', st', _⟩ rfl (Nat.le_refl _)
          (by show text.length ≤ q + fuel; omega) sp hsp with h | ⟨h1, h2⟩
        · rcases spans_step_buf text s b sp h with h | h
          · exact Or.inl h
          · right
            subst h
            have : s.segment_start - s.p = 0 := by omega
            simp [this, spec_style_scan_zero, hprev]
        · right
          simp only [] at h1 h2
          exact ⟨by omega, by rw [h2, hscan sp.start h1]⟩
      by_cases h3 : c = ATTR_COLOR
      · simp only [h3, if_true] at hsw
        apply aux _ _ _ hsw (by omega)
        intro n hn
        have hle := spec_color_le s.cur r
        have e1 : n - s.p = (n - s.p - 1) + 1 := by omega
        rw [hd, h3, e1]
        simp only [spec_style_scan, if_true]
        rw [spec_style_scan_skip _ _ _ _ (by omega), ← hr, List.drop_drop]
        congr 1
        omega
      · by_cases h9 : c = ATTR_TAB
        · simp only [h3, h9, if_true, if_false] at hsw
          apply aux _ _ _ hsw (by omega)
          intro n hn
          have e1 : n - s.p = (n - (s.p + 1)) + 1 := by omega
          rw [hd, h9, e1, hr]
          simp [spec_style_scan, spec_apply_tab]
        · by_cases hcc : is_control_code c = true
          · simp only [h3, h9, hcc, if_true, if_false] at hsw
            apply aux _ _ _ hsw (by omega)
            intro n hn
            have e1 : n - s.p = (n - (s.p + 1)) + 1 := by omega
            rw [hd, e1, hr]
            simp [spec_style_scan, h3]
          · simp only [h3, h9, hcc, if_true, if_false] at hsw
            rw [fe_print_step_literal text s hsw] at hsp
            rcases ih ⟨s.p + 1, s.segment_start, s.cur, s.prev, s.buf⟩ hprev
              (by show s.segment_start ≤ s.p + 1; omega)
              (by show text.length ≤ s.p + 1 + fuel; omega) sp hsp with h | ⟨h1, h2⟩
            · exact Or.inl h
            · right
              simp only [] at h1 h2
              refine ⟨h1, ?_⟩
              rw [h2, hr, hd]
              by_cases hle : sp.start ≤ s.p
              · have e1 : sp.start - (s.p + 1) = 0 := by omega
                have e2 : sp.start - s.p = 0 := by omega
                rw [e1, e2, spec_style_scan_zero, spec_style_scan_zero]
              · have e1 : sp.start - s.p = (sp.start - (s.p + 1)) + 1 := by omega
                rw [e1]
                have hcf : is_control_code c = false := by simpa using hcc
                simp [spec_style_scan, h3, spec_apply_literal _ _ hcf]

theorem fe_print_finish_text (b : Bool) (text : List Nat) (h0 : is_cstr text) (s : PrintState)
    (hseg : s.segment_start ≤ s.p) (hl : text.length ≤ s.p) :
    ops_text b (fe_print_finish text s)
      = ops_text b s.buf ++ slice text s.segment_start s.p
        ++ ops_text b (if strlen text = 0 ∨ byteAt text (strlen text - 1) ≠ 10
            then [BufOp.plain [10]] else []) := by
  unfold fe_print_finish
  simp only []
  have h1 : ops_text b (if s.p > s.segment_start then
        s.buf ++ [BufOp.span ⟨s.segment_start, cstr_from text s.segment_start, s.cur⟩]
      else s.buf) = ops_text b s.buf ++ slice text s.segment_start s.p := by
    rw [cstr_from_eq text h0, slice_to_end text _ _ hl]
    by_cases hgt : s.p > s.segment_start
    · simp [hgt, ops_text_append, ops_text]
    · have e : s.segment_start = s.p := by omega
      simp [hgt, e, List.drop_of_length_le hl]
  by_cases hn : strlen text = 0 ∨ byteAt text (strlen text - 1) ≠ 10
  · rw [if_pos hn, if_pos hn, ops_text_append, h1]
  · rw [if_neg hn, if_neg hn, h1]
    simp [ops_text]

theorem byteAt_append_cons (a : List Nat) (c : Nat) (b : List Nat) :
    byteAt (a ++ c :: b) a.length = c :=
  (byteAt_of_drop (a ++ c :: b) a.length c b (by simp)).1

theorem drop_append_cons (a : List Nat) (c : Nat) (b : List Nat) :
    (a ++ c :: b).drop a.length = c :: b := by
  simp

theorem fe_print_loop_literal (text : List Nat) (h0 : is_cstr text)
    (hlit : ∀ b ∈ text, is_control_code b = false) :
    ∀ (fuel : Nat) (s : PrintState), s.p ≤ text.length → text.length ≤ s.p + fuel →
      fe_print_loop fuel text s = ⟨text.length, s.segment_start, s.cur, s.prev, s.buf⟩ := by
  intro fuel
  induction fuel with
  | zero =>
    intro s h1 h2
    have : s.p = text.length := by omega
    simp [fe_print_loop, ← this]
  | succ fuel ih =>
    intro s h1 h2
    unfold fe_print_loop
    by_cases hz : byteAt text s.p = 0
    · have hl := byteAt_zero_len text h0 s.p hz
      have : s.p = text.length := by omega
      simp [hz, ← this]
    · have hp : s.p < text.length := byteAt_ne_zero_lt text s.p hz
      obtain ⟨c, r, hd⟩ := drop_of_lt text s.p hp
      have hsw := fe_switch_spec text s.p s.cur c r hd
      have hmem : c ∈ text := List.mem_of_mem_drop (by rw [hd]; simp)
      have hc := hlit c hmem
      have h3 : c ≠ ATTR_COLOR := by intro h; rw [h] at hc; simp [is_control_code] at hc
      have h9 : c ≠ ATTR_TAB := by intro h; rw [h] at hc; simp [is_control_code] at hc
      simp only [h3, h9, hc, if_false, Bool.false_eq_true] at hsw
      simp only [hz, if_false]
      rw [fe_print_step_literal text s hsw]
      exact ih ⟨s.p + 1, s.segment_start, s.cur, s.prev, s.buf⟩ (by show s.p + 1 ≤ _; omega)
        (by show text.length ≤ s.p + 1 + fuel; omega)

theorem byteAt_replicate (n c p : Nat) (h : p < n) : byteAt (List.replicate n c) p = c := by
  simp [byteAt, List.getD_eq_getElem?_getD, List.getElem?_replicate, h]

theorem fe_print_loop_replicate (c : Nat) (f : Style → Style) (hc : c ≠ 0)
    (hf : ∀ (text : List Nat) (p : Nat) (st : Style), byteAt text p = c →
      fe_switch text p st = some (p + 1, f st, false)) (n : Nat) :
    ∀ (fuel : Nat) (s : PrintState), s.p + fuel = n →
      (fe_print_loop fuel (List.replicate n c) s).cur = f^[fuel] s.cur := by
  intro fuel
  induction fuel with
  | zero => intro s _; rfl
  | succ fuel ih =>
    intro s hs
    have hb : byteAt (List.replicate n c) s.p = c := byteAt_replicate n c s.p (by omega)
    unfold fe_print_loop
    rw [hb, if_neg hc, fe_print_step_code _ s _ _ _ (hf _ s.p s.cur hb)]
    rw [ih _ (by show s.p + 1 + fuel = n; omega)]
    rw [Function.iterate_succ_apply]

theorem iterate_involutive (f : Style → Style) (hf : ∀ st, f (f st) = st) (n : Nat)
    (st : Style) : f^[n] st = if n % 2 = 0 then st else f st := by
  induction n with
  | zero => rfl
  | succ n ih =>
    rw [Function.iterate_succ_apply', ih]
    by_cases h : n % 2 = 0
    · have : (n + 1) % 2 ≠ 0 := by omega
      simp [h, this]
    · have : (n + 1) % 2 = 0 := by omega
      simp [h, this, hf]

theorem run_style_replicate (c : Nat) (f : Style → Style) (hc : c ≠ 0)
    (hf : ∀ (text : List Nat) (p : Nat) (st : Style), byteAt text p = c →
      fe_switch text p st = some (p + 1, f st, false))
    (hinv : ∀ st, f (f st) = st) (n : Nat) (st : Style) :
    run_style st (List.replicate n c) = if n % 2 = 0 then st else f st := by
  unfold run_style
  rw [List.length_replicate,
    fe_print_loop_replicate c f hc hf n n (PrintState.start st) (by simp [PrintState.start])]
  exact iterate_involutive f hinv n st

theorem fe_switch_color (a b : List Nat) (st : Style) :
    fe_switch (a ++ ATTR_COLOR :: b) a.length st
      = some (a.length + 1 + (spec_color st b).1, (spec_color st b).2, false) := by
  rw [fe_switch_spec _ _ _ ATTR_COLOR b (drop_append_cons a ATTR_COLOR b)]
  simp

theorem fe_switch_literal (text : List Nat) (q : Nat) (st : Style)
    (h : is_control_code (byteAt text q) = false) : fe_switch text q st = none := by
  simp only [is_control_code, Bool.or_eq_false_iff, beq_eq_false_iff_ne] at h
  unfold fe_switch
  simp [h]

theorem digit_not_control (c : Nat) (h : g_ascii_isdigit c = true) :
    is_control_code c = false := by
  simp only [g_ascii_isdigit, Bool.and_eq_true, decide_eq_true_eq] at h
  simp only [is_control_code, Bool.or_eq_false_iff, beq_eq_false_iff_ne, ATTR_BOLD, ATTR_COLOR,
    ATTR_BLINK, ATTR_BEEP, ATTR_HIDDEN, ATTR_TAB, ATTR_RESET, ATTR_REVERSE, ATTR_ITALICS,
    ATTR_STRIKETHROUGH, ATTR_UNDERLINE]
  omega

theorem fe_switch_digit (text : List Nat) (q : Nat) (st : Style)
    (h : g_ascii_isdigit (byteAt text q) = true) : fe_switch text q st = none :=
  fe_switch_literal text q st (digit_not_control _ h)

theorem spec_color_digits (st : Style) (l : List Nat) (v n : Nat)
    (hf : spec_field l = some (v, n)) :
    spec_color st l =
      if byteAt l n = 44 then
        match spec_field (l.drop (n + 1)) with
        | some (w, m) =>
          (n + 1 + m, { st with fg_color := spec_fold v, bg_color := spec_fold w })
        | none => (n + 1, { st with fg_color := spec_fold v })
      else (n, { st with fg_color := spec_fold v }) := by
  have h := spec_color_at st l 0
  simp only [List.drop_zero, hf, Nat.zero_add] at h
  exact h

/-! ## Lemmas: the loops of `apply_url_tags_to_line` -/

theorem skip_color_eq (text : List Nat) (p : Nat) :
    skip_color text p = p + 1 + (spec_color Style.init (text.drop (p + 1))).1 := by
  rw [skip_color_spec text p Style.init, parse_color_spec]

theorem skip_color_le (text : List Nat) (p : Nat) (h : p < text.length) :
    p + 1 ≤ skip_color text p ∧ skip_color text p ≤ text.length := by
  rw [skip_color_eq]
  have := spec_color_le Style.init (text.drop (p + 1))
  rw [List.length_drop] at this
  omega

theorem control_code_cases (c : Nat) :
    is_control_code c = (is_format_code c || c == ATTR_COLOR || c == ATTR_TAB) := by
  simp only [is_control_code, is_format_code]
  cases (c == ATTR_BOLD) <;> cases (c == ATTR_COLOR) <;> cases (c == ATTR_BLINK) <;>
  cases (c == ATTR_BEEP) <;> cases (c == ATTR_HIDDEN) <;> cases (c == ATTR_TAB) <;>
  cases (c == ATTR_RESET) <;> cases (c == ATTR_REVERSE) <;> cases (c == ATTR_ITALICS) <;>
  cases (c == ATTR_STRIKETHROUGH) <;> cases (c == ATTR_UNDERLINE) <;> rfl

theorem runs_space_head (tab : List Nat) (cur : List Nat) (c : Nat) (r : List Nat)
    (hs : g_ascii_isspace c = true) (hc : is_control_code c = false) :
    spec_runs cur (spec_strip tab 0 (c :: r))
      = close_run cur (spec_runs [] (spec_strip tab 0 r)) := by
  have h3 : c ≠ ATTR_COLOR := by intro h; rw [h] at hc; simp [is_control_code] at hc
  have h9 : c ≠ ATTR_TAB := by intro h; rw [h] at hc; simp [is_control_code] at hc
  simp only [spec_strip, h3, h9, hc, if_false, Bool.false_eq_true]
  simp [spec_runs, hs, close_run]

theorem runs_tab_head (cur : List Nat) (r : List Nat) :
    spec_runs cur (spec_strip [32] 0 (ATTR_TAB :: r))
      = close_run cur (spec_runs [] (spec_strip [32] 0 r)) := by
  simp [spec_strip, spec_runs, g_ascii_isspace, close_run]

theorem runs_white_head (cur : List Nat) (c : Nat) (r : List Nat)
    (hs : g_ascii_isspace c = true) :
    spec_runs cur (spec_strip [32] 0 (c :: r))
      = close_run cur (spec_runs [] (spec_strip [32] 0 r)) := by
  by_cases h9 : c = ATTR_TAB
  · rw [h9]; exact runs_tab_head cur r
  · apply runs_space_head _ cur c r hs
    simp only [g_ascii_isspace, Bool.or_eq_true, beq_iff_eq] at hs
    rcases hs with (((h | h) | h) | h) | h
    · subst h; decide
    · exact absurd h h9
    · subst h; decide
    · subst h; decide
    · subst h; decide

theorem runs_literal_head (tab : List Nat) (cur : List Nat) (c : Nat) (r : List Nat)
    (hs : g_ascii_isspace c = false) (hc : is_control_code c = false) :
    spec_runs cur (spec_strip tab 0 (c :: r))
      = spec_runs (cur ++ [c]) (spec_strip tab 0 r) := by
  have h3 : c ≠ ATTR_COLOR := by intro h; rw [h] at hc; simp [is_control_code] at hc
  have h9 : c ≠ ATTR_TAB := by intro h; rw [h] at hc; simp [is_control_code] at hc
  simp only [spec_strip, h3, h9, hc, if_false, Bool.false_eq_true]
  simp [spec_runs, hs]

theorem strip_format_head (tab : List Nat) (c : Nat) (r : List Nat)
    (hf : is_format_code c = true) :
    spec_strip tab 0 (c :: r) = spec_strip tab 0 r := by
  have hcc : is_control_code c = true := by rw [control_code_cases, hf]; rfl
  have h3 : c ≠ ATTR_COLOR := by intro h; rw [h] at hf; simp [is_format_code] at hf
  have h9 : c ≠ ATTR_TAB := by intro h; rw [h] at hf; simp [is_format_code] at hf
  simp [spec_strip, h3, h9, hcc]

theorem strip_color_head (tab : List Nat) (r : List Nat) :
    spec_strip tab 0 (ATTR_COLOR :: r)
      = spec_strip tab 0 (r.drop (spec_color Style.init r).1) := by
  simp only [spec_strip, if_true]
  rw [spec_strip_skip]

theorem close_run_nil (rest : List (List Nat)) : close_run [] rest = rest := by
  simp [close_run]

theorem url_word_end_spec (text : List Nat) (h0 : is_cstr text) :
    ∀ (fuel p off : Nat), p ≤ text.length → text.length ≤ p + fuel →
      ∃ w : List Nat,
        (url_word_end fuel text p off).2 = off + w.length ∧
        p ≤ (url_word_end fuel text p off).1 ∧
        (url_word_end fuel text p off).1 ≤ text.length ∧
        (∀ (fuel2 : Nat) (dst : List Nat), (url_word_end fuel text p off).1 ≤ p + fuel2 →
          url_extract fuel2 text p (url_word_end fuel text p off).1 dst = dst ++ w) ∧
        (∀ cur : List Nat, spec_runs cur (spec_strip [32] 0 (text.drop p))
          = close_run (cur ++ w)
              (spec_runs [] (spec_strip [32] 0 (text.drop (url_word_end fuel text p off).1)))) ∧
        (0 < fuel → byteAt text p ≠ 0 → g_ascii_isspace (byteAt text p) = false →
          is_control_code (byteAt text p) = false → w ≠ []) := by
  intro fuel
  induction fuel with
  | zero =>
    intro p off hp hlen
    have hl : text.length ≤ p := by omega
    refine ⟨[], by simp [url_word_end], by simp [url_word_end], by simpa [url_word_end] using hp,
      ?_, ?_, ?_⟩
    · intro fuel2 dst _
      cases fuel2 <;> simp [url_word_end, url_extract]
    · intro cur
      simp [url_word_end, List.drop_of_length_le hl, spec_strip, spec_runs, close_run]
    · intro h; omega
  | succ fuel ih =>
    intro p off hp hlen
    -- the loop stops at `p`
    have stop : (url_word_end (fuel + 1) text p off = (p, off)) →
        (byteAt text p ≠ 0 → g_ascii_isspace (byteAt text p) = true) →
        (∀ cur : List Nat, spec_runs cur (spec_strip [32] 0 (text.drop p))
          = close_run cur (spec_runs [] (spec_strip [32] 0 (text.drop p)))) →
        ∃ w : List Nat,
        (url_word_end (fuel + 1) text p off).2 = off + w.length ∧
        p ≤ (url_word_end (fuel + 1) text p off).1 ∧
        (url_word_end (fuel + 1) text p off).1 ≤ text.length ∧
        (∀ (fuel2 : Nat) (dst : List Nat), (url_word_end (fuel + 1) text p off).1 ≤ p + fuel2 →
          url_extract fuel2 text p (url_word_end (fuel + 1) text p off).1 dst = dst ++ w) ∧
        (∀ cur : List Nat, spec_runs cur (spec_strip [32] 0 (text.drop p))
          = close_run (cur ++ w) (spec_runs [] (spec_strip [32] 0
              (text.drop (url_word_end (fuel + 1) text p off).1)))) ∧
        (0 < fuel + 1 → byteAt text p ≠ 0 → g_ascii_isspace (byteAt text p) = false →
          is_control_code (byteAt text p) = false → w ≠ []) := by
      intro he hcontra hw
      rw [he]
      refine ⟨[], by simp, by simp, by simpa using hp, ?_, ?_, ?_⟩
      · intro fuel2 dst _
        cases fuel2 <;> simp [url_extract]
      · intro cur
        simpa using hw cur
      · intro _ h1 h2 h3
        exact absurd h2 (by simpa using hcontra h1)
    by_cases hz : byteAt text p = 0
    · have hl := byteAt_zero_len text h0 p hz
      apply stop
      · simp [url_word_end, hz]
      · intro h; exact absurd hz h
      · intro cur
        simp [List.drop_of_length_le hl, spec_strip, spec_runs, close_run]
    · have hlt : p < text.length := byteAt_ne_zero_lt text p hz
      obtain ⟨c, r, hd⟩ := drop_of_lt text p hlt
      obtain ⟨hc, hr, _⟩ := byteAt_of_drop text p c r hd
      by_cases hs : g_ascii_isspace c = true
      · apply stop
        · simp [url_word_end, hc, hs]
        · intro _; rw [hc]; exact hs
        · intro cur
          rw [hd, runs_white_head cur c r hs, runs_white_head [] c r hs, close_run_nil]
      · have hsf : g_ascii_isspace c = false := by simpa using hs
        have h9 : c ≠ ATTR_TAB := by intro h; rw [h] at hsf; simp [g_ascii_isspace] at hsf
        have hc0 : c ≠ 0 := by rw [← hc]; exact hz
        -- a step over a code from `p` to `q`
        have code : ∀ q : Nat, p < q → q ≤ text.length →
            url_word_end (fuel + 1) text p off = url_word_end fuel text q off →
            (∀ (fuel2 : Nat) (e : Nat) (dst : List Nat), p < e →
              url_extract (fuel2 + 1) text p e dst = url_extract fuel2 text q e dst) →
            spec_strip [32] 0 (text.drop p) = spec_strip [32] 0 (text.drop q) →
            is_control_code c = true →
            ∃ w : List Nat,
            (url_word_end (fuel + 1) text p off).2 = off + w.length ∧
            p ≤ (url_word_end (fuel + 1) text p off).1 ∧
            (url_word_end (fuel + 1) text p off).1 ≤ text.length ∧
            (∀ (fuel2 : Nat) (dst : List Nat),
              (url_word_end (fuel + 1) text p off).1 ≤ p + fuel2 →
              url_extract fuel2 text p (url_word_end (fuel + 1) text p off).1 dst = dst ++ w) ∧
            (∀ cur : List Nat, spec_runs cur (spec_strip [32] 0 (text.drop p))
              = close_run (cur ++ w) (spec_runs [] (spec_strip [32] 0
                  (text.drop (url_word_end (fuel + 1) text p off).1)))) ∧
            (0 < fuel + 1 → byteAt text p ≠ 0 → g_ascii_isspace (byteAt text p) = false →
              is_control_code (byteAt text p) = false → w ≠ []) := by
          intro q hpq hq he hex hst hctl
          obtain ⟨w, i1, i2, i3, i4, i5, _⟩ := ih q off hq (by omega)
          rw [he]
          refine ⟨w, i1, by omega, i3, ?_, ?_, ?_⟩
          · intro fuel2 dst hf2
            cases fuel2 with
            | zero => omega
            | succ fuel2 =>
              rw [hex fuel2 _ dst (by omega)]
              exact i4 fuel2 dst (by omega)
          · intro cur
            rw [hst]
            exact i5 cur
          · intro _ _ _ h4
            rw [hc, hctl] at h4
            cases h4
        by_cases hfc : is_format_code c = true
        · apply code (p + 1) (by omega) (by omega)
          · simp [url_word_end, hc, hs, hc0, h9, hfc]
          · intro fuel2 e dst hpe
            simp [url_extract, hpe, hc, hfc]
          · rw [hd, hr, strip_format_head _ c r hfc]
          · rw [control_code_cases, hfc]; rfl
        · by_cases h3 : c = ATTR_COLOR
          · have hsk := skip_color_le text p hlt
            apply code (skip_color text p) (by omega) hsk.2
            · simp [url_word_end, hc, h3, g_ascii_isspace, is_format_code]
            · intro fuel2 e dst hpe
              have : skip_color text p - 1 + 1 = skip_color text p := by omega
              simp [url_extract, hpe, hc, h3, is_format_code, this]
            · rw [hd, h3, strip_color_head, skip_color_eq, hr, ← hr, List.drop_drop]
            · rw [h3]; rfl
          · -- a literal byte of the word
            have hcc : is_control_code c = false := by
              rw [control_code_cases]
              simp [hfc, h3, h9]
            obtain ⟨w, i1, i2, i3, i4, i5, _⟩ := ih (p + 1) (off + 1) (by omega) (by omega)
            have he : url_word_end (fuel + 1) text p off
                = url_word_end fuel text (p + 1) (off + 1) := by
              simp [url_word_end, hc, hs, hc0, h9, hfc, h3]
            rw [he]
            refine ⟨c :: w, by rw [i1]; simp; omega, by omega, i3, ?_, ?_, by simp⟩
            · intro fuel2 dst hf2
              cases fuel2 with
              | zero => omega
              | succ fuel2 =>
                have hpe : p < (url_word_end fuel text (p + 1) (off + 1)).1 := by omega
                have : url_extract (fuel2 + 1) text p (url_word_end fuel text (p + 1) (off + 1)).1 dst
                    = url_extract fuel2 text (p + 1) (url_word_end fuel text (p + 1) (off + 1)).1
                        (dst ++ [c]) := by
                  simp [url_extract, hpe, hc, hfc, h3]
                rw [this, i4 fuel2 (dst ++ [c]) (by omega)]
                simp
            · intro cur
              rw [hd, runs_literal_head _ cur c r hsf hcc, ← hr, i5 (cur ++ [c])]
              simp

theorem url_words_append (x y : List UrlWord) : url_words (x ++ y) = url_words x ++ url_words y := by
  simp [url_words]

theorem url_loop_words (url_check_word : List Nat → Int) (line_start_offset : Int)
    (text : List Nat) (h0 : is_cstr text) :
    ∀ (fuel : Nat) (s : UrlState), s.p ≤ text.length → text.length ≤ s.p + fuel →
      url_words (url_loop url_check_word line_start_offset fuel text s).out
        = url_words s.out ++ spec_runs [] (spec_strip [32] 0 (text.drop s.p)) := by
  intro fuel
  induction fuel with
  | zero =>
    intro s hp hlen
    have hl : text.length ≤ s.p := by omega
    simp [url_loop, List.drop_of_length_le hl, spec_strip, spec_runs]
  | succ fuel ih =>
    intro s hp hlen
    unfold url_loop
    by_cases hz : byteAt text s.p = 0
    · have hl := byteAt_zero_len text h0 s.p hz
      simp [hz, List.drop_of_length_le hl, spec_strip, spec_runs]
    · have hlt : s.p < text.length := byteAt_ne_zero_lt text s.p hz
      obtain ⟨c, r, hd⟩ := drop_of_lt text s.p hlt
      obtain ⟨hc, hr, _⟩ := byteAt_of_drop text s.p c r hd
      simp only [hz, if_false]
      by_cases hfc : is_format_code c = true
      · have hst : url_step url_check_word line_start_offset text s
            = ⟨s.p + 1, s.text_offset, s.out⟩ := by
          simp [url_step, hc, hfc]
        rw [hst, ih _ (by show s.p + 1 ≤ _; omega) (by show _ ≤ s.p + 1 + fuel; omega)]
        simp only []
        rw [hd, hr, strip_format_head _ c r hfc]
      · by_cases h3 : c = ATTR_COLOR
        · have hsk := skip_color_le text s.p hlt
          have hst : url_step url_check_word line_start_offset text s
              = ⟨skip_color text s.p, s.text_offset, s.out⟩ := by
            simp [url_step, hc, h3, is_format_code]
          rw [hst, ih _ (by show skip_color text s.p ≤ _; omega)
            (by show _ ≤ skip_color text s.p + fuel; omega)]
          simp only []
          rw [hd, h3, strip_color_head, skip_color_eq, hr, ← hr, List.drop_drop]
        · by_cases hs : g_ascii_isspace c = true
          · have hst : url_step url_check_word line_start_offset text s
                = ⟨s.p + 1, s.text_offset + 1, s.out⟩ := by
              simp [url_step, hc, hfc, h3, hs]
            rw [hst, ih _ (by show s.p + 1 ≤ _; omega) (by show _ ≤ s.p + 1 + fuel; omega)]
            simp only []
            rw [hd, hr, runs_white_head [] c r hs, close_run_nil]
          · have hsf : g_ascii_isspace c = false := by simpa using hs
            have h9 : c ≠ ATTR_TAB := by
              intro h; rw [h] at hsf; simp [g_ascii_isspace] at hsf
            have hcc : is_control_code c = false := by
              rw [control_code_cases]
              simp [hfc, h3, h9]
            obtain ⟨w, i1, i2, i3, i4, i5, i6⟩ :=
              url_word_end_spec text h0 text.length s.p s.text_offset hp (by omega)
            have hw : w ≠ [] := i6 (by omega) hz (by rw [hc]; exact hsf) (by rw [hc]; exact hcc)
            have hprog : s.p < (url_word_end text.length text s.p s.text_offset).1 := by
              by_contra hn
              have hx := i4 0 [] (by omega)
              simp only [url_extract, List.nil_append] at hx
              exact hw hx.symm
            have hst : url_step url_check_word line_start_offset text s
                = ⟨(url_word_end text.length text s.p s.text_offset).1,
                    (url_word_end text.length text s.p s.text_offset).2,
                    s.out ++ [⟨w, line_start_offset + (s.text_offset : Int),
                      line_start_offset + ((url_word_end text.length text s.p s.text_offset).2 : Int),
                      decide (url_check_word w > 0)⟩]⟩ := by
              have hx := i4 text.length [] (by omega)
              simp only [List.nil_append] at hx
              simp [url_step, hc, hfc, h3, hs, hx]
            rw [hst, ih _ i3 (by show _ ≤ (url_word_end text.length text s.p s.text_offset).1 + fuel; omega)]
            simp only []
            rw [url_words_append, i5 []]
            simp [url_words, close_run, hw]

/-! ## Lemmas: span slices and flag parity -/

theorem take_length_take (l : List Nat) (n : Nat) : l.take (l.take n).length = l.take n := by
  rw [List.length_take]
  by_cases h : n ≤ l.length
  · rw [Nat.min_eq_left h]
  · have h1 : l.length ≤ n := by omega
    rw [Nat.min_eq_right h1, List.take_of_length_le h1, List.take_of_length_le (Nat.le_refl _)]

theorem slice_length_self (text : List Nat) (a b : Nat) :
    slice text a (a + (slice text a b).length) = slice text a b := by
  unfold slice
  rw [Nat.add_sub_cancel_left]
  exact take_length_take _ _

theorem takeWhile_eq_take (p : Nat → Bool) (l : List Nat) :
    l.take (l.takeWhile p).length = l.takeWhile p := by
  induction l with
  | nil => rfl
  | cons a l ih =>
    by_cases h : p a = true
    · simp [List.takeWhile_cons, h, ih]
    · simp [List.takeWhile_cons, h]

theorem cstr_from_slice (text : List Nat) (a : Nat) :
    slice text a (a + (cstr_from text a).length) = cstr_from text a := by
  unfold slice cstr_from
  rw [Nat.add_sub_cancel_left]
  exact takeWhile_eq_take _ _

theorem fe_print_loop_slices (text : List Nat) :
    ∀ (fuel : Nat) (s : PrintState),
      ∀ sp ∈ spans (fe_print_finish text (fe_print_loop fuel text s)),
        sp ∈ spans s.buf ∨ sp.text = slice text sp.start (sp.start + sp.text.length) := by
  intro fuel
  induction fuel with
  | zero =>
    intro s sp hsp
    rcases mem_spans_finish text s sp hsp with h | ⟨_, h⟩
    · exact Or.inl h
    · right; subst h; exact (cstr_from_slice text _).symm
  | succ fuel ih =>
    intro s sp hsp
    unfold fe_print_loop at hsp
    by_cases hz : byteAt text s.p = 0
    · simp only [hz, if_true] at hsp
      rcases mem_spans_finish text s sp hsp with h | ⟨_, h⟩
      · exact Or.inl h
      · right; subst h; exact (cstr_from_slice text _).symm
    · simp only [hz, if_false] at hsp
      cases hsw : fe_switch text s.p s.cur with
      | none =>
        rw [fe_print_step_literal text s hsw] at hsp
        exact ih ⟨s.p + 1, s.segment_start, s.cur, s.prev, s.buf⟩ sp hsp
      | some res =>
        obtain ⟨q, st', b⟩ := res
        rw [fe_print_step_code text s q st' b hsw] at hsp
        rcases ih _ sp hsp with h | h
        · rcases spans_step_buf text s b sp h with h | h
          · exact Or.inl h
          · right; subst h; exact (slice_length_self text _ _).symm
        · exact Or.inr h

theorem spec_field_digits (l : List Nat) (v n : Nat) (h : spec_field l = some (v, n)) :
    ∀ x ∈ l.take n, g_ascii_isdigit x = true := by
  rcases l with _ | ⟨a, _ | ⟨b, l⟩⟩
  · simp [spec_field] at h
  · simp only [spec_field] at h
    split_ifs at h with ha
    simp at h
    intro x hx
    rw [← h.2] at hx
    simp at hx
    rw [hx]; exact ha
  · simp only [spec_field] at h
    split_ifs at h with ha hb
    · simp at h
      intro x hx
      rw [← h.2] at hx
      simp at hx
      rcases hx with hx | hx
      · rw [hx]; exact ha
      · rw [hx]; exact hb
    · simp at h
      intro x hx
      rw [← h.2] at hx
      simp at hx
      rw [hx]; exact ha

theorem spec_color_args (st : Style) (l : List Nat) :
    ∀ x ∈ l.take (spec_color st l).1, g_ascii_isdigit x = true ∨ x = 44 := by
  unfold spec_color
  cases hf : spec_field l with
  | none => simp
  | some vn =>
    obtain ⟨v, n⟩ := vn
    have hdig := spec_field_digits l v n hf
    simp only []
    split
    · next r heq =>
      have hl : l = l.take n ++ 44 :: r := by
        rw [← heq, List.take_append_drop]
      have hn : (l.take n).length = n := by
        rw [List.length_take]
        exact Nat.min_eq_left (spec_field_le l v n hf).1
      cases hg : spec_field r with
      | none =>
        intro x hx
        simp only [] at hx
        rw [hl, List.take_append_eq_append_take, hn] at hx
        simp at hx
        rcases hx with hx | hx
        · left
          apply hdig
          have := List.mem_of_mem_take hx
          exact this
        · right; exact hx
      | some wm =>
        obtain ⟨w, m⟩ := wm
        have hdig2 := spec_field_digits r w m hg
        intro x hx
        simp only [] at hx
        rw [hl, List.take_append_eq_append_take, hn] at hx
        have e : n + 1 + m - n = m + 1 := by omega
        rw [e, List.take_succ_cons] at hx
        simp only [List.mem_append, List.mem_cons] at hx
        rcases hx with hx | hx | hx
        · left
          exact hdig x (List.mem_of_mem_take hx)
        · right; exact hx
        · left; exact hdig2 x hx
    · intro x hx
      left
      exact hdig x hx

theorem count_drop_color (st : Style) (c : Nat) (r : List Nat)
    (hnd : g_ascii_isdigit c = false) (hn44 : c ≠ 44) :
    r.count c = (r.drop (spec_color st r).1).count c := by
  have h := List.take_append_drop (spec_color st r).1 r
  have hz : (r.take (spec_color st r).1).count c = 0 := by
    rw [List.count_eq_zero]
    intro hmem
    rcases spec_color_args st r c hmem with h1 | h1
    · rw [hnd] at h1; cases h1
    · exact hn44 h1
  calc r.count c
      = (r.take (spec_color st r).1 ++ r.drop (spec_color st r).1).count c := by rw [h]
    _ = (r.drop (spec_color st r).1).count c := by rw [List.count_append, hz, Nat.zero_add]

theorem fe_print_loop_parity (c : Nat) (g : Style → Bool)
    (hflip : ∀ st, g (spec_apply st c) = !g st)
    (hkeep : ∀ st c', c' ≠ c → c' ≠ ATTR_RESET → g (spec_apply st c') = g st)
    (hcol : ∀ st l, g (spec_color st l).2 = g st)
    (hc3 : c ≠ ATTR_COLOR) (hc9 : c ≠ ATTR_TAB) (hcc : is_control_code c = true)
    (hnd : g_ascii_isdigit c = false) (hn44 : c ≠ 44)
    (text : List Nat) (h0 : is_cstr text) (hnr : ATTR_RESET ∉ text) :
    ∀ (fuel : Nat) (s : PrintState), text.length ≤ s.p + fuel →
      g (fe_print_loop fuel text s).cur
        = if (text.drop s.p).count c % 2 = 0 then g s.cur else !g s.cur := by
  intro fuel
  induction fuel with
  | zero =>
    intro s hlen
    have hl : text.length ≤ s.p := by omega
    simp [fe_print_loop, List.drop_of_length_le hl]
  | succ fuel ih =>
    intro s hlen
    unfold fe_print_loop
    by_cases hz : byteAt text s.p = 0
    · have hl := byteAt_zero_len text h0 s.p hz
      simp [hz, List.drop_of_length_le hl]
    · have hp : s.p < text.length := byteAt_ne_zero_lt text s.p hz
      obtain ⟨x, r, hd⟩ := drop_of_lt text s.p hp
      obtain ⟨hx, hr, _⟩ := byteAt_of_drop text s.p x r hd
      have hsw := fe_switch_spec text s.p s.cur x r hd
      have hxr : x ≠ ATTR_RESET := by
        intro h
        apply hnr
        rw [← h]
        exact List.mem_of_mem_drop (by rw [hd]; simp)
      simp only [hz, if_false]
      by_cases h3 : x = ATTR_COLOR
      · simp only [h3, if_true] at hsw
        rw [fe_print_step_code text s _ _ _ hsw, ih _ (by
          show text.length ≤ s.p + 1 + (spec_color s.cur r).1 + fuel; omega)]
        simp only [hcol]
        have hne : x ≠ c := by rw [h3]; exact fun h => hc3 h.symm
        rw [hd, List.count_cons_of_ne (Ne.symm hne), count_drop_color s.cur c r hnd hn44, ← hr,
          List.drop_drop]
      · by_cases h9 : x = ATTR_TAB
        · simp only [h3, h9, if_true, if_false] at hsw
          rw [fe_print_step_code text s _ _ _ hsw, ih _ (by
            show text.length ≤ s.p + 1 + fuel; omega)]
          have hne : x ≠ c := by rw [h9]; exact fun h => hc9 h.symm
          rw [hd, List.count_cons_of_ne (Ne.symm hne), hr]
        · by_cases hxc : is_control_code x = true
          · simp only [h3, h9, hxc, if_true, if_false] at hsw
            rw [fe_print_step_code text s _ _ _ hsw, ih _ (by
              show text.length ≤ s.p + 1 + fuel; omega)]
            simp only []
            rw [hd, hr]
            by_cases hxe : x = c
            · rw [hxe, List.count_cons_self, hflip]
              by_cases hev : List.count c r % 2 = 0
              · have : (List.count c r + 1) % 2 ≠ 0 := by omega
                simp [hev, this]
              · have : (List.count c r + 1) % 2 = 0 := by omega
                simp [hev, this]
            · rw [List.count_cons_of_ne (Ne.symm hxe), hkeep _ _ hxe hxr]
          · simp only [h3, h9, hxc, if_true, if_false] at hsw
            rw [fe_print_step_literal text s hsw, ih _ (by
              show text.length ≤ s.p + 1 + fuel; omega)]
            have hne : x ≠ c := by
              intro h; rw [h] at hxc; exact hxc hcc
            rw [hd, List.count_cons_of_ne (Ne.symm hne), hr]

theorem run_style_parity (c : Nat) (g : Style → Bool)
    (hflip : ∀ st, g (spec_apply st c) = !g st)
    (hkeep : ∀ st c', c' ≠ c → c' ≠ ATTR_RESET → g (spec_apply st c') = g st)
    (hcol : ∀ st l, g (spec_color st l).2 = g st)
    (hc3 : c ≠ ATTR_COLOR) (hc9 : c ≠ ATTR_TAB) (hcc : is_control_code c = true)
    (hnd : g_ascii_isdigit c = false) (hn44 : c ≠ 44)
    (text : List Nat) (h0 : is_cstr text) (hnr : ATTR_RESET ∉ text) (st : Style) :
    g (run_style st text) = if text.count c % 2 = 0 then g st else !g st := by
  unfold run_style
  rw [fe_print_loop_parity c g hflip hkeep hcol hc3 hc9 hcc hnd hn44 text h0 hnr text.length
    (PrintState.start st) (by simp [PrintState.start])]
  simp [PrintState.start]

theorem spec_color_flags (st : Style) (l : List Nat) :
    (spec_color st l).2.bold = st.bold ∧ (spec_color st l).2.italic = st.italic ∧
    (spec_color st l).2.underline = st.underline ∧
    (spec_color st l).2.strikethrough = st.strikethrough ∧
    (spec_color st l).2.hidden = st.hidden ∧ (spec_color st l).2.reverse = st.reverse := by
  unfold spec_color
  cases spec_field l with
  | none => simp
  | some vn =>
    obtain ⟨v, n⟩ := vn
    simp only []
    split
    · next r heq => cases spec_field r <;> simp
    · simp

/-! ## The claims C1 to C10 -/

/-- Claim C1. Round trip of `fe_print_text`: for every line (the content of a C
string), the texts of the tagged segments it inserts, concatenated in the order
of insertion, are exactly the line with every control code removed (the ten
single-byte codes, tab among them, and each colour sequence with its digits and
comma). -/
theorem span_text_round_trip (text : List Nat) (h0 : is_cstr text) :
    span_text (spans (fe_print_text text)) = strip_codes text := by
  rw [span_text_spans]
  unfold fe_print_text
  obtain ⟨i1, i2, i3⟩ := fe_print_loop_text false text h0 text.length
    (PrintState.start Style.init) (Nat.le_refl _) (by simp [PrintState.start])
  rw [fe_print_finish_text false text h0 _ i2 i1, i3]
  simp [PrintState.start, ops_text, slice_self, tab_text, strip_codes]
  split_ifs <;> simp [ops_text]

/-- Claim C1 at the line `^B H ^C 4 , 1 2 i ^I ! ^O`: the spans spell `Hi!`. -/
theorem span_text_round_trip_witness :
    is_cstr [2, 72, 3, 52, 44, 49, 50, 105, 9, 33, 15] ∧
      span_text (spans (fe_print_text [2, 72, 3, 52, 44, 49, 50, 105, 9, 33, 15]))
        = strip_codes [2, 72, 3, 52, 44, 49, 50, 105, 9, 33, 15] ∧
      strip_codes [2, 72, 3, 52, 44, 49, 50, 105, 9, 33, 15] = [72, 105, 33] :=
  ⟨by unfold is_cstr; decide,
    span_text_round_trip [2, 72, 3, 52, 44, 49, 50, 105, 9, 33, 15] (by unfold is_cstr; decide),
    by decide⟩

/-- Claim C2. For every line, each tagged segment that `fe_print_text` inserts
is the slice of the line at its start offset and carries the style obtained
from the all-off, colours-unset state by applying, in order, every control code
that occurs in the line before that offset. -/
theorem span_style_is_state_before (text : List Nat) :
    ∀ sp ∈ spans (fe_print_text text),
      sp.text = slice text sp.start (sp.start + sp.text.length) ∧
      sp.style = spec_style_before text sp.start := by
  intro sp hsp
  constructor
  · rcases fe_print_loop_slices text text.length (PrintState.start Style.init) sp hsp with h | h
    · simp [PrintState.start, spans] at h
    · exact h
  · rcases fe_print_loop_styles text text.length (PrintState.start Style.init) rfl
      (Nat.le_refl _) (by simp [PrintState.start]) sp hsp with h | ⟨_, h⟩
    · simp [PrintState.start, spans] at h
    · simpa [PrintState.start, spec_style_before] using h

/-- Claim C2 at the line `^B a ^C 4 b`: the segment `b` is bold with foreground 4. -/
theorem span_style_is_state_before_witness :
    (⟨4, [98], ⟨true, false, false, false, false, false, 4, -1⟩⟩ : Span)
        ∈ spans (fe_print_text [2, 97, 3, 52, 98]) ∧
      ([98] = slice [2, 97, 3, 52, 98] 4 (4 + 1) ∧
        (⟨true, false, false, false, false, false, 4, -1⟩ : Style)
          = spec_style_before [2, 97, 3, 52, 98] 4) :=
  ⟨by decide, span_style_is_state_before [2, 97, 3, 52, 98]
    ⟨4, [98], ⟨true, false, false, false, false, false, 4, -1⟩⟩ (by decide)⟩

/-- Claim C3, at the failing line `é http://a.b` with a classifier that accepts
`http://a.b`: `apply_url_tags_to_line` tags the range 3 to 13, which are byte
offsets; the buffer counts offsets in characters, and the text of the line that
`fe_print_text` inserted between the characters 3 and 13 is `ttp://a.b` and the
newline, not the classified word (the bytes 3 to 13 would be the word). -/
theorem url_range_after_multibyte_char :
    is_cstr line_e_acute_url ∧
    apply_url_tags_to_line accept_http_a_b 0 line_e_acute_url
      = [⟨[195, 169], 0, 2, false⟩, ⟨word_http_a_b, 3, 13, true⟩] ∧
    url_ranges (apply_url_tags_to_line accept_http_a_b 0 line_e_acute_url) = [(3, 13)] ∧
    inserted (fe_print_text line_e_acute_url) = line_e_acute_url ++ [10] ∧
    gtk_text_between (inserted (fe_print_text line_e_acute_url)) 3 13
      = [116, 116, 112, 58, 47, 47, 97, 46, 98, 10] ∧
    gtk_text_between (inserted (fe_print_text line_e_acute_url)) 3 13 ≠ word_http_a_b ∧
    bytes_between (inserted (fe_print_text line_e_acute_url)) 3 13 = word_http_a_b := by
  refine ⟨by unfold is_cstr; decide, by decide, by decide, by decide, by decide, by decide,
    by decide⟩

/-- Claim C4. For every line (the content of a C string), whatever the
classifier and the line start offset, the words `apply_url_tags_to_line` hands
to the classifier are, in order, exactly the maximal runs of non-whitespace
bytes of the visible text (control codes removed, a tab shown as a space): a
style or colour code inside a word does not split it. -/
theorem url_words_are_visible_runs (url_check_word : List Nat → Int) (line_start_offset : Int)
    (text : List Nat) (h0 : is_cstr text) :
    url_words (apply_url_tags_to_line url_check_word line_start_offset text)
      = spec_words (visible_text text) := by
  unfold apply_url_tags_to_line
  by_cases hz : byteAt text 0 = 0
  · have hl := byteAt_zero_len text h0 0 hz
    have : text = [] := List.length_eq_zero.mp (by omega)
    subst this
    simp [hz, url_words, spec_words, visible_text, spec_strip, spec_runs]
  · rw [if_neg hz, url_loop_words url_check_word line_start_offset text h0 text.length ⟨0, 0, []⟩
      (by simp) (by simp)]
    simp [url_words, spec_words, visible_text]

/-- Claim C4 at the line `a ^B b ^I c ^C 1 , 2 d`: the words are `ab` and `cd`. -/
theorem url_words_are_visible_runs_witness :
    is_cstr [97, 2, 98, 9, 99, 3, 49, 44, 50, 100] ∧
      url_words (apply_url_tags_to_line accept_http_a_b 7 [97, 2, 98, 9, 99, 3, 49, 44, 50, 100])
        = spec_words (visible_text [97, 2, 98, 9, 99, 3, 49, 44, 50, 100]) ∧
      spec_words (visible_text [97, 2, 98, 9, 99, 3, 49, 44, 50, 100]) = [[97, 98], [99, 100]] :=
  ⟨by unfold is_cstr; decide,
    url_words_are_visible_runs accept_http_a_b 7 [97, 2, 98, 9, 99, 3, 49, 44, 50, 100]
      (by unfold is_cstr; decide),
    by decide⟩

/-- Claim C5 as stated fails at the empty line: it holds no control code, and
`fe_print_text` inserts no tagged segment for it, not one. -/
theorem empty_line_no_span :
    is_cstr [] ∧ (∀ b ∈ ([] : List Nat), is_control_code b = false) ∧
      spans (fe_print_text []) = [] ∧ (spans (fe_print_text [])).length ≠ 1 := by
  refine ⟨by unfold is_cstr; decide, by decide, by decide, by decide⟩

/-- Claim C5, amended. For every non-empty line (the content of a C string)
that holds no control code, `fe_print_text` inserts exactly one tagged segment:
its text is the whole line and its style is the default one (the six flags off,
both colours unset). -/
theorem plain_line_single_span (text : List Nat) (h0 : is_cstr text) (hne : text ≠ [])
    (hlit : ∀ b ∈ text, is_control_code b = false) :
    spans (fe_print_text text)
      = [⟨0, text, ⟨false, false, false, false, false, false, -1, -1⟩⟩] := by
  unfold fe_print_text
  rw [fe_print_loop_literal text h0 hlit text.length (PrintState.start Style.init)
    (by simp [PrintState.start]) (by simp [PrintState.start])]
  rw [spans_finish]
  have hpos : 0 < text.length := List.length_pos.mpr hne
  simp [PrintState.start, hpos, spans, cstr_from_eq text h0, Style.init]

/-- Claim C5, amended, at the line `hi`. -/
theorem plain_line_single_span_witness :
    is_cstr [104, 105] ∧ ([104, 105] : List Nat) ≠ [] ∧
      (∀ b ∈ ([104, 105] : List Nat), is_control_code b = false) ∧
      spans (fe_print_text [104, 105])
        = [⟨0, [104, 105], ⟨false, false, false, false, false, false, -1, -1⟩⟩] :=
  ⟨by unfold is_cstr; decide, by decide, by decide,
    plain_line_single_span [104, 105] (by unfold is_cstr; decide) (by decide) (by decide)⟩

/-- Claim C6. Toggle parity, for each of bold, italic, underline, strikethrough,
hidden and reverse and every starting style: scanning that attribute's code `n`
times leaves the style unchanged when `n` is even and changed in that flag
alone, negated, when `n` is odd; and in any line (the content of a C string)
without a Reset byte the flag ends at its starting value when the line holds an
even number of the attribute's code and at the negated value otherwise. -/
theorem toggle_parity (st : Style) (n : Nat) :
    run_style st (List.replicate n ATTR_BOLD)
        = (if n % 2 = 0 then st else { st with bold := !st.bold }) ∧
    run_style st (List.replicate n ATTR_ITALICS)
        = (if n % 2 = 0 then st else { st with italic := !st.italic }) ∧
    run_style st (List.replicate n ATTR_UNDERLINE)
        = (if n % 2 = 0 then st else { st with underline := !st.underline }) ∧
    run_style st (List.replicate n ATTR_STRIKETHROUGH)
        = (if n % 2 = 0 then st else { st with strikethrough := !st.strikethrough }) ∧
    run_style st (List.replicate n ATTR_HIDDEN)
        = (if n % 2 = 0 then st else { st with hidden := !st.hidden }) ∧
    run_style st (List.replicate n ATTR_REVERSE)
        = (if n % 2 = 0 then st else { st with reverse := !st.reverse }) ∧
    (∀ text : List Nat, is_cstr text → ATTR_RESET ∉ text →
      (run_style st text).bold
          = (if text.count ATTR_BOLD % 2 = 0 then st.bold else !st.bold) ∧
      (run_style st text).italic
          = (if text.count ATTR_ITALICS % 2 = 0 then st.italic else !st.italic) ∧
      (run_style st text).underline
          = (if text.count ATTR_UNDERLINE % 2 = 0 then st.underline else !st.underline) ∧
      (run_style st text).strikethrough
          = (if text.count ATTR_STRIKETHROUGH % 2 = 0 then st.strikethrough
              else !st.strikethrough) ∧
      (run_style st text).hidden
          = (if text.count ATTR_HIDDEN % 2 = 0 then st.hidden else !st.hidden) ∧
      (run_style st text).reverse
          = (if text.count ATTR_REVERSE % 2 = 0 then st.reverse else !st.reverse)) := by
  refine ⟨?_, ?_, ?_, ?_, ?_, ?_, ?_⟩
  · exact run_style_replicate ATTR_BOLD (fun st => { st with bold := !st.bold }) (by decide)
      (by intro text p st h; simp [fe_switch, h]) (by intro st; simp) n st
  · exact run_style_replicate ATTR_ITALICS (fun st => { st with italic := !st.italic })
      (by decide) (by intro text p st h; simp [fe_switch, h]) (by intro st; simp) n st
  · exact run_style_replicate ATTR_UNDERLINE (fun st => { st with underline := !st.underline })
      (by decide) (by intro text p st h; simp [fe_switch, h]) (by intro st; simp) n st
  · exact run_style_replicate ATTR_STRIKETHROUGH
      (fun st => { st with strikethrough := !st.strikethrough })
      (by decide) (by intro text p st h; simp [fe_switch, h]) (by intro st; simp) n st
  · exact run_style_replicate ATTR_HIDDEN (fun st => { st with hidden := !st.hidden })
      (by decide) (by intro text p st h; simp [fe_switch, h]) (by intro st; simp) n st
  · exact run_style_replicate ATTR_REVERSE (fun st => { st with reverse := !st.reverse })
      (by decide) (by intro text p st h; simp [fe_switch, h]) (by intro st; simp) n st
  · intro text h0 hnr
    refine ⟨?_, ?_, ?_, ?_, ?_, ?_⟩
    · exact run_style_parity ATTR_BOLD Style.bold (by intro st; simp [spec_apply])
        (by intro st c h1 h2; unfold spec_apply; split_ifs <;> simp_all)
        (fun st l => (spec_color_flags st l).1)
        (by decide) (by decide) (by decide) (by decide) (by decide) text h0 hnr st
    · exact run_style_parity ATTR_ITALICS Style.italic (by intro st; simp [spec_apply])
        (by intro st c h1 h2; unfold spec_apply; split_ifs <;> simp_all)
        (fun st l => (spec_color_flags st l).2.1)
        (by decide) (by decide) (by decide) (by decide) (by decide) text h0 hnr st
    · exact run_style_parity ATTR_UNDERLINE Style.underline (by intro st; simp [spec_apply])
        (by intro st c h1 h2; unfold spec_apply; split_ifs <;> simp_all)
        (fun st l => (spec_color_flags st l).2.2.1)
        (by decide) (by decide) (by decide) (by decide) (by decide) text h0 hnr st
    · exact run_style_parity ATTR_STRIKETHROUGH Style.strikethrough
        (by intro st; simp [spec_apply])
        (by intro st c h1 h2; unfold spec_apply; split_ifs <;> simp_all)
        (fun st l => (spec_color_flags st l).2.2.2.1)
        (by decide) (by decide) (by decide) (by decide) (by decide) text h0 hnr st
    · exact run_style_parity ATTR_HIDDEN Style.hidden (by intro st; simp [spec_apply])
        (by intro st c h1 h2; unfold spec_apply; split_ifs <;> simp_all)
        (fun st l => (spec_color_flags st l).2.2.2.2.1)
        (by decide) (by decide) (by decide) (by decide) (by decide) text h0 hnr st
    · exact run_style_parity ATTR_REVERSE Style.reverse (by intro st; simp [spec_apply])
        (by intro st c h1 h2; unfold spec_apply; split_ifs <;> simp_all)
        (fun st l => (spec_color_flags st l).2.2.2.2.2)
        (by decide) (by decide) (by decide) (by decide) (by decide) text h0 hnr st

/-- Claim C6 at the line `^B x ^] ^B ^C 2 ^B`: three Bold codes and no Reset
leave bold negated. -/
theorem toggle_parity_witness :
    is_cstr [2, 120, 29, 2, 3, 50, 2] ∧ ATTR_RESET ∉ [2, 120, 29, 2, 3, 50, 2] ∧
      (run_style Style.init [2, 120, 29, 2, 3, 50, 2]).bold
        = (if List.count ATTR_BOLD [2, 120, 29, 2, 3, 50, 2] % 2 = 0 then Style.init.bold
            else !Style.init.bold) :=
  ⟨by unfold is_cstr; decide, by decide,
    ((toggle_parity Style.init 3).2.2.2.2.2.2 [2, 120, 29, 2, 3, 50, 2]
      (by unfold is_cstr; decide) (by decide)).1⟩

/-- Claim C7. For every style state, wherever a Reset byte stands in a line,
the switch of `fe_print_text` steps over that one byte and leaves bold, italic,
underline, strikethrough, hidden and reverse false and both colours unset; a
line that is just a Reset ends in that state. -/
theorem reset_clears (a b : List Nat) (st : Style) :
    fe_switch (a ++ ATTR_RESET :: b) a.length st
        = some (a.length + 1, ⟨false, false, false, false, false, false, -1, -1⟩, false) ∧
    run_style st [ATTR_RESET] = ⟨false, false, false, false, false, false, -1, -1⟩ := by
  constructor
  · simp [fe_switch, byteAt_append_cons]
  · simp [run_style, fe_print_loop, PrintState.start, byteAt, fe_print_step, fe_switch]

/-- Claim C8. Reset is idempotent: for every style state, the state after two
Reset bytes in a row is the state after the first one. -/
theorem reset_idempotent (a b : List Nat) (st : Style) :
    (∃ st1, fe_switch (a ++ ATTR_RESET :: ATTR_RESET :: b) a.length st
          = some (a.length + 1, st1, false) ∧
        fe_switch (a ++ ATTR_RESET :: ATTR_RESET :: b) (a.length + 1) st1
          = some (a.length + 2, st1, false)) ∧
    run_style st [ATTR_RESET, ATTR_RESET] = run_style st [ATTR_RESET] := by
  constructor
  · refine ⟨⟨false, false, false, false, false, false, -1, -1⟩, ?_, ?_⟩
    · simp [fe_switch, byteAt_append_cons]
    · have h : byteAt (a ++ ATTR_RESET :: ATTR_RESET :: b) (a.length + 1) = ATTR_RESET := by
        have := byteAt_append_cons (a ++ [ATTR_RESET]) ATTR_RESET b
        simpa using this
      simp [fe_switch, h]
  · simp [run_style, fe_print_loop, PrintState.start, byteAt, fe_print_step, fe_switch]

/-- Claim C9. Colour parsing: when the bytes `b` behind a Color byte start with
a field of one or two decimal digits of value `v` (`n` digits), the switch of
`fe_print_text` sets the foreground to `v`, folded; if a comma follows the
field it is consumed, and if a second field of value `w` (`m` digits) follows
the comma the background becomes `w`, folded, else the background is kept. A
field has at most two digits, and a digit the switch meets is a literal byte. -/
theorem color_parsing (a b : List Nat) (st : Style) (v n : Nat)
    (hf : spec_field b = some (v, n)) :
    1 ≤ n ∧ n ≤ 2 ∧
    (byteAt b n ≠ 44 →
      fe_switch (a ++ ATTR_COLOR :: b) a.length st
        = some (a.length + 1 + n, { st with fg_color := spec_fold v }, false)) ∧
    (byteAt b n = 44 → spec_field (b.drop (n + 1)) = none →
      fe_switch (a ++ ATTR_COLOR :: b) a.length st
        = some (a.length + 1 + (n + 1), { st with fg_color := spec_fold v }, false)) ∧
    (byteAt b n = 44 → ∀ w m, spec_field (b.drop (n + 1)) = some (w, m) →
      1 ≤ m ∧ m ≤ 2 ∧
      fe_switch (a ++ ATTR_COLOR :: b) a.length st
        = some (a.length + 1 + (n + 1 + m),
            { st with fg_color := spec_fold v, bg_color := spec_fold w }, false)) ∧
    (∀ (q : Nat) (st' : Style), g_ascii_isdigit (byteAt (a ++ ATTR_COLOR :: b) q) = true →
      fe_switch (a ++ ATTR_COLOR :: b) q st' = none) := by
  have hn := spec_field_le b v n hf
  have hcol := spec_color_digits st b v n hf
  refine ⟨hn.2.1, hn.2.2, ?_, ?_, ?_, ?_⟩
  · intro hc
    rw [fe_switch_color, hcol, if_neg hc]
  · intro hc hnone
    rw [fe_switch_color, hcol, if_pos hc, hnone]
  · intro hc w m hsome
    have hm := spec_field_le _ w m hsome
    refine ⟨hm.2.1, hm.2.2, ?_⟩
    rw [fe_switch_color, hcol, if_pos hc, hsome]
  · intro q st' hq
    exact fe_switch_digit _ q st' hq

/-- Claim C9 at the line `x ^C 1 2 3 , 4`: the foreground is 12, the switch
stops at the third digit, which is then a literal byte. -/
theorem color_parsing_witness :
    spec_field [49, 50, 51, 44, 52] = some (12, 2) ∧ byteAt [49, 50, 51, 44, 52] 2 ≠ 44 ∧
      fe_switch ([120] ++ ATTR_COLOR :: [49, 50, 51, 44, 52]) 1 Style.init
        = some (1 + 1 + 2, { Style.init with fg_color := spec_fold 12 }, false) ∧
      fe_switch ([120] ++ ATTR_COLOR :: [49, 50, 51, 44, 52]) 4 Style.init = none :=
  ⟨by decide, by decide,
    (color_parsing [120] [49, 50, 51, 44, 52] Style.init 12 2 (by decide)).2.2.1 (by decide),
    (color_parsing [120] [49, 50, 51, 44, 52] Style.init 12 2 (by decide)).2.2.2.2.2 4
      Style.init (by decide)⟩

/-- Claim C10. For every style state, a Color byte whose next byte is not a
decimal digit (or that ends the line) sets both colours to unset, changes no
flag and consumes the code byte alone; when the next byte is not a control
code itself, the switch then takes it as a literal byte. -/
theorem color_without_digit (a b : List Nat) (st : Style)
    (hnd : g_ascii_isdigit (byteAt b 0) = false) :
    fe_switch (a ++ ATTR_COLOR :: b) a.length st
        = some (a.length + 1, { st with fg_color := -1, bg_color := -1 }, false) ∧
    (is_control_code (byteAt b 0) = false → ∀ st' : Style,
      fe_switch (a ++ ATTR_COLOR :: b) (a.length + 1) st' = none) := by
  constructor
  · rw [fe_switch_color]
    simp [spec_color, spec_field_of_not b hnd]
  · intro hlit st'
    have hb : byteAt (a ++ ATTR_COLOR :: b) (a.length + 1) = byteAt b 0 := by
      rw [byteAt_drop_zero]
      rw [(byteAt_of_drop _ _ _ _ (drop_append_cons a ATTR_COLOR b)).2.1]
    exact fe_switch_literal _ _ st' (by rw [hb]; exact hlit)

/-- Claim C10 at the line `^C 0 4 r ^C , 5` from red on blue: the second Color
byte unsets both colours and the comma behind it stays a literal byte. -/
theorem color_without_digit_witness :
    g_ascii_isdigit (byteAt [44, 53] 0) = false ∧
      fe_switch ([3, 48, 52, 114] ++ ATTR_COLOR :: [44, 53]) 4
          ⟨true, false, false, false, false, false, 4, 2⟩
        = some (5, ⟨true, false, false, false, false, false, -1, -1⟩, false) ∧
      fe_switch ([3, 48, 52, 114] ++ ATTR_COLOR :: [44, 53]) 5 Style.init = none :=
  ⟨by decide,
    (color_without_digit [3, 48, 52, 114] [44, 53]
      ⟨true, false, false, false, false, false, 4, 2⟩ (by decide)).1,
    (color_without_digit [3, 48, 52, 114] [44, 53]
      ⟨true, false, false, false, false, false, 4, 2⟩ (by decide)).2 (by decide) Style.init⟩


/-! ## Lemmas: classifier independence, stop bytes, the rendered text -/

theorem url_step_retag (chk chk0 : List Nat → Int) (k : Int) (text : List Nat) (s : UrlState) :
    url_step chk k text ⟨s.p, s.text_offset, s.out.map (retag chk)⟩
      = ⟨(url_step chk0 k text s).p, (url_step chk0 k text s).text_offset,
          (url_step chk0 k text s).out.map (retag chk)⟩ := by
  unfold url_step
  simp only []
  split_ifs <;> simp [retag]

theorem url_loop_retag (chk chk0 : List Nat → Int) (k : Int) (text : List Nat) :
    ∀ (fuel : Nat) (s : UrlState),
      url_loop chk k fuel text ⟨s.p, s.text_offset, s.out.map (retag chk)⟩
        = ⟨(url_loop chk0 k fuel text s).p, (url_loop chk0 k fuel text s).text_offset,
            (url_loop chk0 k fuel text s).out.map (retag chk)⟩ := by
  intro fuel
  induction fuel with
  | zero => intro s; rfl
  | succ fuel ih =>
    intro s
    unfold url_loop
    by_cases hz : byteAt text s.p = 0
    · simp [hz]
    · simp only [hz, if_false]
      rw [url_step_retag chk chk0 k text s]
      exact ih (url_step chk0 k text s)

theorem apply_url_tags_retag (chk chk0 : List Nat → Int) (k : Int) (text : List Nat) :
    apply_url_tags_to_line chk k text = (apply_url_tags_to_line chk0 k text).map (retag chk) := by
  unfold apply_url_tags_to_line
  by_cases hz : byteAt text 0 = 0
  · simp [hz]
  · simp only [hz, if_false]
    have h := url_loop_retag chk chk0 k text text.length ⟨0, 0, []⟩
    simp only [List.map_nil] at h
    rw [h]

theorem spec_field_append_stop (l b : List Nat) (c : Nat) (hd : g_ascii_isdigit c = false) :
    spec_field (l ++ c :: b) = spec_field l := by
  rcases l with _ | ⟨x, _ | ⟨y, l⟩⟩
  · cases b <;> simp [spec_field, hd]
  · simp [spec_field, hd]
  · simp [spec_field]

theorem spec_color_append_stop (st : Style) (l b : List Nat) (c : Nat)
    (hd : g_ascii_isdigit c = false) (h44 : c ≠ 44) :
    spec_color st (l ++ c :: b) = spec_color st l := by
  unfold spec_color
  rw [spec_field_append_stop l b c hd]
  cases hf : spec_field l with
  | none => rfl
  | some vn =>
    obtain ⟨v, n⟩ := vn
    have hn := (spec_field_le l v n hf).1
    simp only []
    rw [List.drop_append_of_le_length hn]
    cases hdr : l.drop n with
    | nil =>
      simp only [List.nil_append]
      split
      · next r heq => injection heq with h1 _; exact absurd h1 h44
      · rfl
    | cons x r =>
      simp only [List.cons_append]
      by_cases hx : x = 44
      · subst hx
        simp only []
        rw [spec_field_append_stop r b c hd]
      · split
        · next r2 heq => injection heq with h1 _; exact absurd h1 hx
        · split
          · next r2 heq => injection heq with h1 _; exact absurd h1 hx
          · rfl

theorem spec_strip_cons_ne (tab : List Nat) (x : Nat) (r : List Nat) (h3 : x ≠ ATTR_COLOR) :
    spec_strip tab 0 (x :: r)
      = (if x = ATTR_TAB then tab else if is_control_code x = true then [] else [x])
        ++ spec_strip tab 0 r := by
  simp only [spec_strip, h3, if_false]
  split_ifs <;> simp

theorem spec_strip_append_stop (tab : List Nat) (c : Nat) (b : List Nat)
    (hd : g_ascii_isdigit c = false) (h44 : c ≠ 44) :
    ∀ (n : Nat) (a : List Nat), a.length ≤ n →
      spec_strip tab 0 (a ++ c :: b) = spec_strip tab 0 a ++ spec_strip tab 0 (c :: b) := by
  intro n
  induction n with
  | zero =>
    intro a ha
    have : a = [] := List.length_eq_zero.mp (by omega)
    subst this
    simp [spec_strip]
  | succ n ih =>
    intro a ha
    cases a with
    | nil => simp [spec_strip]
    | cons x a =>
      simp only [List.length_cons] at ha
      by_cases h3 : x = ATTR_COLOR
      · subst h3
        rw [List.cons_append, strip_color_head, strip_color_head,
          spec_color_append_stop Style.init a b c hd h44]
        have hle := spec_color_le Style.init a
        rw [List.drop_append_of_le_length hle]
        exact ih _ (by rw [List.length_drop]; omega)
      · have hrec := ih a (by omega)
        rw [List.cons_append, spec_strip_cons_ne tab x _ h3, spec_strip_cons_ne tab x a h3, hrec,
          List.append_assoc]

theorem visible_text_append_stop (a b : List Nat) (c : Nat)
    (hd : g_ascii_isdigit c = false) (h44 : c ≠ 44) :
    visible_text (a ++ c :: b) = visible_text a ++ visible_text (c :: b) :=
  spec_strip_append_stop [32] c b hd h44 a.length a (Nat.le_refl _)

theorem fe_print_finish_flush (text : List Nat) (s : PrintState) :
    fe_print_finish text s = fe_print_flush text s
      ++ (if strlen text = 0 ∨ byteAt text (strlen text - 1) ≠ 10
          then [BufOp.plain [10]] else []) := by
  unfold fe_print_finish fe_print_flush
  simp only []
  split_ifs <;> simp

theorem fe_print_text_render (text : List Nat) :
    fe_print_text text = fe_print_render text
      ++ (if strlen text = 0 ∨ byteAt text (strlen text - 1) ≠ 10
          then [BufOp.plain [10]] else []) := by
  unfold fe_print_text fe_print_render
  exact fe_print_finish_flush text _

theorem fe_print_flush_text (b : Bool) (text : List Nat) (h0 : is_cstr text) (s : PrintState)
    (hseg : s.segment_start ≤ s.p) (hl : text.length ≤ s.p) :
    ops_text b (fe_print_flush text s)
      = ops_text b s.buf ++ slice text s.segment_start s.p := by
  unfold fe_print_flush
  rw [cstr_from_eq text h0, slice_to_end text _ _ hl]
  by_cases hgt : s.p > s.segment_start
  · simp [hgt, ops_text_append, ops_text]
  · have e : s.segment_start = s.p := by omega
    simp [hgt, e, List.drop_of_length_le hl]

theorem fe_print_render_text (b : Bool) (text : List Nat) (h0 : is_cstr text) :
    ops_text b (fe_print_render text) = spec_strip (tab_text b) 0 text := by
  unfold fe_print_render
  obtain ⟨i1, i2, i3⟩ := fe_print_loop_text b text h0 text.length
    (PrintState.start Style.init) (Nat.le_refl _) (by simp [PrintState.start])
  rw [fe_print_flush_text b text h0 _ i2 i1, i3]
  simp [PrintState.start, ops_text, slice_self]

theorem inserted_render (text : List Nat) (h0 : is_cstr text) :
    inserted (fe_print_render text) = visible_text text := by
  rw [inserted_eq, fe_print_render_text true text h0]
  rfl

theorem spans_text_render (text : List Nat) (h0 : is_cstr text) :
    span_text (spans (fe_print_render text)) = strip_codes text := by
  rw [span_text_spans, fe_print_render_text false text h0]
  rfl

theorem spans_text_eq_render (text : List Nat) :
    spans (fe_print_text text) = spans (fe_print_render text) := by
  rw [fe_print_text_render, spans_append]
  split_ifs <;> simp [spans]

theorem strlen_eq (text : List Nat) (h0 : is_cstr text) : strlen text = text.length := by
  unfold strlen
  rw [cstr_from_eq text h0]
  simp

theorem byteAt_last (a : List Nat) (c : Nat) : byteAt (a ++ [c]) ((a ++ [c]).length - 1) = c := by
  have h : (a ++ [c]).length - 1 = a.length := by simp
  rw [h]
  exact byteAt_append_cons a c []

theorem newline_cond (text : List Nat) (h0 : is_cstr text) :
    (strlen text = 0 ∨ byteAt text (strlen text - 1) ≠ 10)
      ↔ (text = [] ∨ text.getLast? ≠ some 10) := by
  rw [strlen_eq text h0]
  rcases List.eq_nil_or_concat text with h | ⟨a, c, h⟩
  · subst h; simp
  · rw [List.concat_eq_append] at h
    subst h
    rw [byteAt_last]
    simp

theorem inserted_append (x y : List BufOp) : inserted (x ++ y) = inserted x ++ inserted y := by
  rw [inserted_eq, inserted_eq, inserted_eq, ops_text_append]

theorem spec_fold_eq (v : Nat) :
    spec_fold v = if v < 99 then (v : Int) else ((v % 16 : Nat) : Int) := by
  unfold spec_fold
  split_ifs <;> first | rfl | omega

theorem mem_spans_fe_print_flush (text : List Nat) (s : PrintState) (sp : Span)
    (h : sp ∈ spans (fe_print_flush text s)) :
    sp ∈ spans s.buf ∨
      (s.p > s.segment_start ∧ sp = ⟨s.segment_start, cstr_from text s.segment_start, s.cur⟩) := by
  unfold fe_print_flush at h
  by_cases hgt : s.p > s.segment_start
  · simp only [hgt, if_true, spans_append, List.mem_append] at h
    rcases h with h | h
    · exact Or.inl h
    · right; exact ⟨hgt, by simpa [spans] using h⟩
  · simp only [hgt, if_false] at h
    exact Or.inl h

theorem cstr_from_ne_nil (text : List Nat) (a : Nat) (h : byteAt text a ≠ 0) :
    cstr_from text a ≠ [] := by
  obtain ⟨c, r, hd⟩ := drop_of_lt text a (byteAt_ne_zero_lt text a h)
  have hc := (byteAt_of_drop text a c r hd).1
  unfold cstr_from
  rw [hd, List.takeWhile_cons]
  have : c ≠ 0 := by rw [← hc]; exact h
  simp [this]

theorem slice_ne_nil (text : List Nat) (a p : Nat) (h1 : a < p) (h2 : a < text.length) :
    slice text a p ≠ [] := by
  obtain ⟨c, r, hd⟩ := drop_of_lt text a h2
  unfold slice
  rw [hd]
  have : p - a = (p - a - 1) + 1 := by omega
  rw [this, List.take_succ_cons]
  simp

theorem fe_print_loop_nonempty (text : List Nat) :
    ∀ (fuel : Nat) (s : PrintState),
      (∀ i, s.segment_start ≤ i → i < s.p → byteAt text i ≠ 0) →
      ∀ sp ∈ spans (fe_print_flush text (fe_print_loop fuel text s)),
        sp ∈ spans s.buf ∨ sp.text ≠ [] := by
  intro fuel
  induction fuel with
  | zero =>
    intro s hI sp hsp
    rcases mem_spans_fe_print_flush text s sp hsp with h | ⟨hgt, h⟩
    · exact Or.inl h
    · right; subst h
      exact cstr_from_ne_nil text _ (hI _ (Nat.le_refl _) hgt)
  | succ fuel ih =>
    intro s hI sp hsp
    unfold fe_print_loop at hsp
    by_cases hz : byteAt text s.p = 0
    · simp only [hz, if_true] at hsp
      rcases mem_spans_fe_print_flush text s sp hsp with h | ⟨hgt, h⟩
      · exact Or.inl h
      · right; subst h
        exact cstr_from_ne_nil text _ (hI _ (Nat.le_refl _) hgt)
    · simp only [hz, if_false] at hsp
      have hp := byteAt_ne_zero_lt text s.p hz
      cases hsw : fe_switch text s.p s.cur with
      | none =>
        rw [fe_print_step_literal text s hsw] at hsp
        refine ih ⟨s.p + 1, s.segment_start, s.cur, s.prev, s.buf⟩ ?_ sp hsp
        intro i h1 h2
        by_cases hi : i < s.p
        · exact hI i h1 hi
        · have : i = s.p := by
            have h3 : i < s.p + 1 := h2
            omega
          rw [this]; exact hz
      | some res =>
        obtain ⟨q, st', b⟩ := res
        rw [fe_print_step_code text s q st' b hsw] at hsp
        rcases ih ⟨q, q, st', st', _⟩ (by
            intro i h1 h2
            have h1' : q ≤ i := h1
            have h2' : i < q := h2
            omega) sp hsp with h | h
        · by_cases hgt : s.p > s.segment_start
          · rcases spans_step_buf text s b sp h with h | h
            · exact Or.inl h
            · right; subst h
              exact slice_ne_nil text _ _ hgt (by omega)
          · left
            cases b <;> simpa [hgt, spans_append, spans] using h
        · exact Or.inr h

theorem span_text_nil (l : List Span) (hne : ∀ sp ∈ l, sp.text ≠ []) (h : span_text l = []) :
    l = [] := by
  cases l with
  | nil => rfl
  | cons sp r =>
    simp only [span_text, List.append_eq_nil] at h
    exact absurd h.1 (hne sp (by simp))

theorem control_not_digit (c : Nat) (h : is_control_code c = true) :
    g_ascii_isdigit c = false := by
  by_contra hd
  have hd' : g_ascii_isdigit c = true := by simpa using hd
  rw [digit_not_control c hd'] at h
  cases h

theorem strip_only_codes (tab : List Nat) (htab : tab = []) :
    ∀ text : List Nat, (∀ b ∈ text, is_control_code b = true) → spec_strip tab 0 text = [] := by
  intro text
  induction text with
  | nil => intro _; rfl
  | cons x r ih =>
    intro h
    have hr := ih (fun b hb => h b (List.mem_cons_of_mem _ hb))
    by_cases h3 : x = ATTR_COLOR
    · subst h3
      have hnd : g_ascii_isdigit (byteAt r 0) = false := by
        cases r with
        | nil => decide
        | cons y r' =>
          rw [byteAt_cons_zero]
          exact control_not_digit y (h y (by simp))
      rw [strip_color_head]
      simp [spec_color, spec_field_of_not r hnd, hr]
    · rw [spec_strip_cons_ne tab x r h3, hr, h x (by simp), htab]
      simp

theorem byteAt_zero_ne (url : List Nat) (h0 : is_cstr url) (hne : url ≠ []) :
    byteAt url 0 ≠ 0 := by
  intro h
  have := byteAt_zero_len url h0 0 h
  exact hne (List.length_eq_zero.mp (by omega))

theorem cstr_from_zero (url : List Nat) (h0 : is_cstr url) : cstr_from url 0 = url := by
  rw [cstr_from_eq url h0]; rfl

/-! ## Lemmas: the end of the line -/

theorem fe_switch_le (text : List Nat) (p : Nat) (st : Style) (q : Nat) (st' : Style) (b : Bool)
    (hp : p < text.length) (h : fe_switch text p st = some (q, st', b)) :
    p < q ∧ q ≤ text.length := by
  obtain ⟨c, r, hd⟩ := drop_of_lt text p hp
  have hsw := fe_switch_spec text p st c r hd
  have hr := (byteAt_of_drop text p c r hd).2.1
  have hle := spec_color_le st r
  have hrl : r.length = text.length - (p + 1) := by rw [← hr, List.length_drop]
  rw [h] at hsw
  split_ifs at hsw <;> simp at hsw <;> omega

theorem fe_print_loop_end (text : List Nat) (h0 : is_cstr text) :
    ∀ (fuel : Nat) (s : PrintState), s.p ≤ text.length → text.length ≤ s.p + fuel →
      (fe_print_loop fuel text s).p = text.length := by
  intro fuel
  induction fuel with
  | zero =>
    intro s h1 h2
    simp only [fe_print_loop]; omega
  | succ fuel ih =>
    intro s h1 h2
    unfold fe_print_loop
    by_cases hz : byteAt text s.p = 0
    · have := byteAt_zero_len text h0 s.p hz
      simp only [hz, if_true]; omega
    · simp only [hz, if_false]
      have hp := byteAt_ne_zero_lt text s.p hz
      cases hsw : fe_switch text s.p s.cur with
      | none =>
        rw [fe_print_step_literal text s hsw]
        exact ih ⟨s.p + 1, s.segment_start, s.cur, s.prev, s.buf⟩ (by show s.p + 1 ≤ _; omega)
          (by show _ ≤ s.p + 1 + fuel; omega)
      | some res =>
        obtain ⟨q, st', b⟩ := res
        have hq := fe_switch_le text s.p s.cur q st' b hp hsw
        rw [fe_print_step_code text s q st' b hsw]
        exact ih ⟨q, q, st', st', _⟩ hq.2 (by show _ ≤ q + fuel; omega)

theorem url_step_progress (url_check_word : List Nat → Int) (line_start_offset : Int)
    (text : List Nat) (h0 : is_cstr text) (s : UrlState) (hp : s.p < text.length) :
    s.p < (url_step url_check_word line_start_offset text s).p ∧
      (url_step url_check_word line_start_offset text s).p ≤ text.length := by
  obtain ⟨c, r, hd⟩ := drop_of_lt text s.p hp
  obtain ⟨hc, hr, _⟩ := byteAt_of_drop text s.p c r hd
  have hz : byteAt text s.p ≠ 0 := by
    rw [hc]; exact h0 c (List.mem_of_mem_drop (by rw [hd]; simp))
  by_cases hfc : is_format_code c = true
  · have hst : (url_step url_check_word line_start_offset text s).p = s.p + 1 := by
      simp [url_step, hc, hfc]
    rw [hst]; omega
  · by_cases h3 : c = ATTR_COLOR
    · have hsk := skip_color_le text s.p hp
      have hst : (url_step url_check_word line_start_offset text s).p = skip_color text s.p := by
        simp [url_step, hc, h3, is_format_code]
      rw [hst]; omega
    · by_cases hs : g_ascii_isspace c = true
      · have hst : (url_step url_check_word line_start_offset text s).p = s.p + 1 := by
          simp [url_step, hc, hfc, h3, hs]
        rw [hst]; omega
      · have hsf : g_ascii_isspace c = false := by simpa using hs
        have h9 : c ≠ ATTR_TAB := by
          intro h; rw [h] at hsf; simp [g_ascii_isspace] at hsf
        have hcc : is_control_code c = false := by
          rw [control_code_cases]
          simp [hfc, h3, h9]
        obtain ⟨w, i1, i2, i3, i4, i5, i6⟩ :=
          url_word_end_spec text h0 text.length s.p s.text_offset (by omega) (by omega)
        have hw : w ≠ [] := i6 (by omega) hz (by rw [hc]; exact hsf) (by rw [hc]; exact hcc)
        have hprog : s.p < (url_word_end text.length text s.p s.text_offset).1 := by
          by_contra hn
          have hx := i4 0 [] (by omega)
          simp only [url_extract, List.nil_append] at hx
          exact hw hx.symm
        have hst : (url_step url_check_word line_start_offset text s).p
            = (url_word_end text.length text s.p s.text_offset).1 := by
          simp [url_step, hc, hfc, h3, hs]
        rw [hst]
        exact ⟨hprog, i3⟩

theorem url_loop_end (url_check_word : List Nat → Int) (line_start_offset : Int)
    (text : List Nat) (h0 : is_cstr text) :
    ∀ (fuel : Nat) (s : UrlState), s.p ≤ text.length → text.length ≤ s.p + fuel →
      (url_loop url_check_word line_start_offset fuel text s).p = text.length := by
  intro fuel
  induction fuel with
  | zero =>
    intro s h1 h2
    simp only [url_loop]; omega
  | succ fuel ih =>
    intro s h1 h2
    unfold url_loop
    by_cases hz : byteAt text s.p = 0
    · have := byteAt_zero_len text h0 s.p hz
      simp only [hz, if_true]; omega
    · simp only [hz, if_false]
      have hp := byteAt_ne_zero_lt text s.p hz
      have hq := url_step_progress url_check_word line_start_offset text h0 s hp
      exact ih _ hq.2 (by omega)

theorem byteAt_append_le (text x : List Nat) (q : Nat) (h : q < text.length) :
    byteAt (text ++ x) q = byteAt text q := by
  simp [byteAt, List.getD_eq_getElem?_getD, List.getElem?_append_left h]

theorem byteAt_junk (text junk : List Nat) (q : Nat) (h : q ≤ text.length) :
    byteAt (text ++ 0 :: junk) q = byteAt text q := by
  by_cases hq : q < text.length
  · exact byteAt_append_le text _ q hq
  · have : q = text.length := by omega
    subst this
    rw [byteAt_append_cons]
    simp [byteAt, List.getD_eq_getElem?_getD]

theorem fe_switch_junk (text junk : List Nat) (p : Nat) (st : Style) (hp : p < text.length) :
    fe_switch (text ++ 0 :: junk) p st = fe_switch text p st := by
  obtain ⟨c, r, hd⟩ := drop_of_lt text p hp
  have hd2 : (text ++ 0 :: junk).drop p = c :: (r ++ 0 :: junk) := by
    rw [List.drop_append_of_le_length (Nat.le_of_lt hp), hd]; rfl
  rw [fe_switch_spec _ p st c _ hd2, fe_switch_spec text p st c r hd,
    spec_color_append_stop st r junk 0 (by decide) (by decide)]

theorem slice_junk (text x : List Nat) (a p : Nat) (hp : p ≤ text.length) :
    slice (text ++ x) a p = slice text a p := by
  unfold slice
  by_cases ha : a ≤ text.length
  · rw [List.drop_append_of_le_length ha, List.take_append_of_le_length]
    rw [List.length_drop]; omega
  · have h1 : p - a = 0 := by omega
    rw [h1]; simp

theorem fe_print_step_junk (text junk : List Nat) (s : PrintState) (hp : s.p < text.length) :
    fe_print_step (text ++ 0 :: junk) s = fe_print_step text s := by
  unfold fe_print_step
  simp only [fe_switch_junk text junk s.p s.cur hp, slice_junk text _ _ s.p (Nat.le_of_lt hp)]

theorem fe_print_step_le (text : List Nat) (s : PrintState) (hp : s.p < text.length) :
    s.p < (fe_print_step text s).p ∧ (fe_print_step text s).p ≤ text.length := by
  cases hsw : fe_switch text s.p s.cur with
  | none =>
    rw [fe_print_step_literal text s hsw]
    exact ⟨Nat.lt_succ_self _, hp⟩
  | some res =>
    obtain ⟨q, st', b⟩ := res
    rw [fe_print_step_code text s q st' b hsw]
    exact fe_switch_le text s.p s.cur q st' b hp hsw

theorem fe_print_loop_junk (text junk : List Nat) (h0 : is_cstr text) :
    ∀ (fuel fuel' : Nat) (s : PrintState), s.p ≤ text.length →
      text.length ≤ s.p + fuel → text.length ≤ s.p + fuel' →
      fe_print_loop fuel' (text ++ 0 :: junk) s = fe_print_loop fuel text s := by
  intro fuel
  induction fuel with
  | zero =>
    intro fuel' s h1 h2 _
    have hl : s.p = text.length := by omega
    have hz : byteAt (text ++ 0 :: junk) s.p = 0 := by
      rw [hl]; exact byteAt_append_cons text 0 junk
    cases fuel' <;> simp [fe_print_loop, hz]
  | succ fuel ih =>
    intro fuel' s h1 h2 h3
    by_cases hz : byteAt text s.p = 0
    · have hl := byteAt_zero_len text h0 s.p hz
      have hz2 : byteAt (text ++ 0 :: junk) s.p = 0 := by
        rw [byteAt_junk text junk s.p h1]; exact hz
      cases fuel' <;> simp [fe_print_loop, hz, hz2]
    · have hp := byteAt_ne_zero_lt text s.p hz
      have hz2 : byteAt (text ++ 0 :: junk) s.p ≠ 0 := by
        rw [byteAt_junk text junk s.p h1]; exact hz
      cases fuel' with
      | zero => omega
      | succ fuel' =>
        have hq := fe_print_step_le text s hp
        simp only [fe_print_loop, hz, hz2, if_false]
        rw [fe_print_step_junk text junk s hp]
        exact ih fuel' _ hq.2 (by omega) (by omega)

theorem cstr_from_junk (text junk : List Nat) (h0 : is_cstr text) (a : Nat)
    (ha : a ≤ text.length) : cstr_from (text ++ 0 :: junk) a = cstr_from text a := by
  rw [cstr_from_eq text h0]
  unfold cstr_from
  rw [List.drop_append_of_le_length ha, List.takeWhile_append_of_pos]
  · simp
  · intro x hx
    have := h0 x (List.mem_of_mem_drop hx)
    simpa using this

theorem fe_print_text_junk (text junk : List Nat) (h0 : is_cstr text) :
    fe_print_text (text ++ 0 :: junk) = fe_print_text text := by
  unfold fe_print_text
  rw [fe_print_loop_junk text junk h0 text.length _ (PrintState.start Style.init)
    (by simp [PrintState.start]) (by simp [PrintState.start])
    (by simp [PrintState.start])]
  have hend := fe_print_loop_end text h0 text.length (PrintState.start Style.init)
    (by simp [PrintState.start]) (by simp [PrintState.start])
  obtain ⟨_, hseg, _⟩ := fe_print_loop_text false text h0 text.length
    (PrintState.start Style.init) (Nat.le_refl _) (by simp [PrintState.start])
  have hlen : strlen (text ++ 0 :: junk) = strlen text := by
    unfold strlen
    rw [cstr_from_junk text junk h0 0 (Nat.zero_le _)]
  unfold fe_print_finish
  simp only []
  rw [hlen, cstr_from_junk text junk h0 _ (by omega),
    byteAt_junk text junk _ (by rw [strlen_eq text h0]; omega)]

theorem skip_color_junk (text junk : List Nat) (p : Nat) (hp : p < text.length) :
    skip_color (text ++ 0 :: junk) p = skip_color text p := by
  rw [skip_color_eq, skip_color_eq, List.drop_append_of_le_length (by omega),
    spec_color_append_stop Style.init _ junk 0 (by decide) (by decide)]

theorem url_word_end_junk (text junk : List Nat) :
    ∀ (fuel fuel' p off : Nat), p ≤ text.length →
      text.length ≤ p + fuel → text.length ≤ p + fuel' →
      url_word_end fuel' (text ++ 0 :: junk) p off = url_word_end fuel text p off := by
  intro fuel
  induction fuel with
  | zero =>
    intro fuel' p off h1 h2 _
    have hl : p = text.length := by omega
    have hz : byteAt (text ++ 0 :: junk) p = 0 := by
      rw [hl]; exact byteAt_append_cons text 0 junk
    cases fuel' <;> simp [url_word_end, hz]
  | succ fuel ih =>
    intro fuel' p off h1 h2 h3
    have hb := byteAt_junk text junk p h1
    by_cases hz : byteAt text p = 0
    · cases fuel' <;> simp [url_word_end, hz, hb]
    · have hp := byteAt_ne_zero_lt text p hz
      cases fuel' with
      | zero => omega
      | succ fuel' =>
        have hsk := skip_color_le text p hp
        simp only [url_word_end, hb, skip_color_junk text junk p hp]
        split_ifs
        · exact ih fuel' _ _ (by omega) (by omega) (by omega)
        · exact ih fuel' _ _ hsk.2 (by omega) (by omega)
        · exact ih fuel' _ _ (by omega) (by omega) (by omega)
        · rfl

theorem url_extract_junk (text junk : List Nat) :
    ∀ (fuel fuel' src e : Nat) (dst : List Nat), e ≤ text.length →
      e ≤ src + fuel → e ≤ src + fuel' →
      url_extract fuel' (text ++ 0 :: junk) src e dst = url_extract fuel text src e dst := by
  intro fuel
  induction fuel with
  | zero =>
    intro fuel' src e dst _ h2 _
    have hn : ¬ src < e := by omega
    cases fuel' <;> simp [url_extract, hn]
  | succ fuel ih =>
    intro fuel' src e dst h1 h2 h3
    by_cases hlt : src < e
    · cases fuel' with
      | zero => omega
      | succ fuel' =>
        have hp : src < text.length := by omega
        have hb := byteAt_junk text junk src (Nat.le_of_lt hp)
        have hsk := skip_color_le text src hp
        simp only [url_extract, hlt, if_true, hb, skip_color_junk text junk src hp]
        split_ifs
        · exact ih fuel' _ _ _ h1 (by omega) (by omega)
        · exact ih fuel' _ _ _ h1 (by omega) (by omega)
        · exact ih fuel' _ _ _ h1 (by omega) (by omega)
    · cases fuel' <;> simp [url_extract, hlt]

theorem url_step_junk (url_check_word : List Nat → Int) (line_start_offset : Int)
    (text junk : List Nat) (h0 : is_cstr text) (s : UrlState) (hp : s.p < text.length) :
    url_step url_check_word line_start_offset (text ++ 0 :: junk) s
      = url_step url_check_word line_start_offset text s := by
  have hb := byteAt_junk text junk s.p (Nat.le_of_lt hp)
  have hw := url_word_end_junk text junk text.length (text ++ 0 :: junk).length s.p
    s.text_offset (Nat.le_of_lt hp) (by omega) (by simp; omega)
  obtain ⟨w, _, i2, i3, _, _, _⟩ :=
    url_word_end_spec text h0 text.length s.p s.text_offset (Nat.le_of_lt hp) (by omega)
  have hx := url_extract_junk text junk text.length (text ++ 0 :: junk).length s.p
    (url_word_end text.length text s.p s.text_offset).1 [] i3 (by omega) (by simp; omega)
  unfold url_step
  simp only [hb, skip_color_junk text junk s.p hp, hw, hx]

theorem url_loop_junk (url_check_word : List Nat → Int) (line_start_offset : Int)
    (text junk : List Nat) (h0 : is_cstr text) :
    ∀ (fuel fuel' : Nat) (s : UrlState), s.p ≤ text.length →
      text.length ≤ s.p + fuel → text.length ≤ s.p + fuel' →
      url_loop url_check_word line_start_offset fuel' (text ++ 0 :: junk) s
        = url_loop url_check_word line_start_offset fuel text s := by
  intro fuel
  induction fuel with
  | zero =>
    intro fuel' s h1 h2 _
    have hl : s.p = text.length := by omega
    have hz : byteAt (text ++ 0 :: junk) s.p = 0 := by
      rw [hl]; exact byteAt_append_cons text 0 junk
    cases fuel' <;> simp [url_loop, hz]
  | succ fuel ih =>
    intro fuel' s h1 h2 h3
    have hb := byteAt_junk text junk s.p h1
    by_cases hz : byteAt text s.p = 0
    · cases fuel' <;> simp [url_loop, hz, hb]
    · have hp := byteAt_ne_zero_lt text s.p hz
      cases fuel' with
      | zero => omega
      | succ fuel' =>
        have hq := url_step_progress url_check_word line_start_offset text h0 s hp
        simp only [url_loop, hb, hz, if_false]
        rw [url_step_junk url_check_word line_start_offset text junk h0 s hp]
        exact ih fuel' _ hq.2 (by omega) (by omega)

theorem apply_url_tags_junk (url_check_word : List Nat → Int) (line_start_offset : Int)
    (text junk : List Nat) (h0 : is_cstr text) :
    apply_url_tags_to_line url_check_word line_start_offset (text ++ 0 :: junk)
      = apply_url_tags_to_line url_check_word line_start_offset text := by
  unfold apply_url_tags_to_line
  rw [byteAt_junk text junk 0 (Nat.zero_le _)]
  by_cases hz : byteAt text 0 = 0
  · simp [hz]
  · simp only [hz, if_false]
    rw [url_loop_junk url_check_word line_start_offset text junk h0 text.length _ ⟨0, 0, []⟩
      (Nat.zero_le _) (by simp) (by simp)]

/-! ## Lemmas: the styled text of a line -/

theorem styled_append (x y : List BufOp) : styled (x ++ y) = styled x ++ styled y := by
  induction x with
  | nil => rfl
  | cons a x ih => cases a <;> simp [styled, ih]

theorem spec_styled_skip (k : Nat) (st : Style) (l : List Nat) :
    spec_styled k st l = spec_styled 0 st (l.drop k) := by
  induction k generalizing l with
  | zero => rfl
  | succ k ih =>
    cases l with
    | nil => simp [spec_styled]
    | cons a l => simp [spec_styled, ih]

theorem flush_styled (text : List Nat) (s : PrintState) (hseg : s.segment_start ≤ s.p) :
    styled (if s.p > s.segment_start then
        s.buf ++ [BufOp.span ⟨s.segment_start, slice text s.segment_start s.p, s.prev⟩]
      else s.buf)
      = styled s.buf ++ (slice text s.segment_start s.p).map (fun b => (b, some s.prev)) := by
  by_cases hgt : s.p > s.segment_start
  · simp [hgt, styled_append, styled]
  · have : s.segment_start = s.p := by omega
    simp [hgt, this, slice_self]

theorem fe_print_loop_styled (text : List Nat) (h0 : is_cstr text) :
    ∀ (fuel : Nat) (s : PrintState), s.prev = s.cur → s.segment_start ≤ s.p →
      text.length ≤ s.p + fuel →
      styled (fe_print_loop fuel text s).buf
          ++ (slice text (fe_print_loop fuel text s).segment_start
                (fe_print_loop fuel text s).p).map
              (fun b => (b, some (fe_print_loop fuel text s).cur))
        = styled s.buf ++ (slice text s.segment_start s.p).map (fun b => (b, some s.cur))
          ++ spec_styled 0 s.cur (text.drop s.p) := by
  intro fuel
  induction fuel with
  | zero =>
    intro s _ hseg hlen
    have hl : text.length ≤ s.p := by omega
    simp [fe_print_loop, List.drop_of_length_le hl, spec_styled]
  | succ fuel ih =>
    intro s hprev hseg hlen
    unfold fe_print_loop
    by_cases hz : byteAt text s.p = 0
    · have hl : text.length ≤ s.p := byteAt_zero_len text h0 s.p hz
      simp [hz, List.drop_of_length_le hl, spec_styled]
    · have hp : s.p < text.length := byteAt_ne_zero_lt text s.p hz
      obtain ⟨c, r, hd⟩ := drop_of_lt text s.p hp
      obtain ⟨hc, hr, _⟩ := byteAt_of_drop text s.p c r hd
      have hsw := fe_switch_spec text s.p s.cur c r hd
      simp only [hz, if_false]
      have aux : ∀ (q : Nat) (st' : Style) (sp : Bool) (extra : List (Nat × Option Style)),
          fe_switch text s.p s.cur = some (q, st', sp) → s.p < q →
          (if sp = true then [((32 : Nat), (none : Option Style))] else []) = extra →
          spec_styled 0 s.cur (text.drop s.p) = extra ++ spec_styled 0 st' (text.drop q) →
          styled (fe_print_loop fuel text (fe_print_step text s)).buf
            ++ (slice text (fe_print_loop fuel text (fe_print_step text s)).segment_start
                (fe_print_loop fuel text (fe_print_step text s)).p).map
                (fun b => (b, some (fe_print_loop fuel text (fe_print_step text s)).cur))
          = styled s.buf ++ (slice text s.segment_start s.p).map (fun b => (b, some s.cur))
            ++ spec_styled 0 s.cur (text.drop s.p) := by
        intro q st' sp extra hq hlt hex hst
        rw [fe_print_step_code text s q st' sp hq]
        rw [ih ⟨q, q, st', st', _⟩ (Eq.refl st') (Nat.le_refl q)
          (by show text.length ≤ q + fuel; omega), hst]
        simp only [slice_self, List.append_nil, List.map_nil]
        rw [← hex]
        cases sp
        · simp only [Bool.false_eq_true, if_false]
          rw [flush_styled text s hseg, hprev]
          simp
        · simp only [if_true]
          rw [styled_append, flush_styled text s hseg, hprev]
          simp [styled]
      by_cases h3 : c = ATTR_COLOR
      · simp only [h3, if_true] at hsw
        apply aux _ _ _ [] hsw (by omega) (by simp)
        rw [hd, h3]
        simp only [spec_styled, if_true, List.nil_append]
        rw [spec_styled_skip, ← hr, List.drop_drop]
      · by_cases h9 : c = ATTR_TAB
        · simp only [h3, h9, if_true, if_false] at hsw
          apply aux _ _ _ [(32, none)] hsw (by omega) (by simp)
          rw [hd, h9, hr]
          simp [spec_styled]
        · by_cases hcc : is_control_code c = true
          · simp only [h3, h9, hcc, if_true, if_false] at hsw
            apply aux _ _ _ [] hsw (by omega) (by simp)
            rw [hd, hr]
            simp [spec_styled, h3, h9, hcc]
          · simp only [h3, h9, hcc, if_true, if_false] at hsw
            rw [fe_print_step_literal text s hsw]
            have i3 := ih ⟨s.p + 1, s.segment_start, s.cur, s.prev, s.buf⟩ hprev
              (by show s.segment_start ≤ s.p + 1; omega)
              (by show text.length ≤ s.p + 1 + fuel; omega)
            rw [i3]
            simp only []
            rw [slice_succ text s.segment_start s.p c r hseg hd, hd, hr]
            simp [spec_styled, h3, h9, hcc]

theorem styled_render (text : List Nat) (h0 : is_cstr text) :
    styled (fe_print_render text) = spec_styled 0 Style.init text := by
  unfold fe_print_render
  obtain ⟨i1, i2, _⟩ := fe_print_loop_text false text h0 text.length
    (PrintState.start Style.init) (Nat.le_refl _) (by simp [PrintState.start])
  have i3 := fe_print_loop_styled text h0 text.length (PrintState.start Style.init) rfl
    (Nat.le_refl _) (by simp [PrintState.start])
  have hfl : ∀ s : PrintState, s.segment_start ≤ s.p → text.length ≤ s.p →
      styled (fe_print_flush text s)
        = styled s.buf ++ (slice text s.segment_start s.p).map (fun b => (b, some s.cur)) := by
    intro s hseg hl
    unfold fe_print_flush
    rw [cstr_from_eq text h0, slice_to_end text _ _ hl]
    by_cases hgt : s.p > s.segment_start
    · simp [hgt, styled_append, styled]
    · have e : s.segment_start = s.p := by omega
      simp [hgt, e, List.drop_of_length_le hl]
  rw [hfl _ i2 i1, i3]
  simp [PrintState.start, styled, slice_self]

/-! ## Lemmas: removing Beep and Blink -/

theorem spec_color_stop_arg (st : Style) (l b : List Nat) (c : Nat)
    (h : is_color_arg c = false) : spec_color st (l ++ c :: b) = spec_color st l := by
  simp only [is_color_arg, Bool.or_eq_false_iff, beq_eq_false_iff_ne] at h
  exact spec_color_append_stop st l b c h.1 h.2

theorem head_dropWhile (p : Nat → Bool) (r : List Nat) :
    r.dropWhile p = [] ∨ ∃ z t, r.dropWhile p = z :: t ∧ p z = false := by
  induction r with
  | nil => left; rfl
  | cons x r ih =>
    by_cases hx : p x = true
    · rw [List.dropWhile_cons_of_pos hx]; exact ih
    · right
      have hx' : p x = false := by simpa using hx
      exact ⟨x, r, by rw [List.dropWhile_cons_of_neg hx], hx'⟩

theorem spec_color_of_stop (st : Style) (d rest : List Nat)
    (h : rest = [] ∨ ∃ z t, rest = z :: t ∧ is_color_arg z = false) :
    spec_color st (d ++ rest) = spec_color st d := by
  rcases h with h | ⟨z, t, h, hz⟩
  · rw [h, List.append_nil]
  · rw [h]; exact spec_color_stop_arg st d t z hz

theorem beep_before_arg_tail (x : Nat) (r : List Nat) (h : beep_before_arg (x :: r) = false) :
    beep_before_arg r = false := by
  cases r with
  | nil => rfl
  | cons y r =>
    simp only [beep_before_arg, Bool.or_eq_false_iff] at h
    exact h.2

theorem beep_before_arg_suffix (a b : List Nat) (h : beep_before_arg (a ++ b) = false) :
    beep_before_arg b = false := by
  induction a with
  | nil => exact h
  | cons x a ih => exact ih (beep_before_arg_tail x _ h)

theorem beep_before_arg_drop (k : Nat) (r : List Nat) (h : beep_before_arg r = false) :
    beep_before_arg (r.drop k) = false := by
  have := List.take_append_drop k r
  rw [← this] at h
  exact beep_before_arg_suffix _ _ h

theorem strip_beep_args (d : List Nat) (h : ∀ x ∈ d, is_color_arg x = true) :
    strip_beep_blink d = d := by
  unfold strip_beep_blink
  rw [List.filter_eq_self]
  intro x hx
  have := h x hx
  simp only [is_color_arg, Bool.or_eq_true, beq_iff_eq, g_ascii_isdigit, Bool.and_eq_true,
    decide_eq_true_eq] at this
  simp only [is_beep_blink, Bool.not_eq_true', Bool.or_eq_false_iff, beq_eq_false_iff_ne,
    ATTR_BEEP, ATTR_BLINK]
  omega

theorem strip_beep_stop (rest : List Nat) (hc : beep_before_arg rest = false)
    (h : rest = [] ∨ ∃ z t, rest = z :: t ∧ is_color_arg z = false) :
    strip_beep_blink rest = [] ∨
      ∃ z t, strip_beep_blink rest = z :: t ∧ is_color_arg z = false := by
  induction rest with
  | nil => left; rfl
  | cons y t ih =>
    rcases h with h | ⟨z, t', h, hz⟩
    · cases h
    · injection h with h1 h2
      subst h1
      by_cases hb : is_beep_blink y = true
      · have hf : strip_beep_blink (y :: t) = strip_beep_blink t := by
          simp [strip_beep_blink, hb]
        rw [hf]
        apply ih (beep_before_arg_tail y t hc)
        cases t with
        | nil => left; rfl
        | cons y2 t2 =>
          right
          simp only [beep_before_arg, Bool.or_eq_false_iff, Bool.and_eq_false_imp] at hc
          exact ⟨y2, t2, rfl, hc.1 hb⟩
      · right
        exact ⟨y, strip_beep_blink t, by simp [strip_beep_blink, hb], hz⟩

theorem strip_beep_append (a b : List Nat) :
    strip_beep_blink (a ++ b) = strip_beep_blink a ++ strip_beep_blink b := by
  simp [strip_beep_blink]

theorem spec_color_strip_beep (st : Style) (r : List Nat) (hc : beep_before_arg r = false) :
    spec_color st (strip_beep_blink r) = spec_color st r ∧
    (strip_beep_blink r).drop (spec_color st r).1
      = strip_beep_blink (r.drop (spec_color st r).1) := by
  have hsplit := List.takeWhile_append_dropWhile is_color_arg r
  have hd : ∀ x ∈ r.takeWhile is_color_arg, is_color_arg x = true :=
    fun x hx => List.mem_takeWhile_imp hx
  have hstop := head_dropWhile is_color_arg r
  have hcr : beep_before_arg (r.dropWhile is_color_arg) = false := by
    rw [← hsplit] at hc
    exact beep_before_arg_suffix _ _ hc
  have hstop2 := strip_beep_stop _ hcr hstop
  have e1 : spec_color st r = spec_color st (r.takeWhile is_color_arg) := by
    conv_lhs => rw [← hsplit]
    exact spec_color_of_stop st _ _ hstop
  have hfr : strip_beep_blink r
      = r.takeWhile is_color_arg ++ strip_beep_blink (r.dropWhile is_color_arg) := by
    conv_lhs => rw [← hsplit]
    rw [strip_beep_append, strip_beep_args _ hd]
  have e2 : spec_color st (strip_beep_blink r) = spec_color st (r.takeWhile is_color_arg) := by
    rw [hfr]
    exact spec_color_of_stop st _ _ hstop2
  refine ⟨by rw [e2, e1], ?_⟩
  have hk : (spec_color st r).1 ≤ (r.takeWhile is_color_arg).length := by
    rw [e1]; exact spec_color_le st _
  generalize (spec_color st r).1 = k at hk
  have hdr : r.drop k
      = (r.takeWhile is_color_arg).drop k ++ r.dropWhile is_color_arg := by
    conv_lhs => rw [← hsplit]
    rw [List.drop_append_of_le_length hk]
  rw [hfr, List.drop_append_of_le_length hk, hdr, strip_beep_append,
    strip_beep_args _ (fun x hx => hd x (List.mem_of_mem_drop hx))]

theorem spec_styled_cons_ne (st : Style) (x : Nat) (r : List Nat) (h3 : x ≠ ATTR_COLOR) :
    spec_styled 0 st (x :: r)
      = (if x = ATTR_TAB then [(32, none)]
          else if is_control_code x = true then [] else [(x, some st)])
        ++ spec_styled 0 (spec_apply st x) r := by
  simp only [spec_styled, h3, if_false]
  by_cases h9 : x = ATTR_TAB
  · simp [h9, spec_apply_tab]
  · by_cases hc : is_control_code x = true
    · simp [h9, hc]
    · have hcf : is_control_code x = false := by simpa using hc
      simp [h9, hcf, spec_apply_literal st x hcf]

theorem spec_styled_color (st : Style) (r : List Nat) :
    spec_styled 0 st (ATTR_COLOR :: r)
      = spec_styled 0 (spec_color st r).2 (r.drop (spec_color st r).1) := by
  simp only [spec_styled, if_true]
  rw [spec_styled_skip]

theorem spec_apply_beep (st : Style) (x : Nat) (h : is_beep_blink x = true) :
    spec_apply st x = st := by
  simp only [is_beep_blink, Bool.or_eq_true, beq_iff_eq] at h
  rcases h with h | h <;> subst h <;> simp [spec_apply]

theorem spec_styled_strip_beep :
    ∀ (n : Nat) (text : List Nat), text.length ≤ n → beep_before_arg text = false →
      ∀ st : Style, spec_styled 0 st (strip_beep_blink text) = spec_styled 0 st text := by
  intro n
  induction n with
  | zero =>
    intro text hn _ st
    have : text = [] := List.length_eq_zero.mp (by omega)
    subst this; rfl
  | succ n ih =>
    intro text hn hc st
    cases text with
    | nil => rfl
    | cons x r =>
      simp only [List.length_cons] at hn
      have hcr := beep_before_arg_tail x r hc
      by_cases hb : is_beep_blink x = true
      · have hf : strip_beep_blink (x :: r) = strip_beep_blink r := by
          simp [strip_beep_blink, hb]
        have h3 : x ≠ ATTR_COLOR := by
          intro h; rw [h] at hb; simp [is_beep_blink] at hb
        have h9 : x ≠ ATTR_TAB := by
          intro h; rw [h] at hb; simp [is_beep_blink] at hb
        have hcc : is_control_code x = true := by
          simp only [is_beep_blink, Bool.or_eq_true, beq_iff_eq] at hb
          rcases hb with h | h <;> subst h <;> decide
        rw [hf, ih r (by omega) hcr st, spec_styled_cons_ne st x r h3, spec_apply_beep st x hb]
        simp [h9, hcc]
      · have hf : strip_beep_blink (x :: r) = x :: strip_beep_blink r := by
          simp [strip_beep_blink, hb]
        rw [hf]
        by_cases h3 : x = ATTR_COLOR
        · subst h3
          obtain ⟨e1, e2⟩ := spec_color_strip_beep st r hcr
          rw [spec_styled_color, spec_styled_color, e1, e2]
          exact ih _ (by rw [List.length_drop]; omega) (beep_before_arg_drop _ r hcr) _
        · rw [spec_styled_cons_ne st x _ h3, spec_styled_cons_ne st x r h3,
            ih r (by omega) hcr _]

theorem spec_strip_no_control (tab : List Nat) (htab : ∀ x ∈ tab, is_control_code x = false) :
    ∀ (n : Nat) (text : List Nat), text.length ≤ n →
      ∀ x ∈ spec_strip tab 0 text, is_control_code x = false := by
  intro n
  induction n with
  | zero =>
    intro text hn x hx
    have : text = [] := List.length_eq_zero.mp (by omega)
    subst this
    simp [spec_strip] at hx
  | succ n ih =>
    intro text hn x hx
    cases text with
    | nil => simp [spec_strip] at hx
    | cons c r =>
      simp only [List.length_cons] at hn
      by_cases h3 : c = ATTR_COLOR
      · subst h3
        rw [strip_color_head] at hx
        exact ih _ (by rw [List.length_drop]; omega) x hx
      · rw [spec_strip_cons_ne tab c r h3, List.mem_append] at hx
        rcases hx with hx | hx
        · split_ifs at hx with h9 hcc
          · exact htab x hx
          · simp at hx
          · simp only [List.mem_singleton] at hx
            rw [hx]; simpa using hcc
        · exact ih r (by omega) x hx

theorem mem_span_text (l : List Span) (sp : Span) (h : sp ∈ l) (x : Nat) (hx : x ∈ sp.text) :
    x ∈ span_text l := by
  induction l with
  | nil => cases h
  | cons a l ih =>
    simp only [span_text, List.mem_append]
    rcases List.mem_cons.mp h with h | h
    · left; rw [← h]; exact hx
    · right; exact ih h

theorem strip_beep_cstr (text : List Nat) (h0 : is_cstr text) : is_cstr (strip_beep_blink text) :=
  fun x hx => h0 x (List.mem_of_mem_filter hx)

theorem newline_cond_strip_beep (text : List Nat)
    (hl : ∀ c, text.getLast? = some c → is_beep_blink c = false) :
    (strip_beep_blink text = [] ∨ (strip_beep_blink text).getLast? ≠ some 10)
      ↔ (text = [] ∨ text.getLast? ≠ some 10) := by
  rcases List.eq_nil_or_concat text with h | ⟨a, c, h⟩
  · subst h; simp [strip_beep_blink]
  · rw [List.concat_eq_append] at h
    subst h
    have hc : is_beep_blink c = false := hl c (by simp)
    have hf : strip_beep_blink (a ++ [c]) = strip_beep_blink a ++ [c] := by
      rw [strip_beep_append]
      simp [strip_beep_blink, hc]
    rw [hf]
    simp

/-! ## The claims C11 to C20 -/

/-- Claim C11. Colour folding: for every field of value `v` parsed behind a
Color byte the stored foreground index is `v` when `v < 99` and `v mod 16`
otherwise, and likewise for a background field `w`; 99 is the number of palette
entries, so `^C 9 9` selects entry 3 and `^C 9 8` entry 98. -/
theorem color_folding (a b : List Nat) (st : Style) (v n : Nat)
    (hf : spec_field b = some (v, n)) :
    (∃ q st', fe_switch (a ++ ATTR_COLOR :: b) a.length st = some (q, st', false) ∧
      st'.fg_color = (if v < 99 then (v : Int) else ((v % 16 : Nat) : Int)) ∧
      (byteAt b n = 44 → ∀ w m, spec_field (b.drop (n + 1)) = some (w, m) →
        st'.bg_color = (if w < 99 then (w : Int) else ((w % 16 : Nat) : Int)))) ∧
    MIRC_COLORS_COUNT = 99 ∧
    (run_style st [ATTR_COLOR, 57, 57]).fg_color = 3 ∧
    (run_style st [ATTR_COLOR, 57, 56]).fg_color = 98 ∧
    (run_style st [ATTR_COLOR, 48, 44, 57, 57]).bg_color = 3 := by
  refine ⟨⟨_, _, fe_switch_color a b st, ?_, ?_⟩, MIRC_COLORS_COUNT_eq, ?_, ?_, ?_⟩
  · rw [spec_color_digits st b v n hf, ← spec_fold_eq]
    split_ifs
    · cases spec_field (b.drop (n + 1)) with
      | none => rfl
      | some wm => rfl
    · rfl
  · intro hc w m hw
    rw [spec_color_digits st b v n hf, if_pos hc, hw, ← spec_fold_eq]
  · simp [run_style, fe_print_loop, PrintState.start, byteAt, fe_print_step, fe_switch,
      parse_color, g_ascii_isdigit, MIRC_COLORS_COUNT_eq]
  · simp [run_style, fe_print_loop, PrintState.start, byteAt, fe_print_step, fe_switch,
      parse_color, g_ascii_isdigit, MIRC_COLORS_COUNT_eq]
  · simp [run_style, fe_print_loop, PrintState.start, byteAt, fe_print_step, fe_switch,
      parse_color, g_ascii_isdigit, MIRC_COLORS_COUNT_eq]

/-- Claim C11 at the line `x ^C 9 9 x`: the parsed index 99 is stored as 3. -/
theorem color_folding_witness :
    spec_field [57, 57, 120] = some (99, 2) ∧
      ∃ q st', fe_switch ([120] ++ ATTR_COLOR :: [57, 57, 120]) 1 Style.init
          = some (q, st', false) ∧
        st'.fg_color = (if 99 < 99 then (99 : Int) else ((99 % 16 : Nat) : Int)) ∧
        (byteAt [57, 57, 120] 2 = 44 → ∀ w m, spec_field ([57, 57, 120].drop (2 + 1)) = some (w, m) →
          st'.bg_color = (if w < 99 then (w : Int) else ((w % 16 : Nat) : Int))) :=
  ⟨by decide, (color_folding [120] [57, 57, 120] Style.init 99 2 (by decide)).1⟩

/-- Claim C12. Tab handling: at a Tab byte the switch of `fe_print_text` keeps
every field of the style and asks for a space; the iteration adds to the buffer
the flush of the literal text accumulated before the tab, if any, and one
untagged space, nothing else; and the text rendered for a line (the content of
a C string) is the text rendered for the part before the tab, one space, and
the text rendered for the part behind it. -/
theorem tab_is_one_space (a b : List Nat) (s : PrintState) (hp : s.p = a.length) :
    fe_switch (a ++ ATTR_TAB :: b) s.p s.cur = some (s.p + 1, s.cur, true) ∧
    fe_print_step (a ++ ATTR_TAB :: b) s
      = ⟨s.p + 1, s.p + 1, s.cur, s.cur,
          (if s.p > s.segment_start then
            s.buf ++ [BufOp.span
              ⟨s.segment_start, slice (a ++ ATTR_TAB :: b) s.segment_start s.p, s.prev⟩]
          else s.buf) ++ [BufOp.plain [32]]⟩ ∧
    (is_cstr (a ++ ATTR_TAB :: b) →
      inserted (fe_print_render (a ++ ATTR_TAB :: b))
        = inserted (fe_print_render a) ++ [32] ++ inserted (fe_print_render b)) := by
  have hsw : fe_switch (a ++ ATTR_TAB :: b) s.p s.cur = some (s.p + 1, s.cur, true) := by
    rw [hp]
    simp [fe_switch, byteAt_append_cons]
  refine ⟨hsw, ?_, ?_⟩
  · rw [fe_print_step_code _ s _ _ _ hsw]
    simp
  · intro h0
    have ha : is_cstr a := fun x hx => h0 x (by simp [hx])
    have hb : is_cstr b := fun x hx => h0 x (by simp [hx])
    rw [inserted_render _ h0, inserted_render a ha, inserted_render b hb,
      visible_text_append_stop a b ATTR_TAB (by decide) (by decide)]
    simp [visible_text, spec_strip]

/-- Claim C12 at the line `nk ^I hi`. -/
theorem tab_is_one_space_witness :
    (⟨2, 0, Style.init, Style.init, []⟩ : PrintState).p = [110, 107].length ∧
      is_cstr ([110, 107] ++ ATTR_TAB :: [104, 105]) ∧
      inserted (fe_print_render ([110, 107] ++ ATTR_TAB :: [104, 105]))
        = inserted (fe_print_render [110, 107]) ++ [32] ++ inserted (fe_print_render [104, 105]) :=
  ⟨rfl, by unfold is_cstr; decide,
    (tab_is_one_space [110, 107] [104, 105] ⟨2, 0, Style.init, Style.init, []⟩ rfl).2.2
      (by unfold is_cstr; decide)⟩

/-- Claim C13 as stated fails: the Beep in `^C ^G 1` keeps the digit out of the
colour sequence, so the visible text is `1` with it and empty without it; the
Beep in `^C 1 ^G 2 x` makes the foreground 1 and `2` visible where without it
the foreground is 12; and for `a`, newline, `^G` a second newline is inserted
that is not inserted once the Beep is removed. -/
theorem beep_splits_color_sequence :
    strip_beep_blink [3, 7, 49] = [3, 49] ∧
    inserted (fe_print_text [3, 7, 49]) = [49, 10] ∧
    inserted (fe_print_text (strip_beep_blink [3, 7, 49])) = [10] ∧
    inserted (fe_print_text (strip_beep_blink [3, 7, 49])) ≠ inserted (fe_print_text [3, 7, 49]) ∧
    styled (fe_print_text [3, 49, 7, 50, 120])
      = [(50, some ⟨false, false, false, false, false, false, 1, -1⟩),
         (120, some ⟨false, false, false, false, false, false, 1, -1⟩), (10, none)] ∧
    styled (fe_print_text (strip_beep_blink [3, 49, 7, 50, 120]))
      = [(120, some ⟨false, false, false, false, false, false, 12, -1⟩), (10, none)] ∧
    inserted (fe_print_text [97, 10, 7]) = [97, 10, 10] ∧
    inserted (fe_print_text (strip_beep_blink [97, 10, 7])) = [97, 10] := by
  refine ⟨by decide, by decide, by decide, by decide, by decide, by decide, by decide, by decide⟩

/-- Claim C13, amended. For every line (the content of a C string): no span
text holds a Beep or Blink byte, and the switch steps over either byte with the
style unchanged. When no Beep or Blink byte is immediately followed by a digit
or a comma, removing all Beep and Blink bytes changes neither the text rendered
for the line (the insertions before the newline step) nor the style attached to
any of its bytes; when in addition the line does not end in a Beep or Blink
byte, all that `fe_print_text` inserts, newline included, is unchanged. -/
theorem beep_blink_removal (text : List Nat) (h0 : is_cstr text) :
    (∀ sp ∈ spans (fe_print_text text), ATTR_BEEP ∉ sp.text ∧ ATTR_BLINK ∉ sp.text) ∧
    (∀ (a b : List Nat) (st : Style),
      fe_switch (a ++ ATTR_BEEP :: b) a.length st = some (a.length + 1, st, false) ∧
      fe_switch (a ++ ATTR_BLINK :: b) a.length st = some (a.length + 1, st, false)) ∧
    (beep_before_arg text = false →
      styled (fe_print_render (strip_beep_blink text)) = styled (fe_print_render text)) ∧
    (beep_before_arg text = false →
      (∀ c, text.getLast? = some c → is_beep_blink c = false) →
      styled (fe_print_text (strip_beep_blink text)) = styled (fe_print_text text)) := by
  have hs := strip_beep_cstr text h0
  have hren : beep_before_arg text = false →
      styled (fe_print_render (strip_beep_blink text)) = styled (fe_print_render text) := by
    intro hc
    rw [styled_render _ hs, styled_render text h0]
    exact spec_styled_strip_beep text.length text (Nat.le_refl _) hc Style.init
  refine ⟨?_, ?_, hren, ?_⟩
  · intro sp hsp
    have hno := spec_strip_no_control [] (by simp) text.length text (Nat.le_refl _)
    have hmem : ∀ x ∈ sp.text, is_control_code x = false := by
      intro x hx
      apply hno
      have := mem_span_text _ sp hsp x hx
      rw [spans_text_eq_render, spans_text_render text h0] at this
      exact this
    constructor
    · intro h; have := hmem _ h; revert this; decide
    · intro h; have := hmem _ h; revert this; decide
  · intro a b st
    constructor
    · simp [fe_switch, byteAt_append_cons]
    · simp [fe_switch, byteAt_append_cons]
  · intro hc hl
    have e1 : fe_print_text text = fe_print_render text
        ++ (if text = [] ∨ text.getLast? ≠ some 10 then [BufOp.plain [10]] else []) := by
      rw [fe_print_text_render]
      by_cases hq : text = [] ∨ text.getLast? ≠ some 10
      · rw [if_pos hq, if_pos ((newline_cond text h0).mpr hq)]
      · rw [if_neg hq, if_neg (fun h => hq ((newline_cond text h0).mp h))]
    have e2 : fe_print_text (strip_beep_blink text) = fe_print_render (strip_beep_blink text)
        ++ (if text = [] ∨ text.getLast? ≠ some 10 then [BufOp.plain [10]] else []) := by
      rw [fe_print_text_render]
      have hiff := newline_cond_strip_beep text hl
      by_cases hq : text = [] ∨ text.getLast? ≠ some 10
      · rw [if_pos hq, if_pos ((newline_cond _ hs).mpr (hiff.mpr hq))]
      · rw [if_neg hq, if_neg (fun h => hq (hiff.mp ((newline_cond _ hs).mp h)))]
    rw [e1, e2, styled_append, styled_append, hren hc]

/-- Claim C13, amended, at the line `^B a ^G ^C 4 ^F b`. -/
theorem beep_blink_removal_witness :
    is_cstr [2, 97, 7, 3, 52, 6, 98] ∧ beep_before_arg [2, 97, 7, 3, 52, 6, 98] = false ∧
      (∀ c, ([2, 97, 7, 3, 52, 6, 98] : List Nat).getLast? = some c → is_beep_blink c = false) ∧
      styled (fe_print_text (strip_beep_blink [2, 97, 7, 3, 52, 6, 98]))
        = styled (fe_print_text [2, 97, 7, 3, 52, 6, 98]) ∧
      styled (fe_print_text [2, 97, 7, 3, 52, 6, 98])
        = [(97, some ⟨true, false, false, false, false, false, -1, -1⟩),
           (98, some ⟨true, false, false, false, false, false, 4, -1⟩), (10, none)] :=
  ⟨by unfold is_cstr; decide, by decide, by decide,
    (beep_blink_removal [2, 97, 7, 3, 52, 6, 98] (by unfold is_cstr; decide)).2.2.2 (by decide)
      (by decide),
    by decide⟩

/-- Claim C14. No empty spans: every tagged segment `fe_print_text` inserts has
a non-empty text, and a line (the content of a C string) that consists of
control codes only, or that strips to nothing, gets no tagged segment. -/
theorem no_empty_span (text : List Nat) :
    (∀ sp ∈ spans (fe_print_text text), sp.text ≠ []) ∧
    (is_cstr text → strip_codes text = [] → spans (fe_print_text text) = []) ∧
    ((∀ b ∈ text, is_control_code b = true) → strip_codes text = []) := by
  have h1 : ∀ sp ∈ spans (fe_print_text text), sp.text ≠ [] := by
    intro sp hsp
    rw [spans_text_eq_render] at hsp
    rcases fe_print_loop_nonempty text text.length (PrintState.start Style.init)
      (by intro i _ h2; simp [PrintState.start] at h2) sp hsp with h | h
    · simp [PrintState.start, spans] at h
    · exact h
  refine ⟨h1, ?_, ?_⟩
  · intro h0 hs
    apply span_text_nil _ h1
    rw [spans_text_eq_render, spans_text_render text h0, hs]
  · intro hc
    exact strip_only_codes [] rfl text hc

/-- Claim C14 at the lines `^B a ^O ^C` and `^B ^C ^O ^C ^I ^G`. -/
theorem no_empty_span_witness :
    (⟨1, [97], ⟨true, false, false, false, false, false, -1, -1⟩⟩ : Span)
        ∈ spans (fe_print_text [2, 97, 15, 3]) ∧
      (⟨1, [97], ⟨true, false, false, false, false, false, -1, -1⟩⟩ : Span).text ≠ [] ∧
    is_cstr [2, 3, 15, 3, 9, 7] ∧ (∀ b ∈ [2, 3, 15, 3, 9, 7], is_control_code b = true) ∧
      spans (fe_print_text [2, 3, 15, 3, 9, 7]) = [] :=
  ⟨by decide, (no_empty_span [2, 97, 15, 3]).1 _ (by decide), by unfold is_cstr; decide, by decide,
    (no_empty_span [2, 3, 15, 3, 9, 7]).2.1 (by unfold is_cstr; decide)
      ((no_empty_span [2, 3, 15, 3, 9, 7]).2.2 (by decide))⟩

/-- Claim C15 as stated fails: with the classes numbered -2 for Path, 4 for
Host6 and 1 for Generic, the token `example.com` of class 3 (a host) holds no
colon and is opened as `http://example.com`, not unmodified. -/
theorem open_url_host_without_colon :
    ((3 : Int) ≠ -2 ∧ (3 : Int) ≠ 4 ∧ (3 : Int) ≠ 1) ∧ 58 ∉ word_example_com ∧
    open_url (fun _ => 3) (-2) 4 word_example_com
      = some ([104, 116, 116, 112, 58, 47, 47] ++ word_example_com) ∧
    open_url (fun _ => 3) (-2) 4 word_example_com ≠ some word_example_com := by
  refine ⟨by decide, by decide, by decide, by decide⟩

/-- Claim C15, amended. For every non-empty token (the content of a C string)
and distinct class numbers for Path and Host6: a Path token is opened as
`file://` and the token; a Host6 token as `http://[`, the token and `]`, or as
`http://` and the token when it starts with `[`; a token of any other class
that holds no colon as `http://` and the token; and a token of any other class
that holds a colon unmodified. -/
theorem open_url_policy (url_check_word : List Nat → Int) (WORD_PATH WORD_HOST6 : Int)
    (url : List Nat) (h0 : is_cstr url) (hne : url ≠ []) (hdist : WORD_PATH ≠ WORD_HOST6) :
    (url_check_word url = WORD_PATH →
      open_url url_check_word WORD_PATH WORD_HOST6 url
        = some ([102, 105, 108, 101, 58, 47, 47] ++ url)) ∧
    (url_check_word url = WORD_HOST6 → byteAt url 0 ≠ 91 →
      open_url url_check_word WORD_PATH WORD_HOST6 url
        = some ([104, 116, 116, 112, 58, 47, 47, 91] ++ url ++ [93])) ∧
    (url_check_word url = WORD_HOST6 → byteAt url 0 = 91 →
      open_url url_check_word WORD_PATH WORD_HOST6 url
        = some ([104, 116, 116, 112, 58, 47, 47] ++ url)) ∧
    (url_check_word url ≠ WORD_PATH → url_check_word url ≠ WORD_HOST6 → 58 ∉ url →
      open_url url_check_word WORD_PATH WORD_HOST6 url
        = some ([104, 116, 116, 112, 58, 47, 47] ++ url)) ∧
    (url_check_word url ≠ WORD_PATH → url_check_word url ≠ WORD_HOST6 → 58 ∈ url →
      open_url url_check_word WORD_PATH WORD_HOST6 url = some url) := by
  have hz := byteAt_zero_ne url h0 hne
  have hu := cstr_from_zero url h0
  refine ⟨?_, ?_, ?_, ?_, ?_⟩
  · intro h1
    simp [open_url, hz, hu, h1]
  · intro h1 h2
    have h3 : WORD_HOST6 ≠ WORD_PATH := fun h => hdist h.symm
    simp [open_url, hz, hu, h1, h2, h3]
  · intro h1 h2
    have h3 : WORD_HOST6 ≠ WORD_PATH := fun h => hdist h.symm
    simp [open_url, hz, hu, h1, h2, h3]
  · intro h1 h2 h3
    simp [open_url, hz, hu, h1, h2, h3]
  · intro h1 h2 h3
    simp [open_url, hz, hu, h1, h2, h3]

/-- Claim C15, amended, at the tokens `example.com`, `::1` and `/tmp`. -/
theorem open_url_policy_witness :
    is_cstr word_example_com ∧ word_example_com ≠ [] ∧ ((-2 : Int) ≠ 4) ∧
      open_url classify_sample (-2) 4 word_example_com
        = some ([104, 116, 116, 112, 58, 47, 47] ++ word_example_com) ∧
      open_url classify_sample (-2) 4 [58, 58, 49]
        = some ([104, 116, 116, 112, 58, 47, 47, 91] ++ [58, 58, 49] ++ [93]) ∧
      open_url classify_sample (-2) 4 [47, 116, 109, 112]
        = some ([102, 105, 108, 101, 58, 47, 47] ++ [47, 116, 109, 112]) :=
  ⟨by unfold is_cstr; decide, by decide, by decide,
    (open_url_policy classify_sample (-2) 4 word_example_com (by unfold is_cstr; decide)
      (by decide) (by decide)).2.2.2.1 (by decide) (by decide) (by decide),
    (open_url_policy classify_sample (-2) 4 [58, 58, 49] (by unfold is_cstr; decide)
      (by decide) (by decide)).2.1 (by decide) (by decide),
    (open_url_policy classify_sample (-2) 4 [47, 116, 109, 112] (by unfold is_cstr; decide)
      (by decide) (by decide)).1 (by decide)⟩

/-- Claim C16. Scenario: for the bytes `^B Hello ^B`, space, `world` the tagged
segments are `Hello` with bold alone set and ` world` with nothing set, in that
order. -/
theorem scenario_bold_hello :
    spans (fe_print_text [2, 72, 101, 108, 108, 111, 2, 32, 119, 111, 114, 108, 100])
      = [⟨1, [72, 101, 108, 108, 111], ⟨true, false, false, false, false, false, -1, -1⟩⟩,
         ⟨7, [32, 119, 111, 114, 108, 100],
           ⟨false, false, false, false, false, false, -1, -1⟩⟩] := by
  decide

/-- Claim C17. Scenario: for the bytes `^C 04red ^C`, space, `plain` the tagged
segments are `red` with foreground 4 and background unset and ` plain` with
both colours unset, in that order. -/
theorem scenario_red_plain :
    spans (fe_print_text [3, 48, 52, 114, 101, 100, 3, 32, 112, 108, 97, 105, 110])
      = [⟨3, [114, 101, 100], ⟨false, false, false, false, false, false, 4, -1⟩⟩,
         ⟨7, [32, 112, 108, 97, 105, 110],
           ⟨false, false, false, false, false, false, -1, -1⟩⟩] := by
  decide

/-- Claim C18. Scenario: for the line `check http://example.com please`, line
start offset 0 and any classifier that accepts `http://example.com` and rejects
`check` and `please`, the classifier is handed the three words, the one range
tagged is 6 to 24, and the inserted text between the offsets 6 and 24 is
`http://example.com`. -/
theorem scenario_check_url (chk : List Nat → Int) (h1 : chk word_http_example_com > 0)
    (h2 : ¬ chk [99, 104, 101, 99, 107] > 0) (h3 : ¬ chk [112, 108, 101, 97, 115, 101] > 0) :
    url_words (apply_url_tags_to_line chk 0 line_check_url)
      = [[99, 104, 101, 99, 107], word_http_example_com, [112, 108, 101, 97, 115, 101]] ∧
    url_ranges (apply_url_tags_to_line chk 0 line_check_url) = [(6, 24)] ∧
    inserted (fe_print_text line_check_url) = line_check_url ++ [10] ∧
    gtk_text_between (inserted (fe_print_text line_check_url)) 6 24 = word_http_example_com ∧
    bytes_between (inserted (fe_print_text line_check_url)) 6 24 = word_http_example_com := by
  have h0 : apply_url_tags_to_line accept_http_example_com 0 line_check_url
      = [⟨[99, 104, 101, 99, 107], 0, 5, false⟩, ⟨word_http_example_com, 6, 24, true⟩,
         ⟨[112, 108, 101, 97, 115, 101], 25, 31, false⟩] := by decide
  rw [apply_url_tags_retag chk accept_http_example_com, h0]
  refine ⟨by simp [url_words, retag], ?_, by decide, by decide, by decide⟩
  simp [url_ranges, retag, h1, h2, h3]

/-- Claim C18 with the classifier that accepts `http://example.com` alone. -/
theorem scenario_check_url_witness :
    accept_http_example_com word_http_example_com > 0 ∧
    url_ranges (apply_url_tags_to_line accept_http_example_com 0 line_check_url) = [(6, 24)] :=
  ⟨by decide, (scenario_check_url accept_http_example_com (by decide) (by decide) (by decide)).2.1⟩

/-- Claim C19. Truncated colour sequences: for every line (the content of a C
string), however it ends, the loop of `fe_print_text` and the outer loop of
`apply_url_tags_to_line` end with `p` exactly at the end of the line, and what
both functions do is the same whatever bytes lie behind the terminating NUL, so
nothing behind it is read; a Color byte that is the last byte of the line
unsets both colours and is skipped as one byte by the URL pass. -/
theorem truncated_color_stops (url_check_word : List Nat → Int) (line_start_offset : Int)
    (text : List Nat) (h0 : is_cstr text) :
    (fe_print_loop text.length text (PrintState.start Style.init)).p = text.length ∧
    (url_loop url_check_word line_start_offset text.length text ⟨0, 0, []⟩).p = text.length ∧
    (∀ junk : List Nat, fe_print_text (text ++ 0 :: junk) = fe_print_text text) ∧
    (∀ junk : List Nat,
      apply_url_tags_to_line url_check_word line_start_offset (text ++ 0 :: junk)
        = apply_url_tags_to_line url_check_word line_start_offset text) ∧
    (∀ st : Style, fe_switch (text ++ [ATTR_COLOR]) text.length st
      = some (text.length + 1, { st with fg_color := -1, bg_color := -1 }, false)) ∧
    skip_color (text ++ [ATTR_COLOR]) text.length = text.length + 1 := by
  refine ⟨?_, ?_, ?_, ?_, ?_, ?_⟩
  · exact fe_print_loop_end text h0 text.length (PrintState.start Style.init)
      (by simp [PrintState.start]) (by simp [PrintState.start])
  · exact url_loop_end url_check_word line_start_offset text h0 text.length ⟨0, 0, []⟩
      (Nat.zero_le _) (by simp)
  · intro junk; exact fe_print_text_junk text junk h0
  · intro junk; exact apply_url_tags_junk url_check_word line_start_offset text junk h0
  · intro st
    rw [fe_switch_color]
    simp [spec_color, spec_field]
  · rw [skip_color_eq]
    have : (text ++ [ATTR_COLOR]).drop (text.length + 1) = [] := by simp
    rw [this]
    simp [spec_color, spec_field]

/-- Claim C19 at the line `a ^C 1 ,` that ends inside a colour sequence, with
the digits `55` behind the terminator. -/
theorem truncated_color_stops_witness :
    is_cstr [97, 3, 49, 44] ∧
      (fe_print_loop [97, 3, 49, 44].length [97, 3, 49, 44] (PrintState.start Style.init)).p
        = [97, 3, 49, 44].length ∧
      (url_loop accept_http_a_b 0 [97, 3, 49, 44].length [97, 3, 49, 44] ⟨0, 0, []⟩).p
        = [97, 3, 49, 44].length ∧
      fe_print_text ([97, 3, 49, 44] ++ 0 :: [53, 53]) = fe_print_text [97, 3, 49, 44] :=
  ⟨by unfold is_cstr; decide,
    (truncated_color_stops accept_http_a_b 0 [97, 3, 49, 44] (by unfold is_cstr; decide)).1,
    (truncated_color_stops accept_http_a_b 0 [97, 3, 49, 44] (by unfold is_cstr; decide)).2.1,
    (truncated_color_stops accept_http_a_b 0 [97, 3, 49, 44] (by unfold is_cstr; decide)).2.2.1
      [53, 53]⟩

/-- Claim C20. Trailing newline: for every line (the content of a C string)
the insertions of `fe_print_text` are the rendered text followed by one newline
exactly when the line is empty or its last byte is not a newline; the rendered
text is the visible text of the line, and the inserted text always ends with a
newline. -/
theorem trailing_newline (text : List Nat) (h0 : is_cstr text) :
    fe_print_text text = fe_print_render text
        ++ (if text = [] ∨ text.getLast? ≠ some 10 then [BufOp.plain [10]] else []) ∧
    inserted (fe_print_render text) = visible_text text ∧
    (inserted (fe_print_text text)).getLast? = some 10 := by
  have h1 : fe_print_text text = fe_print_render text
        ++ (if text = [] ∨ text.getLast? ≠ some 10 then [BufOp.plain [10]] else []) := by
    rw [fe_print_text_render]
    by_cases hc : text = [] ∨ text.getLast? ≠ some 10
    · rw [if_pos hc, if_pos ((newline_cond text h0).mpr hc)]
    · rw [if_neg hc, if_neg (fun h => hc ((newline_cond text h0).mp h))]
  refine ⟨h1, inserted_render text h0, ?_⟩
  rw [h1, inserted_append, inserted_render text h0]
  by_cases hc : text = [] ∨ text.getLast? ≠ some 10
  · rw [if_pos hc]
    simp [inserted]
  · rw [if_neg hc]
    have hne : text ≠ [] := fun h => hc (Or.inl h)
    have hl : text.getLast? = some 10 := by
      by_contra h; exact hc (Or.inr h)
    rcases List.eq_nil_or_concat text with h | ⟨a, c, h⟩
    · exact absurd h hne
    · rw [List.concat_eq_append] at h
      subst h
      simp only [List.getLast?_append, List.getLast?_singleton] at hl
      have hc10 : c = 10 := by simpa using hl
      subst hc10
      rw [visible_text_append_stop a [] 10 (by decide) (by decide)]
      simp [inserted, visible_text, spec_strip, is_control_code]

/-- Claim C20 at the line `a`, newline, `^G`. -/
theorem trailing_newline_witness :
    is_cstr [97, 10, 7] ∧
      fe_print_text [97, 10, 7] = fe_print_render [97, 10, 7]
        ++ (if ([97, 10, 7] : List Nat) = [] ∨ ([97, 10, 7] : List Nat).getLast? ≠ some 10
            then [BufOp.plain [10]] else []) ∧
      inserted (fe_print_render [97, 10, 7]) = visible_text [97, 10, 7] ∧
      (inserted (fe_print_text [97, 10, 7])).getLast? = some 10 :=
  ⟨by unfold is_cstr; decide, trailing_newline [97, 10, 7] (by unfold is_cstr; decide)⟩

/-! ## Lemmas: the line start offset -/

theorem url_step_shift (chk : List Nat → Int) (k : Int) (text : List Nat) (s : UrlState) :
    url_step chk k text ⟨s.p, s.text_offset, s.out.map (shift_word k)⟩
      = ⟨(url_step chk 0 text s).p, (url_step chk 0 text s).text_offset,
          (url_step chk 0 text s).out.map (shift_word k)⟩ := by
  unfold url_step
  simp only []
  split_ifs <;> simp [shift_word]

theorem url_loop_shift (chk : List Nat → Int) (k : Int) (text : List Nat) :
    ∀ (fuel : Nat) (s : UrlState),
      url_loop chk k fuel text ⟨s.p, s.text_offset, s.out.map (shift_word k)⟩
        = ⟨(url_loop chk 0 fuel text s).p, (url_loop chk 0 fuel text s).text_offset,
            (url_loop chk 0 fuel text s).out.map (shift_word k)⟩ := by
  intro fuel
  induction fuel with
  | zero => intro s; rfl
  | succ fuel ih =>
    intro s
    unfold url_loop
    by_cases hz : byteAt text s.p = 0
    · simp [hz]
    · simp only [hz, if_false]
      rw [url_step_shift chk k text s]
      exact ih (url_step chk 0 text s)

theorem apply_url_tags_shift (chk : List Nat → Int) (k : Int) (text : List Nat) :
    apply_url_tags_to_line chk k text = (apply_url_tags_to_line chk 0 text).map (shift_word k) := by
  unfold apply_url_tags_to_line
  by_cases hz : byteAt text 0 = 0
  · simp [hz]
  · simp only [hz, if_false]
    have h := url_loop_shift chk k text text.length ⟨0, 0, []⟩
    simp only [List.map_nil] at h
    rw [h]

/-! ## Lemmas: a colour code with a foreground only -/

theorem spec_color_fg_only (st : Style) (b : List Nat) (v n : Nat)
    (hf : spec_field b = some (v, n))
    (hb : ¬ (byteAt b n = 44 ∧ g_ascii_isdigit (byteAt b (n + 1)) = true)) :
    spec_color st b
      = (if byteAt b n = 44 then n + 1 else n, { st with fg_color := spec_fold v }) := by
  rw [spec_color_digits st b v n hf]
  by_cases h44 : byteAt b n = 44
  · have hd : g_ascii_isdigit (byteAt b (n + 1)) = false := by
      cases hx : g_ascii_isdigit (byteAt b (n + 1))
      · rfl
      · exact absurd ⟨h44, hx⟩ hb
    have hnone : spec_field (b.drop (n + 1)) = none := by
      apply spec_field_of_not
      rw [← byteAt_drop_zero]
      exact hd
    simp [h44, hnone]
  · simp [h44]

theorem skip_color_append (a b : List Nat) (st : Style) :
    skip_color (a ++ ATTR_COLOR :: b) a.length = a.length + 1 + (spec_color st b).1 := by
  rw [skip_color_eq]
  have hd : (a ++ ATTR_COLOR :: b).drop (a.length + 1) = b := by
    rw [← List.drop_drop]
    simp
  rw [hd, spec_color_len_indep Style.init st]

/-! ## Lemmas: the colour fields stay in the palette -/

theorem spec_fold_valid (n : Nat) : color_valid (spec_fold n) = true := by
  unfold color_valid spec_fold
  by_cases h : 99 ≤ n
  · simp only [h, if_true]
    have : n % 16 < 16 := Nat.mod_lt _ (by decide)
    simp
    omega
  · simp only [h, if_false]
    simp
    omega

theorem spec_color_valid (st : Style) (l : List Nat)
    (hb : color_valid st.bg_color = true) :
    color_valid (spec_color st l).2.fg_color = true ∧
      color_valid (spec_color st l).2.bg_color = true := by
  cases hx : spec_field l with
  | none =>
    simp only [spec_color, hx]
    exact ⟨by decide, by decide⟩
  | some vn =>
    obtain ⟨v, n⟩ := vn
    rw [spec_color_digits st l v n hx]
    by_cases h44 : byteAt l n = 44
    · simp only [h44, if_true]
      cases hy : spec_field (l.drop (n + 1)) with
      | none => exact ⟨spec_fold_valid v, hb⟩
      | some wm => exact ⟨spec_fold_valid v, spec_fold_valid wm.1⟩
    · simp only [h44, if_false]
      exact ⟨spec_fold_valid v, hb⟩

theorem spec_apply_valid (st : Style) (c : Nat)
    (hf : color_valid st.fg_color = true) (hb : color_valid st.bg_color = true) :
    color_valid (spec_apply st c).fg_color = true ∧
      color_valid (spec_apply st c).bg_color = true := by
  unfold spec_apply
  split_ifs <;> first | exact ⟨hf, hb⟩ | exact ⟨by decide, by decide⟩

theorem fe_switch_valid (text : List Nat) (p : Nat) (st : Style) (q : Nat) (st1 : Style)
    (b : Bool) (h : fe_switch text p st = some (q, st1, b))
    (hf : color_valid st.fg_color = true) (hb : color_valid st.bg_color = true) :
    color_valid st1.fg_color = true ∧ color_valid st1.bg_color = true := by
  by_cases hp : p < text.length
  · obtain ⟨c, r, hd⟩ := drop_of_lt text p hp
    rw [fe_switch_spec text p st c r hd] at h
    split_ifs at h
    · simp only [Option.some.injEq, Prod.mk.injEq] at h
      rw [← h.2.1]
      exact spec_color_valid st r hb
    · simp only [Option.some.injEq, Prod.mk.injEq] at h
      rw [← h.2.1]
      exact ⟨hf, hb⟩
    · simp only [Option.some.injEq, Prod.mk.injEq] at h
      rw [← h.2.1]
      exact spec_apply_valid st c hf hb
  · have hz : byteAt text p = 0 := by
      unfold byteAt
      rw [List.getD_eq_default]
      omega
    have : fe_switch text p st = none := fe_switch_literal text p st (by rw [hz]; decide)
    rw [this] at h
    cases h

theorem fe_print_step_valid (text : List Nat) (s : PrintState)
    (hcf : color_valid s.cur.fg_color = true) (hcb : color_valid s.cur.bg_color = true)
    (hpf : color_valid s.prev.fg_color = true) (hpb : color_valid s.prev.bg_color = true)
    (hsp : ∀ sp ∈ spans s.buf,
      color_valid sp.style.fg_color = true ∧ color_valid sp.style.bg_color = true) :
    (color_valid (fe_print_step text s).cur.fg_color = true ∧
      color_valid (fe_print_step text s).cur.bg_color = true) ∧
    (color_valid (fe_print_step text s).prev.fg_color = true ∧
      color_valid (fe_print_step text s).prev.bg_color = true) ∧
    ∀ sp ∈ spans (fe_print_step text s).buf,
      color_valid sp.style.fg_color = true ∧ color_valid sp.style.bg_color = true := by
  cases hsw : fe_switch text s.p s.cur with
  | none =>
    rw [fe_print_step_literal text s hsw]
    exact ⟨⟨hcf, hcb⟩, ⟨hpf, hpb⟩, hsp⟩
  | some r =>
    obtain ⟨q, st1, b⟩ := r
    rw [fe_print_step_code text s q st1 b hsw]
    have hv := fe_switch_valid text s.p s.cur q st1 b hsw hcf hcb
    refine ⟨hv, hv, ?_⟩
    intro sp hmem
    rcases spans_step_buf text s b sp hmem with h | h
    · exact hsp sp h
    · rw [h]; exact ⟨hpf, hpb⟩

theorem fe_print_loop_valid (text : List Nat) :
    ∀ (fuel : Nat) (s : PrintState),
      color_valid s.cur.fg_color = true → color_valid s.cur.bg_color = true →
      color_valid s.prev.fg_color = true → color_valid s.prev.bg_color = true →
      (∀ sp ∈ spans s.buf,
        color_valid sp.style.fg_color = true ∧ color_valid sp.style.bg_color = true) →
      (color_valid (fe_print_loop fuel text s).cur.fg_color = true ∧
        color_valid (fe_print_loop fuel text s).cur.bg_color = true) ∧
      (color_valid (fe_print_loop fuel text s).prev.fg_color = true ∧
        color_valid (fe_print_loop fuel text s).prev.bg_color = true) ∧
      ∀ sp ∈ spans (fe_print_loop fuel text s).buf,
        color_valid sp.style.fg_color = true ∧ color_valid sp.style.bg_color = true := by
  intro fuel
  induction fuel with
  | zero =>
    intro s h1 h2 h3 h4 h5
    exact ⟨⟨h1, h2⟩, ⟨h3, h4⟩, h5⟩
  | succ fuel ih =>
    intro s h1 h2 h3 h4 h5
    unfold fe_print_loop
    by_cases hz : byteAt text s.p = 0
    · simp only [hz, if_true]
      exact ⟨⟨h1, h2⟩, ⟨h3, h4⟩, h5⟩
    · simp only [hz, if_false]
      obtain ⟨i1, i2, i3⟩ := fe_print_step_valid text s h1 h2 h3 h4 h5
      exact ih _ i1.1 i1.2 i2.1 i2.2 i3

theorem fmt_02d_eq (c : Int) (h : 0 ≤ c) : fmt_02d c = fmt_02u c.toNat := by
  simp [fmt_02d, h]

theorem color_tag_created (c : Int) (h0 : 0 ≤ c) (hv : color_valid c = true) :
    c.toNat < MIRC_COLORS_COUNT ∧
    "fg-" ++ fmt_02d c ∈ fe_gtk4_init_tags ∧ "bg-" ++ fmt_02d c ∈ fe_gtk4_init_tags := by
  have hlt : c.toNat < MIRC_COLORS_COUNT := by
    rw [MIRC_COLORS_COUNT_eq]
    simp [color_valid] at hv
    omega
  have hmem : c.toNat ∈ List.range MIRC_COLORS_COUNT := List.mem_range.mpr hlt
  rw [fmt_02d_eq c h0]
  refine ⟨hlt, ?_, ?_⟩
  · unfold fe_gtk4_init_tags
    apply List.mem_append_left
    exact List.mem_flatMap.mpr ⟨c.toNat, hmem, by simp⟩
  · unfold fe_gtk4_init_tags
    apply List.mem_append_left
    exact List.mem_flatMap.mpr ⟨c.toNat, hmem, by simp⟩

theorem applied_tags_created (st : Style)
    (hf : color_valid st.fg_color = true) (hb : color_valid st.bg_color = true) :
    ∀ t ∈ applied_tags st, t ∈ fe_gtk4_init_tags := by
  intro t ht
  have hfmt : ∀ x : String, x ∈ ["bold", "italic", "underline", "strikethrough", "hidden",
      "reverse", "timestamp", "url", "highlight", "marker-line"] → x ∈ fe_gtk4_init_tags := by
    intro x hx
    unfold fe_gtk4_init_tags
    exact List.mem_append_right _ hx
  unfold applied_tags at ht
  simp only [List.mem_append] at ht
  rcases ht with (((((((h | h) | h) | h) | h) | h) | h) | h)
  · split_ifs at h
    · apply hfmt; simp at h; rw [h]; decide
    · cases h
  · split_ifs at h
    · apply hfmt; simp at h; rw [h]; decide
    · cases h
  · split_ifs at h
    · apply hfmt; simp at h; rw [h]; decide
    · cases h
  · split_ifs at h
    · apply hfmt; simp at h; rw [h]; decide
    · cases h
  · split_ifs at h
    · apply hfmt; simp at h; rw [h]; decide
    · cases h
  · split_ifs at h
    · apply hfmt; simp at h; rw [h]; decide
    · cases h
  · split_ifs at h with hc
    · simp only [List.mem_singleton] at h
      rw [h]
      exact (color_tag_created st.fg_color hc hf).2.1
    · cases h
  · split_ifs at h with hc
    · simp only [List.mem_singleton] at h
      rw [h]
      exact (color_tag_created st.bg_color hc hb).2.2
    · cases h

/-! ## Lemmas: the offsets of the URL pass -/

theorem url_word_end_split (text : List Nat) :
    ∀ (fuel p off : Nat), p ≤ text.length →
      ∃ w : List Nat,
        (url_word_end fuel text p off).2 = off + w.length ∧
        p ≤ (url_word_end fuel text p off).1 ∧
        (url_word_end fuel text p off).1 ≤ text.length ∧
        (∀ (fuel2 : Nat) (dst : List Nat), (url_word_end fuel text p off).1 ≤ p + fuel2 →
          url_extract fuel2 text p (url_word_end fuel text p off).1 dst = dst ++ w) ∧
        spec_strip [32] 0 (text.drop p)
          = w ++ spec_strip [32] 0 (text.drop (url_word_end fuel text p off).1) ∧
        (∀ b ∈ w, b ≠ 0 ∧ g_ascii_isspace b = false ∧ is_control_code b = false) ∧
        (0 < fuel → byteAt text p ≠ 0 → g_ascii_isspace (byteAt text p) = false →
          is_control_code (byteAt text p) = false → w ≠ []) := by
  intro fuel
  induction fuel with
  | zero =>
    intro p off hp
    refine ⟨[], by simp [url_word_end], by simp [url_word_end], by simpa [url_word_end] using hp,
      ?_, by simp [url_word_end], by simp, ?_⟩
    · intro fuel2 dst _
      cases fuel2 <;> simp [url_word_end, url_extract]
    · intro h; omega
  | succ fuel ih =>
    intro p off hp
    -- the loop stops at `p`
    have stop : (url_word_end (fuel + 1) text p off = (p, off)) →
        (byteAt text p ≠ 0 → g_ascii_isspace (byteAt text p) = true) →
        ∃ w : List Nat,
        (url_word_end (fuel + 1) text p off).2 = off + w.length ∧
        p ≤ (url_word_end (fuel + 1) text p off).1 ∧
        (url_word_end (fuel + 1) text p off).1 ≤ text.length ∧
        (∀ (fuel2 : Nat) (dst : List Nat), (url_word_end (fuel + 1) text p off).1 ≤ p + fuel2 →
          url_extract fuel2 text p (url_word_end (fuel + 1) text p off).1 dst = dst ++ w) ∧
        spec_strip [32] 0 (text.drop p)
          = w ++ spec_strip [32] 0 (text.drop (url_word_end (fuel + 1) text p off).1) ∧
        (∀ b ∈ w, b ≠ 0 ∧ g_ascii_isspace b = false ∧ is_control_code b = false) ∧
        (0 < fuel + 1 → byteAt text p ≠ 0 → g_ascii_isspace (byteAt text p) = false →
          is_control_code (byteAt text p) = false → w ≠ []) := by
      intro he hcontra
      rw [he]
      refine ⟨[], by simp, by simp, by simpa using hp, ?_, by simp, by simp, ?_⟩
      · intro fuel2 dst _
        cases fuel2 <;> simp [url_extract]
      · intro _ h1 h2 h3
        exact absurd h2 (by simpa using hcontra h1)
    by_cases hz : byteAt text p = 0
    · apply stop
      · simp [url_word_end, hz]
      · intro h; exact absurd hz h
    · have hlt : p < text.length := byteAt_ne_zero_lt text p hz
      obtain ⟨c, r, hd⟩ := drop_of_lt text p hlt
      obtain ⟨hc, hr, _⟩ := byteAt_of_drop text p c r hd
      by_cases hs : g_ascii_isspace c = true
      · apply stop
        · simp [url_word_end, hc, hs]
        · intro _; rw [hc]; exact hs
      · have hsf : g_ascii_isspace c = false := by simpa using hs
        have h9 : c ≠ ATTR_TAB := by intro h; rw [h] at hsf; simp [g_ascii_isspace] at hsf
        have hc0 : c ≠ 0 := by rw [← hc]; exact hz
        -- a step over a code from `p` to `q`
        have code : ∀ q : Nat, p < q → q ≤ text.length →
            url_word_end (fuel + 1) text p off = url_word_end fuel text q off →
            (∀ (fuel2 : Nat) (e : Nat) (dst : List Nat), p < e →
              url_extract (fuel2 + 1) text p e dst = url_extract fuel2 text q e dst) →
            spec_strip [32] 0 (text.drop p) = spec_strip [32] 0 (text.drop q) →
            is_control_code c = true →
            ∃ w : List Nat,
            (url_word_end (fuel + 1) text p off).2 = off + w.length ∧
            p ≤ (url_word_end (fuel + 1) text p off).1 ∧
            (url_word_end (fuel + 1) text p off).1 ≤ text.length ∧
            (∀ (fuel2 : Nat) (dst : List Nat),
              (url_word_end (fuel + 1) text p off).1 ≤ p + fuel2 →
              url_extract fuel2 text p (url_word_end (fuel + 1) text p off).1 dst = dst ++ w) ∧
            spec_strip [32] 0 (text.drop p)
              = w ++ spec_strip [32] 0 (text.drop (url_word_end (fuel + 1) text p off).1) ∧
            (∀ b ∈ w, b ≠ 0 ∧ g_ascii_isspace b = false ∧ is_control_code b = false) ∧
            (0 < fuel + 1 → byteAt text p ≠ 0 → g_ascii_isspace (byteAt text p) = false →
              is_control_code (byteAt text p) = false → w ≠ []) := by
          intro q hpq hq he hex hst hctl
          obtain ⟨w, i1, i2, i3, i4, i5, i6, _⟩ := ih q off hq
          rw [he]
          refine ⟨w, i1, by omega, i3, ?_, ?_, i6, ?_⟩
          · intro fuel2 dst hf2
            cases fuel2 with
            | zero => omega
            | succ fuel2 =>
              rw [hex fuel2 _ dst (by omega)]
              exact i4 fuel2 dst (by omega)
          · rw [hst]
            exact i5
          · intro _ _ _ h4
            rw [hc, hctl] at h4
            cases h4
        by_cases hfc : is_format_code c = true
        · apply code (p + 1) (by omega) (by omega)
          · simp [url_word_end, hc, hs, hc0, h9, hfc]
          · intro fuel2 e dst hpe
            simp [url_extract, hpe, hc, hfc]
          · rw [hd, hr, strip_format_head _ c r hfc]
          · rw [control_code_cases, hfc]; rfl
        · by_cases h3 : c = ATTR_COLOR
          · have hsk := skip_color_le text p hlt
            apply code (skip_color text p) (by omega) hsk.2
            · simp [url_word_end, hc, h3, g_ascii_isspace, is_format_code]
            · intro fuel2 e dst hpe
              have : skip_color text p - 1 + 1 = skip_color text p := by omega
              simp [url_extract, hpe, hc, h3, is_format_code, this]
            · rw [hd, h3, strip_color_head, skip_color_eq, hr, ← hr, List.drop_drop]
            · rw [h3]; rfl
          · -- a literal byte of the word
            have hcc : is_control_code c = false := by
              rw [control_code_cases]
              simp [hfc, h3, h9]
            obtain ⟨w, i1, i2, i3, i4, i5, i6, _⟩ := ih (p + 1) (off + 1) (by omega)
            have he : url_word_end (fuel + 1) text p off
                = url_word_end fuel text (p + 1) (off + 1) := by
              simp [url_word_end, hc, hs, hc0, h9, hfc, h3]
            rw [he]
            refine ⟨c :: w, by rw [i1]; simp; omega, by omega, i3, ?_, ?_, ?_, by simp⟩
            · intro fuel2 dst hf2
              cases fuel2 with
              | zero => omega
              | succ fuel2 =>
                have hpe : p < (url_word_end fuel text (p + 1) (off + 1)).1 := by omega
                have : url_extract (fuel2 + 1) text p (url_word_end fuel text (p + 1) (off + 1)).1 dst
                    = url_extract fuel2 text (p + 1) (url_word_end fuel text (p + 1) (off + 1)).1
                        (dst ++ [c]) := by
                  simp [url_extract, hpe, hc, hfc, h3]
                rw [this, i4 fuel2 (dst ++ [c]) (by omega)]
                simp
            · rw [hd, spec_strip_cons_ne [32] c r h3, ← hr, i5]
              simp [h9, hcc]
            · intro b hb
              rcases List.mem_cons.mp hb with h | h
              · rw [h]; exact ⟨hc0, hsf, hcc⟩
              · exact i6 b h

theorem url_word_end_stop (text : List Nat) :
    ∀ (fuel p off : Nat), p ≤ text.length → text.length ≤ p + fuel →
      byteAt text (url_word_end fuel text p off).1 = 0 ∨
        g_ascii_isspace (byteAt text (url_word_end fuel text p off).1) = true := by
  intro fuel
  induction fuel with
  | zero =>
    intro p off hp hlen
    left
    simp only [url_word_end]
    unfold byteAt
    rw [List.getD_eq_default]
    omega
  | succ fuel ih =>
    intro p off hp hlen
    by_cases hz : byteAt text p = 0
    · left
      simp [url_word_end, hz]
    · have hlt : p < text.length := byteAt_ne_zero_lt text p hz
      by_cases hs : g_ascii_isspace (byteAt text p) = true
      · right
        simp [url_word_end, hs]
      · have hsf : g_ascii_isspace (byteAt text p) = false := by simpa using hs
        have h9 : byteAt text p ≠ ATTR_TAB := by
          intro h; rw [h] at hsf; simp [g_ascii_isspace] at hsf
        by_cases hfc : is_format_code (byteAt text p) = true
        · have he : url_word_end (fuel + 1) text p off = url_word_end fuel text (p + 1) off := by
            simp [url_word_end, hs, hz, h9, hfc]
          rw [he]
          exact ih (p + 1) off (by omega) (by omega)
        · by_cases h3 : byteAt text p = ATTR_COLOR
          · have hsk := skip_color_le text p hlt
            have he : url_word_end (fuel + 1) text p off
                = url_word_end fuel text (skip_color text p) off := by
              simp [url_word_end, h3, g_ascii_isspace, is_format_code]
            rw [he]
            exact ih _ off hsk.2 (by omega)
          · have he : url_word_end (fuel + 1) text p off
                = url_word_end fuel text (p + 1) (off + 1) := by
              simp [url_word_end, hs, hz, h9, hfc, h3]
            rw [he]
            exact ih (p + 1) (off + 1) (by omega) (by omega)

theorem format_code_not_space (c : Nat) (h : is_format_code c = true) :
    c ≠ 0 ∧ g_ascii_isspace c = false ∧ c ≠ ATTR_COLOR ∧ c ≠ ATTR_TAB := by
  simp only [is_format_code, Bool.or_eq_true, beq_iff_eq] at h
  rcases h with (((((((h | h) | h) | h) | h) | h) | h) | h) | h <;> subst h <;> decide

theorem url_step_format (chk : List Nat → Int) (k : Int) (text : List Nat) (s : UrlState)
    (h : is_format_code (byteAt text s.p) = true) :
    url_step chk k text s = ⟨s.p + 1, s.text_offset, s.out⟩ := by
  simp [url_step, h]

theorem url_step_color (chk : List Nat → Int) (k : Int) (text : List Nat) (s : UrlState)
    (h : byteAt text s.p = ATTR_COLOR) :
    url_step chk k text s = ⟨skip_color text s.p, s.text_offset, s.out⟩ := by
  simp [url_step, h, is_format_code]

theorem url_step_space (chk : List Nat → Int) (k : Int) (text : List Nat) (s : UrlState)
    (h : g_ascii_isspace (byteAt text s.p) = true) :
    url_step chk k text s = ⟨s.p + 1, s.text_offset + 1, s.out⟩ := by
  have hf : is_format_code (byteAt text s.p) = false := by
    cases hx : is_format_code (byteAt text s.p)
    · rfl
    · rw [(format_code_not_space _ hx).2.1] at h
      cases h
  have h3 : byteAt text s.p ≠ ATTR_COLOR := by
    intro hx; rw [hx] at h; simp [g_ascii_isspace] at h
  simp [url_step, h, hf, h3]

theorem url_step_word (chk : List Nat → Int) (k : Int) (text : List Nat) (s : UrlState)
    (hz : byteAt text s.p ≠ 0) (hf : is_format_code (byteAt text s.p) = false)
    (h3 : byteAt text s.p ≠ ATTR_COLOR) (hs : g_ascii_isspace (byteAt text s.p) = false) :
    ∃ (w : List Nat) (q : Nat),
      url_step chk k text s = ⟨q, s.text_offset + w.length, s.out ++
        [⟨w, k + (s.text_offset : Int), k + ((s.text_offset + w.length : Nat) : Int),
          decide (chk w > 0)⟩]⟩ ∧
      s.p < q ∧ q ≤ text.length ∧ w ≠ [] ∧
      (∀ b ∈ w, b ≠ 0 ∧ g_ascii_isspace b = false ∧ is_control_code b = false) ∧
      spec_strip [32] 0 (text.drop s.p) = w ++ spec_strip [32] 0 (text.drop q) ∧
      (byteAt text q = 0 ∨ g_ascii_isspace (byteAt text q) = true) ∧
      q = (url_word_end text.length text s.p s.text_offset).1 ∧
      w = url_extract text.length text s.p q [] := by
  have hp : s.p < text.length := byteAt_ne_zero_lt text s.p hz
  have h9 : byteAt text s.p ≠ ATTR_TAB := by
    intro h; rw [h] at hs; simp [g_ascii_isspace] at hs
  have hcc : is_control_code (byteAt text s.p) = false := by
    rw [control_code_cases]
    simp [hf, h3, h9]
  obtain ⟨w, i1, i2, i3, i4, i5, i6, i7⟩ :=
    url_word_end_split text text.length s.p s.text_offset (by omega)
  have hw : w ≠ [] := i7 (by omega) hz hs hcc
  have hprog : s.p < (url_word_end text.length text s.p s.text_offset).1 := by
    by_contra hn
    have hx := i4 0 [] (by omega)
    simp only [url_extract, List.nil_append] at hx
    exact hw hx.symm
  have hex := i4 text.length [] (by omega)
  simp only [List.nil_append] at hex
  refine ⟨w, (url_word_end text.length text s.p s.text_offset).1, ?_, hprog, i3, hw, i6, i5,
    url_word_end_stop text text.length s.p s.text_offset (by omega) (by omega), rfl, hex.symm⟩
  simp [url_step, hf, h3, hs, hex, i1]

theorem strip_space_head (c : Nat) (r : List Nat) (hs : g_ascii_isspace c = true) :
    ∃ x : Nat, spec_strip [32] 0 (c :: r) = [x] ++ spec_strip [32] 0 r := by
  have h3 : c ≠ ATTR_COLOR := by
    intro hx; rw [hx] at hs; simp [g_ascii_isspace] at hs
  rw [spec_strip_cons_ne [32] c r h3]
  by_cases h9 : c = ATTR_TAB
  · exact ⟨32, by simp [h9]⟩
  · have hcc : is_control_code c = false := by
      rw [control_code_cases]
      cases hx : is_format_code c
      · simp [h3, h9]
      · rw [(format_code_not_space c hx).2.1] at hs
        cases hs
    exact ⟨c, by simp [h9, hcc]⟩

theorem url_inv_start (k : Int) (text : List Nat) : url_inv k text ⟨0, 0, []⟩ := by
  refine ⟨Nat.zero_le _, ⟨[], by simp [visible_text], rfl⟩, ?_, List.Pairwise.nil, ?_⟩
  · intro w hw; cases hw
  · right; intro w hw; cases hw

theorem url_step_inv (chk : List Nat → Int) (k : Int) (text : List Nat) (s : UrlState)
    (hinv : url_inv k text s) (hz : byteAt text s.p ≠ 0) :
    url_inv k text (url_step chk k text s) := by
  obtain ⟨_, ⟨pre, hpre, hoff⟩, hwords, hpair, hlast⟩ := hinv
  have hp : s.p < text.length := byteAt_ne_zero_lt text s.p hz
  obtain ⟨c, r, hd⟩ := drop_of_lt text s.p hp
  obtain ⟨hc, hr, _⟩ := byteAt_of_drop text s.p c r hd
  -- a step over a code: the offset and the words stay
  have code : ∀ q : Nat, q ≤ text.length →
      url_step chk k text s = ⟨q, s.text_offset, s.out⟩ →
      spec_strip [32] 0 (text.drop s.p) = spec_strip [32] 0 (text.drop q) →
      g_ascii_isspace c = false →
      url_inv k text (url_step chk k text s) := by
    intro q hq hst hstrip hsf
    rw [hst]
    refine ⟨hq, ⟨pre, by rw [hpre, hstrip], hoff⟩, hwords, hpair, ?_⟩
    right
    rcases hlast with h | h
    · rcases h with h | h
      · exact absurd h hz
      · rw [hc, hsf] at h; cases h
    · exact h
  by_cases hfc : is_format_code c = true
  · apply code (s.p + 1) (by omega) (url_step_format chk k text s (by rw [hc]; exact hfc))
    · rw [hd, hr, strip_format_head _ c r hfc]
    · exact (format_code_not_space c hfc).2.1
  · have hff : is_format_code c = false := by simpa using hfc
    by_cases h3 : c = ATTR_COLOR
    · have hsk := skip_color_le text s.p hp
      apply code (skip_color text s.p) hsk.2 (url_step_color chk k text s (by rw [hc]; exact h3))
      · rw [hd, h3, strip_color_head, skip_color_eq, hr, ← hr, List.drop_drop]
      · rw [h3]; decide
    · by_cases hs : g_ascii_isspace c = true
      · rw [url_step_space chk k text s (by rw [hc]; exact hs)]
        obtain ⟨x, hx⟩ := strip_space_head c r hs
        refine ⟨by show s.p + 1 ≤ text.length; omega, ⟨pre ++ [x], ?_, ?_⟩, ?_, hpair, ?_⟩
        · show visible_text text = pre ++ [x] ++ spec_strip [32] 0 (text.drop (s.p + 1))
          rw [hpre, hd, hx, hr]
          simp
        · show s.text_offset + 1 = (pre ++ [x]).length
          simp [hoff]
        · intro w hw
          obtain ⟨a1, a2, a3, a4⟩ := hwords w hw
          refine ⟨a1, a2, ?_, a4⟩
          show w.end_offset ≤ k + ((s.text_offset + 1 : Nat) : Int)
          push_cast
          omega
        · right
          intro w hw
          obtain ⟨a1, a2, a3, a4⟩ := hwords w hw
          show w.end_offset < k + ((s.text_offset + 1 : Nat) : Int)
          push_cast
          omega
      · have hsf : g_ascii_isspace c = false := by simpa using hs
        obtain ⟨w, q, hst, hpq, hq, hw, hbytes, hstrip, hstop, _, _⟩ :=
          url_step_word chk k text s hz (by rw [hc]; exact hff) (by rw [hc]; exact h3)
            (by rw [hc]; exact hsf)
        have hbefore : ∀ x ∈ s.out, x.end_offset < k + (s.text_offset : Int) := by
          rcases hlast with h | h
          · rcases h with h | h
            · exact absurd h hz
            · rw [hc, hsf] at h; cases h
          · exact h
        rw [hst]
        refine ⟨hq, ⟨pre ++ w, ?_, ?_⟩, ?_, ?_, ?_⟩
        · show visible_text text = pre ++ w ++ spec_strip [32] 0 (text.drop q)
          rw [hpre, hstrip]
          simp
        · show s.text_offset + w.length = (pre ++ w).length
          simp [hoff]
        · intro x hx
          show _ ∧ _ ∧ x.end_offset ≤ k + ((s.text_offset + w.length : Nat) : Int) ∧ _
          rcases List.mem_append.mp hx with h | h
          · obtain ⟨a1, a2, a3, a4⟩ := hwords x h
            refine ⟨a1, a2, ?_, a4⟩
            push_cast
            omega
          · simp only [List.mem_singleton] at h
            subst h
            refine ⟨hw, hbytes, le_refl _, pre, spec_strip [32] 0 (text.drop q), ?_, ?_, ?_⟩
            · show visible_text text = pre ++ w ++ spec_strip [32] 0 (text.drop q)
              rw [hpre, hstrip]
              simp
            · show k + (s.text_offset : Int) = k + (pre.length : Int)
              rw [hoff]
            · show k + ((s.text_offset + w.length : Nat) : Int)
                = k + (pre.length : Int) + (w.length : Int)
              rw [hoff]
              push_cast
              omega
        · show (s.out ++ [_]).Pairwise _
          rw [List.pairwise_append]
          refine ⟨hpair, List.pairwise_singleton _ _, ?_⟩
          intro a ha b hb
          simp only [List.mem_singleton] at hb
          subst hb
          exact hbefore a ha
        · left
          exact hstop

theorem url_loop_inv (chk : List Nat → Int) (k : Int) (text : List Nat) :
    ∀ (fuel : Nat) (s : UrlState), url_inv k text s →
      url_inv k text (url_loop chk k fuel text s) := by
  intro fuel
  induction fuel with
  | zero => intro s h; exact h
  | succ fuel ih =>
    intro s h
    unfold url_loop
    by_cases hz : byteAt text s.p = 0
    · simp only [hz, if_true]; exact h
    · simp only [hz, if_false]
      exact ih _ (url_step_inv chk k text s h hz)

/-! ## Lemmas: the loops end, and more iterations change nothing -/

theorem byteAt_len_le (text : List Nat) (p : Nat) (h : text.length ≤ p) : byteAt text p = 0 := by
  unfold byteAt
  rw [List.getD_eq_default]
  omega

theorem fe_print_step_adv (text : List Nat) (s : PrintState) (hz : byteAt text s.p ≠ 0) :
    s.p < (fe_print_step text s).p ∧ (fe_print_step text s).p ≤ text.length :=
  fe_print_step_le text s (byteAt_ne_zero_lt text s.p hz)

theorem url_step_adv (chk : List Nat → Int) (k : Int) (text : List Nat) (s : UrlState)
    (hz : byteAt text s.p ≠ 0) :
    s.p < (url_step chk k text s).p ∧ (url_step chk k text s).p ≤ text.length := by
  have hp : s.p < text.length := byteAt_ne_zero_lt text s.p hz
  by_cases hfc : is_format_code (byteAt text s.p) = true
  · rw [url_step_format chk k text s hfc]
    exact ⟨by show s.p < s.p + 1; omega, by show s.p + 1 ≤ text.length; omega⟩
  · by_cases h3 : byteAt text s.p = ATTR_COLOR
    · rw [url_step_color chk k text s h3]
      have hsk := skip_color_le text s.p hp
      exact ⟨by show s.p < skip_color text s.p; omega, hsk.2⟩
    · by_cases hs : g_ascii_isspace (byteAt text s.p) = true
      · rw [url_step_space chk k text s hs]
        exact ⟨by show s.p < s.p + 1; omega, by show s.p + 1 ≤ text.length; omega⟩
      · obtain ⟨w, q, hst, hpq, hq, _⟩ :=
          url_step_word chk k text s hz (by simpa using hfc) h3 (by simpa using hs)
        rw [hst]
        exact ⟨hpq, hq⟩

theorem fe_print_loop_stop (text : List Nat) (fuel : Nat) (s : PrintState)
    (hz : byteAt text s.p = 0) : fe_print_loop fuel text s = s := by
  cases fuel with
  | zero => rfl
  | succ fuel => simp [fe_print_loop, hz]

theorem url_loop_stop (chk : List Nat → Int) (k : Int) (text : List Nat) (fuel : Nat)
    (s : UrlState) (hz : byteAt text s.p = 0) : url_loop chk k fuel text s = s := by
  cases fuel with
  | zero => rfl
  | succ fuel => simp [url_loop, hz]

theorem fe_print_loop_add (text : List Nat) :
    ∀ (m f : Nat) (s : PrintState),
      fe_print_loop (m + f) text s = fe_print_loop f text (fe_print_loop m text s) := by
  intro m
  induction m with
  | zero => intro f s; simp [fe_print_loop]
  | succ m ih =>
    intro f s
    have hmf : m + 1 + f = (m + f) + 1 := by omega
    rw [hmf]
    by_cases hz : byteAt text s.p = 0
    · rw [fe_print_loop_stop text _ s hz, fe_print_loop_stop text _ s hz,
        fe_print_loop_stop text _ s hz]
    · simp only [fe_print_loop, hz, if_false]
      exact ih f _

theorem url_loop_add (chk : List Nat → Int) (k : Int) (text : List Nat) :
    ∀ (m f : Nat) (s : UrlState),
      url_loop chk k (m + f) text s = url_loop chk k f text (url_loop chk k m text s) := by
  intro m
  induction m with
  | zero => intro f s; simp [url_loop]
  | succ m ih =>
    intro f s
    have hmf : m + 1 + f = (m + f) + 1 := by omega
    rw [hmf]
    by_cases hz : byteAt text s.p = 0
    · rw [url_loop_stop chk k text _ s hz, url_loop_stop chk k text _ s hz,
        url_loop_stop chk k text _ s hz]
    · simp only [url_loop, hz, if_false]
      exact ih f _

theorem fe_print_loop_exit (text : List Nat) :
    ∀ (fuel : Nat) (s : PrintState), s.p ≤ text.length → text.length ≤ s.p + fuel →
      byteAt text (fe_print_loop fuel text s).p = 0 ∧
        s.p ≤ (fe_print_loop fuel text s).p ∧ (fe_print_loop fuel text s).p ≤ text.length := by
  intro fuel
  induction fuel with
  | zero =>
    intro s h1 h2
    exact ⟨byteAt_len_le text s.p (by omega), Nat.le_refl _, h1⟩
  | succ fuel ih =>
    intro s h1 h2
    by_cases hz : byteAt text s.p = 0
    · rw [fe_print_loop_stop text _ s hz]
      exact ⟨hz, Nat.le_refl _, h1⟩
    · simp only [fe_print_loop, hz, if_false]
      have hq := fe_print_step_adv text s hz
      obtain ⟨i1, i2, i3⟩ := ih _ hq.2 (by omega)
      exact ⟨i1, by omega, i3⟩

theorem url_loop_exit (chk : List Nat → Int) (k : Int) (text : List Nat) :
    ∀ (fuel : Nat) (s : UrlState), s.p ≤ text.length → text.length ≤ s.p + fuel →
      byteAt text (url_loop chk k fuel text s).p = 0 ∧
        s.p ≤ (url_loop chk k fuel text s).p ∧
        (url_loop chk k fuel text s).p ≤ text.length := by
  intro fuel
  induction fuel with
  | zero =>
    intro s h1 h2
    exact ⟨byteAt_len_le text s.p (by omega), Nat.le_refl _, h1⟩
  | succ fuel ih =>
    intro s h1 h2
    by_cases hz : byteAt text s.p = 0
    · rw [url_loop_stop chk k text _ s hz]
      exact ⟨hz, Nat.le_refl _, h1⟩
    · simp only [url_loop, hz, if_false]
      have hq := url_step_adv chk k text s hz
      obtain ⟨i1, i2, i3⟩ := ih _ hq.2 (by omega)
      exact ⟨i1, by omega, i3⟩

theorem url_word_end_adv (text : List Nat) (f p off : Nat) (hz : byteAt text p ≠ 0)
    (hs : g_ascii_isspace (byteAt text p) = false) :
    ∃ q off1 : Nat, p < q ∧ q ≤ text.length ∧ off ≤ off1 ∧
      url_word_end (f + 1) text p off = url_word_end f text q off1 := by
  have hlt : p < text.length := byteAt_ne_zero_lt text p hz
  have h9 : byteAt text p ≠ ATTR_TAB := by
    intro h; rw [h] at hs; simp [g_ascii_isspace] at hs
  by_cases hfc : is_format_code (byteAt text p) = true
  · exact ⟨p + 1, off, by omega, by omega, Nat.le_refl _,
      by simp [url_word_end, hs, hz, h9, hfc]⟩
  · by_cases h3 : byteAt text p = ATTR_COLOR
    · have hsk := skip_color_le text p hlt
      exact ⟨skip_color text p, off, by omega, hsk.2, Nat.le_refl _,
        by simp [url_word_end, h3, g_ascii_isspace, is_format_code]⟩
    · exact ⟨p + 1, off + 1, by omega, by omega, by omega,
        by simp [url_word_end, hs, hz, h9, hfc, h3]⟩

theorem url_word_end_halt (text : List Nat) (f p off : Nat)
    (h : byteAt text p = 0 ∨ g_ascii_isspace (byteAt text p) = true) :
    url_word_end f text p off = (p, off) := by
  cases f with
  | zero => rfl
  | succ f =>
    rcases h with h | h
    · simp [url_word_end, h]
    · simp [url_word_end, h]

theorem url_word_end_add (text : List Nat) :
    ∀ (f d p off : Nat), p ≤ text.length → text.length ≤ p + f →
      url_word_end (f + d) text p off = url_word_end f text p off := by
  intro f
  induction f with
  | zero =>
    intro d p off h1 h2
    rw [url_word_end_halt text _ p off (Or.inl (byteAt_len_le text p (by omega))),
      url_word_end_halt text _ p off (Or.inl (byteAt_len_le text p (by omega)))]
  | succ f ih =>
    intro d p off h1 h2
    have hfd : f + 1 + d = (f + d) + 1 := by omega
    rw [hfd]
    by_cases hz : byteAt text p = 0
    · rw [url_word_end_halt text _ p off (Or.inl hz), url_word_end_halt text _ p off (Or.inl hz)]
    · by_cases hs : g_ascii_isspace (byteAt text p) = true
      · rw [url_word_end_halt text _ p off (Or.inr hs),
          url_word_end_halt text _ p off (Or.inr hs)]
      · have hsf : g_ascii_isspace (byteAt text p) = false := by simpa using hs
        have hlt : p < text.length := byteAt_ne_zero_lt text p hz
        have h9 : byteAt text p ≠ ATTR_TAB := by
          intro h; rw [h] at hsf; simp [g_ascii_isspace] at hsf
        by_cases hfc : is_format_code (byteAt text p) = true
        · simp only [url_word_end, hz, hsf, h9, hfc, ne_eq, not_false_eq_true, and_self, if_true]
          exact ih d (p + 1) off (by omega) (by omega)
        · by_cases h3 : byteAt text p = ATTR_COLOR
          · have hsk := skip_color_le text p hlt
            simp only [url_word_end, hz, hsf, h9, hfc, h3, ne_eq, not_false_eq_true, and_self,
              if_true]
            simp only [h3] at hfc
            simp only [hfc]
            exact ih d _ off hsk.2 (by omega)
          · simp only [url_word_end, hz, hsf, h9, hfc, h3, ne_eq, not_false_eq_true, and_self,
              if_true, if_false]
            exact ih d (p + 1) (off + 1) (by omega) (by omega)

/-! ## Lemmas: the visible bytes of a scanned prefix -/

theorem fe_print_loop_bounds (text : List Nat) :
    ∀ (fuel : Nat) (s : PrintState), s.segment_start ≤ s.p → s.p ≤ text.length →
      (fe_print_loop fuel text s).segment_start ≤ (fe_print_loop fuel text s).p ∧
        (fe_print_loop fuel text s).p ≤ text.length := by
  intro fuel
  induction fuel with
  | zero => intro s h1 h2; exact ⟨h1, h2⟩
  | succ fuel ih =>
    intro s h1 h2
    by_cases hz : byteAt text s.p = 0
    · rw [fe_print_loop_stop text _ s hz]
      exact ⟨h1, h2⟩
    · simp only [fe_print_loop, hz, if_false]
      have hq := fe_print_step_adv text s hz
      apply ih _ _ hq.2
      cases hsw : fe_switch text s.p s.cur with
      | none =>
        rw [fe_print_step_literal text s hsw]
        show s.segment_start ≤ s.p + 1
        omega
      | some r =>
        obtain ⟨q, st1, b⟩ := r
        rw [fe_print_step_code text s q st1 b hsw]

theorem slice_length (text : List Nat) (a b : Nat) (h : b ≤ text.length) :
    (slice text a b).length = b - a := by
  simp [slice]
  omega

theorem fe_print_loop_visible (text : List Nat) (h0 : is_cstr text) (m : Nat) :
    (fe_print_loop m text (PrintState.start Style.init)).visible
        + (visible_text (text.drop (fe_print_loop m text (PrintState.start Style.init)).p)).length
      = (visible_text text).length := by
  have hb := fe_print_loop_bounds text m (PrintState.start Style.init) (Nat.le_refl _)
    (Nat.zero_le _)
  have hA := (fe_print_loop_text true text h0 text.length
    (fe_print_loop m text (PrintState.start Style.init)) hb.1 (by omega)).2.2
  have hB := (fe_print_loop_text true text h0 (m + text.length) (PrintState.start Style.init)
    (Nat.le_refl _) (by show text.length ≤ 0 + (m + text.length); omega)).2.2
  rw [fe_print_loop_add] at hB
  rw [hA] at hB
  have hstart : ops_text true (PrintState.start Style.init).buf
      ++ slice text (PrintState.start Style.init).segment_start (PrintState.start Style.init).p
      ++ spec_strip (tab_text true) 0 (List.drop (PrintState.start Style.init).p text)
      = spec_strip [32] 0 text := by
    simp [PrintState.start, ops_text, slice_self, tab_text]
  rw [hstart] at hB
  have hlen := congrArg List.length hB
  simp only [tab_text, if_true, List.length_append, ← inserted_eq] at hlen
  rw [slice_length text _ _ hb.2] at hlen
  unfold PrintState.visible visible_text
  exact hlen

theorem url_inv_offset (k : Int) (text : List Nat) (s : UrlState) (h : url_inv k text s) :
    s.text_offset + (visible_text (text.drop s.p)).length = (visible_text text).length := by
  obtain ⟨_, ⟨pre, hpre, hoff⟩, _⟩ := h
  rw [hpre, hoff]
  simp [visible_text]

theorem url_word_end_offset (text : List Nat) (f p off : Nat) (hp : p ≤ text.length) :
    (url_word_end f text p off).2
        + (visible_text (text.drop (url_word_end f text p off).1)).length
      = off + (visible_text (text.drop p)).length := by
  obtain ⟨w, i1, _, _, _, i5, _⟩ := url_word_end_split text f p off hp
  unfold visible_text
  rw [i1, i5]
  simp
  omega

theorem apply_url_tags_inv (chk : List Nat → Int) (k : Int) (text : List Nat) :
    ∃ s : UrlState, url_inv k text s ∧ apply_url_tags_to_line chk k text = s.out := by
  unfold apply_url_tags_to_line
  by_cases hz : byteAt text 0 = 0
  · exact ⟨⟨0, 0, []⟩, url_inv_start k text, by simp [hz]⟩
  · exact ⟨_, url_loop_inv chk k text text.length _ (url_inv_start k text), by simp [hz]⟩

theorem utf8_chars_le (l : List Nat) : utf8_chars l ≤ l.length := by
  unfold utf8_chars
  exact List.length_filter_le _ _

theorem url_extract_adv (text : List Nat) (f src p : Nat) (dst : List Nat) (h : src < p)
    (hp : p ≤ text.length) :
    ∃ (q : Nat) (dst1 : List Nat), src < q ∧
      url_extract (f + 1) text src p dst = url_extract f text q p dst1 := by
  by_cases hfc : is_format_code (byteAt text src) = true
  · exact ⟨src + 1, dst, by omega, by simp [url_extract, h, hfc]⟩
  · by_cases h3 : byteAt text src = ATTR_COLOR
    · have hsk := skip_color_le text src (by omega)
      exact ⟨skip_color text src - 1 + 1, dst, by omega,
        by simp [url_extract, h, h3, is_format_code]⟩
    · exact ⟨src + 1, dst ++ [byteAt text src], by omega, by simp [url_extract, h, hfc, h3]⟩

/-! ## Lemmas: the line start offset as a C `int` -/

theorem wrap_int_eq (x : Int) (h1 : INT_MIN ≤ x) (h2 : x ≤ INT_MAX) : wrap_int x = x := by
  unfold INT_MIN at h1
  unfold INT_MAX at h2
  unfold wrap_int
  omega

theorem wrap_int_range (x : Int) : INT_MIN ≤ wrap_int x ∧ wrap_int x ≤ INT_MAX := by
  unfold INT_MIN INT_MAX wrap_int
  omega

theorem url_step_int_shift (chk : List Nat → Int) (k : Int) (text : List Nat) (s : UrlState) :
    url_step_int chk k text ⟨s.p, s.text_offset, s.out.map (shift_word_int k)⟩
      = ⟨(url_step chk 0 text s).p, (url_step chk 0 text s).text_offset,
          (url_step chk 0 text s).out.map (shift_word_int k)⟩ := by
  unfold url_step url_step_int
  simp only []
  split_ifs <;> simp [shift_word_int]

theorem url_loop_int_shift (chk : List Nat → Int) (k : Int) (text : List Nat) :
    ∀ (fuel : Nat) (s : UrlState),
      url_loop_int chk k fuel text ⟨s.p, s.text_offset, s.out.map (shift_word_int k)⟩
        = ⟨(url_loop chk 0 fuel text s).p, (url_loop chk 0 fuel text s).text_offset,
            (url_loop chk 0 fuel text s).out.map (shift_word_int k)⟩ := by
  intro fuel
  induction fuel with
  | zero => intro s; rfl
  | succ fuel ih =>
    intro s
    unfold url_loop url_loop_int
    by_cases hz : byteAt text s.p = 0
    · simp [hz]
    · simp only [hz, if_false]
      rw [url_step_int_shift chk k text s]
      exact ih (url_step chk 0 text s)

theorem apply_url_tags_int_shift (chk : List Nat → Int) (k : Int) (text : List Nat) :
    apply_url_tags_to_line_int chk k text
      = (apply_url_tags_to_line chk 0 text).map (shift_word_int k) := by
  unfold apply_url_tags_to_line apply_url_tags_to_line_int
  by_cases hz : byteAt text 0 = 0
  · simp [hz]
  · simp only [hz, if_false]
    have h := url_loop_int_shift chk k text text.length ⟨0, 0, []⟩
    simp only [List.map_nil] at h
    rw [h]

theorem apply_url_tags_offsets (chk : List Nat → Int) (text : List Nat) :
    ∀ w ∈ apply_url_tags_to_line chk 0 text,
      0 ≤ w.start_offset ∧ w.start_offset ≤ w.end_offset ∧
        w.end_offset ≤ ((visible_text text).length : Int) := by
  intro w hw
  obtain ⟨s, hinv, hout⟩ := apply_url_tags_inv chk 0 text
  rw [hout] at hw
  obtain ⟨_, _, _, pre, post, hvis, hs, he⟩ := hinv.2.2.1 w hw
  have hlen := congrArg List.length hvis
  simp only [List.length_append] at hlen
  rw [hs, he, hlen]
  push_cast
  omega

theorem apply_url_tags_int_eq (chk : List Nat → Int) (k : Int) (text : List Nat)
    (hlo : INT_MIN ≤ k) (hhi : k + ((visible_text text).length : Int) ≤ INT_MAX) :
    apply_url_tags_to_line_int chk k text = apply_url_tags_to_line chk k text := by
  rw [apply_url_tags_int_shift, apply_url_tags_shift chk k text]
  apply List.map_congr_left
  intro w hw
  obtain ⟨h1, h2, h3⟩ := apply_url_tags_offsets chk text w hw
  unfold shift_word_int shift_word int_add
  rw [wrap_int_eq _ (by omega) (by omega), wrap_int_eq _ (by omega) (by omega)]

/-! ## The claims C21 to C30 -/

/-- Claim C21. The palette `mirc_colors` has exactly 99 entries, at the indices
0 to 98 (`MIRC_COLORS_COUNT` is 99, there is an entry at 0 and at 98 and none at
99), and every entry is a `#` followed by exactly six hexadecimal digits. -/
theorem palette_format :
    mirc_colors.length = 99 ∧ MIRC_COLORS_COUNT = 99 ∧
    mirc_colors.all is_hex_color = true ∧
    mirc_colors[0]? = some "#FFFFFF" ∧ mirc_colors[98]? = some "#FFFFFF" ∧
    mirc_colors[99]? = none := by
  refine ⟨by decide, by decide, by decide, by decide, by decide, by decide⟩

/-- Claim C22. For every line (the content of a C string), classifier and line
start offset: both scanners leave a Color code at the same raw position;
whenever the outer loop of `apply_url_tags_to_line`, or its word loop, stands at
a raw position at which the loop of `fe_print_text` also stands, its
`text_offset` is the number of visible bytes `fe_print_text` has for that prefix
(a tab counted as the space that replaces it); both scanners end at the end of
the line, where `text_offset` is the length of the visible text, which is the
length of the text `fe_print_text` has inserted before the newline step. -/
theorem scanners_agree (chk : List Nat → Int) (k : Int) (text : List Nat)
    (h0 : is_cstr text) :
    (∀ (p : Nat) (st : Style), byteAt text p = ATTR_COLOR →
      ∃ st1 : Style, fe_switch text p st = some (skip_color text p, st1, false)) ∧
    (∀ n m : Nat,
      (url_loop chk k n text ⟨0, 0, []⟩).p
          = (fe_print_loop m text (PrintState.start Style.init)).p →
        (url_loop chk k n text ⟨0, 0, []⟩).text_offset
          = (fe_print_loop m text (PrintState.start Style.init)).visible) ∧
    (∀ n f m : Nat,
      (url_word_end f text (url_loop chk k n text ⟨0, 0, []⟩).p
          (url_loop chk k n text ⟨0, 0, []⟩).text_offset).1
          = (fe_print_loop m text (PrintState.start Style.init)).p →
        (url_word_end f text (url_loop chk k n text ⟨0, 0, []⟩).p
          (url_loop chk k n text ⟨0, 0, []⟩).text_offset).2
          = (fe_print_loop m text (PrintState.start Style.init)).visible) ∧
    (url_loop chk k text.length text ⟨0, 0, []⟩).p = text.length ∧
    (fe_print_loop text.length text (PrintState.start Style.init)).p = text.length ∧
    (url_loop chk k text.length text ⟨0, 0, []⟩).text_offset = (visible_text text).length ∧
    (fe_print_loop text.length text (PrintState.start Style.init)).visible
      = (visible_text text).length ∧
    (inserted (fe_print_render text)).length = (visible_text text).length := by
  have hu : ∀ n : Nat, url_inv k text (url_loop chk k n text ⟨0, 0, []⟩) :=
    fun n => url_loop_inv chk k text n _ (url_inv_start k text)
  have hul := url_loop_end chk k text h0 text.length ⟨0, 0, []⟩ (Nat.zero_le _)
    (by show text.length ≤ 0 + text.length; omega)
  have hpl := fe_print_loop_end text h0 text.length (PrintState.start Style.init)
    (Nat.zero_le _) (by show text.length ≤ 0 + text.length; omega)
  refine ⟨?_, ?_, ?_, hul, hpl, ?_, ?_, by rw [inserted_render text h0]⟩
  · intro p st h3
    refine ⟨(parse_color text (p + 1) st).2, ?_⟩
    rw [skip_color_spec text p st]
    simp [fe_switch, h3]
  · intro n m hpm
    have h1 := url_inv_offset k text _ (hu n)
    have h2 := fe_print_loop_visible text h0 m
    rw [hpm] at h1
    omega
  · intro n f m hpm
    have h1 := url_inv_offset k text _ (hu n)
    have h2 := fe_print_loop_visible text h0 m
    have h3 := url_word_end_offset text f (url_loop chk k n text ⟨0, 0, []⟩).p
      (url_loop chk k n text ⟨0, 0, []⟩).text_offset (hu n).1
    rw [hpm] at h3
    omega
  · have h1 := url_inv_offset k text _ (hu text.length)
    rw [hul, List.drop_length] at h1
    simpa [visible_text, spec_strip] using h1
  · have h2 := fe_print_loop_visible text h0 text.length
    rw [hpl, List.drop_length] at h2
    simpa [visible_text, spec_strip] using h2

/-- Claim C22 at the line `^B a ^I ^C4, b c`: after three iterations of the
URL pass (the bold code, the word `a`, the tab) and after three of
`fe_print_text`, both stand behind the tab with two visible bytes; at the end the
offset is 5, the length of the visible text `a b c`. -/
theorem scanners_agree_witness :
    is_cstr line_codes_words ∧
      ((url_loop (fun _ => 0) 0 3 line_codes_words ⟨0, 0, []⟩).p = 3 ∧
        (fe_print_loop 3 line_codes_words (PrintState.start Style.init)).p = 3 ∧
        (url_loop (fun _ => 0) 0 3 line_codes_words ⟨0, 0, []⟩).text_offset = 2) ∧
      (url_loop (fun _ => 0) 0 3 line_codes_words ⟨0, 0, []⟩).text_offset
        = (fe_print_loop 3 line_codes_words (PrintState.start Style.init)).visible ∧
      (url_loop (fun _ => 0) 0 line_codes_words.length line_codes_words ⟨0, 0, []⟩).text_offset
        = (visible_text line_codes_words).length ∧
      visible_text line_codes_words = [97, 32, 98, 32, 99] :=
  ⟨by unfold is_cstr; decide, by decide,
    (scanners_agree (fun _ => 0) 0 line_codes_words (by unfold is_cstr; decide)).2.1 3 3
      (by decide),
    (scanners_agree (fun _ => 0) 0 line_codes_words (by unfold is_cstr; decide)).2.2.2.2.2.1,
    by decide⟩

/-- Claim C23. For every finite line: an iteration of the loop of
`fe_print_text`, of the outer loop of `apply_url_tags_to_line`, of its word
loop and of its stripping loop each moves the raw position forward by at least
one byte, the first three never beyond the end of the line; so the loops
terminate: after at most `text.length` iterations each has reached its exit
condition, and further iterations change nothing.  The scan position passes
every byte exactly once, since it only moves forward and, for the content of a
C string, ends at the end of the line.  The functions are total: every line
gets a result. -/
theorem scan_total (chk : List Nat → Int) (k : Int) (text : List Nat) :
    (∀ s : PrintState, byteAt text s.p ≠ 0 →
      s.p < (fe_print_step text s).p ∧ (fe_print_step text s).p ≤ text.length) ∧
    (∀ s : UrlState, byteAt text s.p ≠ 0 →
      s.p < (url_step chk k text s).p ∧ (url_step chk k text s).p ≤ text.length) ∧
    (∀ f p off : Nat, byteAt text p ≠ 0 → g_ascii_isspace (byteAt text p) = false →
      ∃ q off1 : Nat, p < q ∧ q ≤ text.length ∧ off ≤ off1 ∧
        url_word_end (f + 1) text p off = url_word_end f text q off1) ∧
    (∀ (f src p : Nat) (dst : List Nat), src < p → p ≤ text.length →
      ∃ (q : Nat) (dst1 : List Nat), src < q ∧
        url_extract (f + 1) text src p dst = url_extract f text q p dst1) ∧
    (byteAt text (fe_print_loop text.length text (PrintState.start Style.init)).p = 0 ∧
      ∀ d : Nat, fe_print_loop (text.length + d) text (PrintState.start Style.init)
        = fe_print_loop text.length text (PrintState.start Style.init)) ∧
    (byteAt text (url_loop chk k text.length text ⟨0, 0, []⟩).p = 0 ∧
      ∀ d : Nat, url_loop chk k (text.length + d) text ⟨0, 0, []⟩
        = url_loop chk k text.length text ⟨0, 0, []⟩) ∧
    (∀ p off : Nat, p ≤ text.length →
      (byteAt text (url_word_end text.length text p off).1 = 0 ∨
        g_ascii_isspace (byteAt text (url_word_end text.length text p off).1) = true) ∧
      ∀ d : Nat, url_word_end (text.length + d) text p off
        = url_word_end text.length text p off) ∧
    (is_cstr text →
      (fe_print_loop text.length text (PrintState.start Style.init)).p = text.length ∧
      (url_loop chk k text.length text ⟨0, 0, []⟩).p = text.length ∧
      (inserted (fe_print_text text)).length
        = (visible_text text).length
          + (if strlen text = 0 ∨ byteAt text (strlen text - 1) ≠ 10 then 1 else 0)) := by
  have hpe := fe_print_loop_exit text text.length (PrintState.start Style.init) (Nat.zero_le _)
    (by show text.length ≤ 0 + text.length; omega)
  have hue := url_loop_exit chk k text text.length ⟨0, 0, []⟩ (Nat.zero_le _)
    (by show text.length ≤ 0 + text.length; omega)
  refine ⟨fun s hz => fe_print_step_adv text s hz, fun s hz => url_step_adv chk k text s hz,
    fun f p off hz hs => url_word_end_adv text f p off hz hs,
    fun f src p dst h hp => url_extract_adv text f src p dst h hp,
    ⟨hpe.1, ?_⟩, ⟨hue.1, ?_⟩, ?_, ?_⟩
  · intro d
    rw [fe_print_loop_add, fe_print_loop_stop text d _ hpe.1]
  · intro d
    rw [url_loop_add, url_loop_stop chk k text d _ hue.1]
  · intro p off hp
    exact ⟨url_word_end_stop text text.length p off hp (by omega),
      fun d => url_word_end_add text text.length d p off hp (by omega)⟩
  · intro h0
    refine ⟨fe_print_loop_end text h0 text.length (PrintState.start Style.init) (Nat.zero_le _)
        (by show text.length ≤ 0 + text.length; omega),
      url_loop_end chk k text h0 text.length ⟨0, 0, []⟩ (Nat.zero_le _)
        (by show text.length ≤ 0 + text.length; omega), ?_⟩
    rw [fe_print_text_render, inserted_append, inserted_render text h0]
    split_ifs <;> simp [inserted]

/-- Claim C23 at the line `^B a ^I ^C4, b c` of nine bytes: both loops end at
position 9, and the first step of each moves from 0 to 1. -/
theorem scan_total_witness :
    is_cstr line_codes_words ∧
      ((fe_print_loop line_codes_words.length line_codes_words
          (PrintState.start Style.init)).p = line_codes_words.length ∧
        (url_loop (fun _ => 0) 0 line_codes_words.length line_codes_words ⟨0, 0, []⟩).p
          = line_codes_words.length ∧
        (inserted (fe_print_text line_codes_words)).length
          = (visible_text line_codes_words).length
            + (if strlen line_codes_words = 0 ∨
                byteAt line_codes_words (strlen line_codes_words - 1) ≠ 10 then 1 else 0)) ∧
      byteAt line_codes_words (PrintState.start Style.init).p ≠ 0 ∧
      ((PrintState.start Style.init).p
          < (fe_print_step line_codes_words (PrintState.start Style.init)).p ∧
        (fe_print_step line_codes_words (PrintState.start Style.init)).p
          ≤ line_codes_words.length) :=
  ⟨by unfold is_cstr; decide,
    (scan_total (fun _ => 0) 0 line_codes_words).2.2.2.2.2.2.2 (by unfold is_cstr; decide),
    by decide,
    (scan_total (fun _ => 0) 0 line_codes_words).1 (PrintState.start Style.init) (by decide)⟩

/-- Claim C24 as stated fails for a line start offset near `INT_MAX`: for the
line `ab` with a classifier that accepts every word, the range tagged with
`line_start_offset = 0` is 0 to 2; with `line_start_offset = INT_MAX` the shifted
range would end at 2147483649, which no `int` holds, and the `int` sum
`line_start_offset + text_offset` that the code hands to the buffer is
-2147483647. -/
theorem offset_translation_overflow :
    url_ranges (apply_url_tags_to_line_int (fun _ => 1) 0 [97, 98]) = [(0, 2)] ∧
    url_ranges (apply_url_tags_to_line_int (fun _ => 1) INT_MAX [97, 98])
      = [(2147483647, -2147483647)] ∧
    (url_ranges (apply_url_tags_to_line_int (fun _ => 1) 0 [97, 98])).map
        (fun r => (INT_MAX + r.1, INT_MAX + r.2)) = [(2147483647, 2147483649)] ∧
    url_ranges (apply_url_tags_to_line_int (fun _ => 1) INT_MAX [97, 98])
      ≠ (url_ranges (apply_url_tags_to_line_int (fun _ => 1) 0 [97, 98])).map
          (fun r => (INT_MAX + r.1, INT_MAX + r.2)) ∧
    INT_MAX < INT_MAX + 2 := by
  refine ⟨by decide, by decide, by decide, by decide, by decide⟩

/-- Claim C24, amended. For every line whose visible text is at most `INT_MAX`
bytes long, every classifier and every `int` `k` for which `k` plus the length
of the visible text does not exceed `INT_MAX`, the ranges `apply_url_tags_to_line`
tags with `line_start_offset = k`, computed in `int` arithmetic as in the
source, are the ranges it tags with `line_start_offset = 0`, in the same order,
each with `k` added to both ends, and no sum overflows; the words handed to the
classifier, their order, and which of them are tagged do not depend on `k`,
whatever `k` is. -/
theorem offset_translation (chk : List Nat → Int) (k : Int) (text : List Nat)
    (hlen : ((visible_text text).length : Int) ≤ INT_MAX)
    (hlo : INT_MIN ≤ k) (hhi : k + ((visible_text text).length : Int) ≤ INT_MAX) :
    url_ranges (apply_url_tags_to_line_int chk k text)
      = (url_ranges (apply_url_tags_to_line_int chk 0 text)).map
          (fun r => (k + r.1, k + r.2)) ∧
    (∀ r ∈ url_ranges (apply_url_tags_to_line_int chk 0 text),
      INT_MIN ≤ k + r.1 ∧ k + r.1 ≤ INT_MAX ∧ INT_MIN ≤ k + r.2 ∧ k + r.2 ≤ INT_MAX) ∧
    (∀ k2 : Int, url_words (apply_url_tags_to_line_int chk k2 text)
      = url_words (apply_url_tags_to_line_int chk 0 text)) ∧
    (∀ k2 : Int, (apply_url_tags_to_line_int chk k2 text).map (fun w => w.tagged)
      = (apply_url_tags_to_line_int chk 0 text).map (fun w => w.tagged)) := by
  have h00 : apply_url_tags_to_line_int chk 0 text = apply_url_tags_to_line chk 0 text :=
    apply_url_tags_int_eq chk 0 text (by decide) (by omega)
  refine ⟨?_, ?_, ?_, ?_⟩
  · rw [apply_url_tags_int_eq chk k text hlo hhi, h00, apply_url_tags_shift chk k text]
    simp only [url_ranges, List.filter_map, List.map_map]
    rfl
  · intro r hr
    rw [h00] at hr
    unfold url_ranges at hr
    obtain ⟨w, hw, rfl⟩ := List.mem_map.mp hr
    obtain ⟨h1, h2, h3⟩ := apply_url_tags_offsets chk text w (List.mem_filter.mp hw).1
    show INT_MIN ≤ k + w.start_offset ∧ k + w.start_offset ≤ INT_MAX ∧
      INT_MIN ≤ k + w.end_offset ∧ k + w.end_offset ≤ INT_MAX
    omega
  · intro k2
    rw [apply_url_tags_int_shift chk k2, apply_url_tags_int_shift chk 0]
    simp only [url_words, List.map_map]
    rfl
  · intro k2
    rw [apply_url_tags_int_shift chk k2, apply_url_tags_int_shift chk 0]
    simp only [List.map_map]
    rfl

/-- Claim C24, amended, at the line `ab ^B cd ^C12 e` with the line start offset
2147483000 and a classifier that accepts every word. -/
theorem offset_translation_witness :
    (((visible_text line_two_words).length : Int) ≤ INT_MAX ∧ INT_MIN ≤ (2147483000 : Int) ∧
      (2147483000 : Int) + ((visible_text line_two_words).length : Int) ≤ INT_MAX) ∧
    url_ranges (apply_url_tags_to_line_int (fun _ => 1) 0 line_two_words) = [(0, 2), (3, 6)] ∧
    url_ranges (apply_url_tags_to_line_int (fun _ => 1) 2147483000 line_two_words)
      = (url_ranges (apply_url_tags_to_line_int (fun _ => 1) 0 line_two_words)).map
          (fun r => (2147483000 + r.1, 2147483000 + r.2)) :=
  ⟨by decide, by decide,
    (offset_translation (fun _ => 1) 2147483000 line_two_words (by decide) (by decide)
      (by decide)).1⟩

/-- Claim C25. At every point of the scan of any line (after any number of
iterations of the loop of `fe_print_text`), the current and the previous
foreground and background colour are each unset (`-1`) or in the range 0 to 98;
so is the style of every span emitted, and every tag name applied to a span, in
particular `fg-NN` and `bg-NN`, is the name of a tag that `fe_gtk4_init_tags`
creates, `NN` being a palette index below `MIRC_COLORS_COUNT`. -/
theorem color_index_invariant (text : List Nat) :
    (∀ fuel : Nat,
      color_valid (fe_print_loop fuel text (PrintState.start Style.init)).cur.fg_color = true ∧
      color_valid (fe_print_loop fuel text (PrintState.start Style.init)).cur.bg_color = true ∧
      color_valid (fe_print_loop fuel text (PrintState.start Style.init)).prev.fg_color = true ∧
      color_valid (fe_print_loop fuel text (PrintState.start Style.init)).prev.bg_color = true) ∧
    (∀ sp ∈ spans (fe_print_text text),
      (sp.style.fg_color = -1 ∨ (0 ≤ sp.style.fg_color ∧ sp.style.fg_color ≤ 98)) ∧
      (sp.style.bg_color = -1 ∨ (0 ≤ sp.style.bg_color ∧ sp.style.bg_color ≤ 98)) ∧
      (0 ≤ sp.style.fg_color → sp.style.fg_color.toNat < MIRC_COLORS_COUNT ∧
        "fg-" ++ fmt_02d sp.style.fg_color = "fg-" ++ fmt_02u sp.style.fg_color.toNat) ∧
      (0 ≤ sp.style.bg_color → sp.style.bg_color.toNat < MIRC_COLORS_COUNT ∧
        "bg-" ++ fmt_02d sp.style.bg_color = "bg-" ++ fmt_02u sp.style.bg_color.toNat) ∧
      ∀ t ∈ applied_tags sp.style, t ∈ fe_gtk4_init_tags) := by
  have inv := fun fuel => fe_print_loop_valid text fuel (PrintState.start Style.init)
    (by decide) (by decide) (by decide) (by decide) (by intro sp h; cases h)
  refine ⟨fun fuel => ⟨(inv fuel).1.1, (inv fuel).1.2, (inv fuel).2.1.1, (inv fuel).2.1.2⟩, ?_⟩
  intro sp hsp
  have hv : color_valid sp.style.fg_color = true ∧ color_valid sp.style.bg_color = true := by
    rcases mem_spans_finish text _ sp hsp with h | h
    · exact (inv text.length).2.2 sp h
    · rw [h.2]
      exact (inv text.length).1
  have hf := hv.1
  have hb := hv.2
  refine ⟨?_, ?_, ?_, ?_, applied_tags_created sp.style hv.1 hv.2⟩
  · simp [color_valid] at hf
    omega
  · simp [color_valid] at hb
    omega
  · intro h0
    exact ⟨(color_tag_created _ h0 hv.1).1, by rw [fmt_02d_eq _ h0]⟩
  · intro h0
    exact ⟨(color_tag_created _ h0 hv.2).1, by rw [fmt_02d_eq _ h0]⟩

/-- Claim C25 at the line `^C99,15 a ^C b`: the index 99 is folded to 3. -/
theorem color_index_invariant_witness :
    (⟨6, [97], ⟨false, false, false, false, false, false, 3, 15⟩⟩ : Span)
        ∈ spans (fe_print_text [3, 57, 57, 44, 49, 53, 97, 3, 98]) ∧
      (((3 : Int) = -1 ∨ (0 ≤ (3 : Int) ∧ (3 : Int) ≤ 98)) ∧
      ((15 : Int) = -1 ∨ (0 ≤ (15 : Int) ∧ (15 : Int) ≤ 98)) ∧
      (0 ≤ (3 : Int) → (3 : Int).toNat < MIRC_COLORS_COUNT ∧
        "fg-" ++ fmt_02d 3 = "fg-" ++ fmt_02u (3 : Int).toNat) ∧
      (0 ≤ (15 : Int) → (15 : Int).toNat < MIRC_COLORS_COUNT ∧
        "bg-" ++ fmt_02d 15 = "bg-" ++ fmt_02u (15 : Int).toNat) ∧
      ∀ t ∈ applied_tags ⟨false, false, false, false, false, false, 3, 15⟩,
        t ∈ fe_gtk4_init_tags) ∧
      applied_tags ⟨false, false, false, false, false, false, 3, 15⟩ = ["fg-03", "bg-15"] ∧
      fe_gtk4_init_tags.length = 99 + 99 + 10 :=
  ⟨by decide, (color_index_invariant [3, 57, 57, 44, 49, 53, 97, 3, 98]).2
    ⟨6, [97], ⟨false, false, false, false, false, false, 3, 15⟩⟩ (by decide), by decide,
    by rfl⟩

/-- Claim C26. For every line, classifier and line start offset, the ranges
tagged by `apply_url_tags_to_line`, in emission order, are pairwise apart: each
range ends strictly before every later one starts; and every range, taken
relative to `line_start_offset`, starts at 0 or later, is not empty, and ends at
most at the length (in bytes, the unit of the offsets) of the visible text. -/
theorem url_ranges_ordered (chk : List Nat → Int) (k : Int) (text : List Nat) :
    (url_ranges (apply_url_tags_to_line chk k text)).Pairwise (fun a b => a.2 < b.1) ∧
    (∀ r ∈ url_ranges (apply_url_tags_to_line chk k text),
      0 ≤ r.1 - k ∧ r.1 < r.2 ∧ r.2 - k ≤ ((visible_text text).length : Int)) := by
  obtain ⟨s, hinv, hout⟩ := apply_url_tags_inv chk k text
  rw [hout]
  constructor
  · unfold url_ranges
    rw [List.pairwise_map]
    exact List.Pairwise.filter _ hinv.2.2.2.1
  · intro r hr
    unfold url_ranges at hr
    obtain ⟨w, hw, rfl⟩ := List.mem_map.mp hr
    obtain ⟨a1, a2, a3, pre, post, hvis, hs, he⟩ := hinv.2.2.1 w (List.mem_filter.mp hw).1
    have hpos : 0 < w.word.length := List.length_pos.mpr a1
    have hlen := congrArg List.length hvis
    simp only [List.length_append] at hlen
    refine ⟨?_, ?_, ?_⟩
    · show 0 ≤ w.start_offset - k
      rw [hs]; omega
    · show w.start_offset < w.end_offset
      rw [hs, he]; omega
    · show w.end_offset - k ≤ ((visible_text text).length : Int)
      rw [he, hlen]
      push_cast
      omega

/-- Claim C26 at the line `ab ^B cd ^C12 e` with the line start offset 10 and a
classifier that accepts every word: the ranges are 10 to 12 and 13 to 16. -/
theorem url_ranges_ordered_witness :
    url_ranges (apply_url_tags_to_line (fun _ => 1) 10 line_two_words) = [(10, 12), (13, 16)] ∧
      ((13, 16) : Int × Int) ∈ url_ranges (apply_url_tags_to_line (fun _ => 1) 10 line_two_words) ∧
      (0 ≤ (13 : Int) - 10 ∧ (13 : Int) < 16 ∧
        (16 : Int) - 10 ≤ ((visible_text line_two_words).length : Int)) :=
  ⟨by decide, by decide,
    (url_ranges_ordered (fun _ => 1) 10 line_two_words).2 (13, 16) (by decide)⟩

/-- Claim C27. A comma that immediately follows the foreground digits of a
Color code belongs to the colour sequence also when no digit follows it:
`fe_print_text` and `apply_url_tags_to_line` both resume behind the comma, the
foreground is the folded index and the background (with every flag) keeps its
value.  For the line `0x03 "4,abc"`: from any style the Color code leads behind
the comma with foreground 4 and the other fields as before, the text inserted is
`abc` in one span with foreground 4 and background unset, and the URL pass
classifies the one word `abc` at the offsets 0 to 3. -/
theorem comma_after_foreground (a b : List Nat) (st : Style) (v n : Nat)
    (hf : spec_field b = some (v, n)) (hc : byteAt b n = 44)
    (hd : g_ascii_isdigit (byteAt b (n + 1)) = false) :
    fe_switch (a ++ ATTR_COLOR :: b) a.length st
      = some (a.length + 1 + n + 1, { st with fg_color := spec_fold v }, false) ∧
    skip_color (a ++ ATTR_COLOR :: b) a.length = a.length + 1 + n + 1 ∧
    (∀ st0 : Style, fe_switch line_color_comma 0 st0
      = some (3, { st0 with fg_color := 4 }, false)) ∧
    skip_color line_color_comma 0 = 3 ∧
    fe_print_text line_color_comma
      = [BufOp.span ⟨3, [97, 98, 99], { Style.init with fg_color := 4 }⟩, BufOp.plain [10]] ∧
    inserted (fe_print_render line_color_comma) = [97, 98, 99] ∧
    visible_text line_color_comma = [97, 98, 99] ∧
    (∀ (chk : List Nat → Int) (k : Int), apply_url_tags_to_line chk k line_color_comma
      = [⟨[97, 98, 99], k + 0, k + 3, decide (chk [97, 98, 99] > 0)⟩]) := by
  have hb : ¬ (byteAt b n = 44 ∧ g_ascii_isdigit (byteAt b (n + 1)) = true) := by
    rw [hd]; simp
  have gen : ∀ (a b : List Nat) (st : Style) (v n : Nat), spec_field b = some (v, n) →
      byteAt b n = 44 → g_ascii_isdigit (byteAt b (n + 1)) = false →
      fe_switch (a ++ ATTR_COLOR :: b) a.length st
        = some (a.length + 1 + n + 1, { st with fg_color := spec_fold v }, false) := by
    intro a b st v n hf hc hd
    have hb : ¬ (byteAt b n = 44 ∧ g_ascii_isdigit (byteAt b (n + 1)) = true) := by
      rw [hd]; simp
    rw [fe_switch_color, spec_color_fg_only st b v n hf hb]
    simp [hc, Nat.add_assoc]
  refine ⟨gen a b st v n hf hc hd, ?_, ?_, by decide, by decide, by decide, by decide, ?_⟩
  · rw [skip_color_append a b st, spec_color_fg_only st b v n hf hb]
    simp [hc, Nat.add_assoc]
  · intro st0
    exact gen [] [52, 44, 97, 98, 99] st0 4 1 (by decide) (by decide) (by decide)
  · intro chk k
    rw [apply_url_tags_shift chk k, apply_url_tags_retag chk (fun _ => 0) 0]
    have h : apply_url_tags_to_line (fun _ => 0) 0 line_color_comma
        = [⟨[97, 98, 99], 0, 3, false⟩] := by decide
    rw [h]
    simp [retag, shift_word]

/-- Claim C27 at the line `b ^C12,x`: two foreground digits, a comma, no digit. -/
theorem comma_after_foreground_witness :
    (fe_switch ([98] ++ ATTR_COLOR :: [49, 50, 44, 120]) 1 Style.init
      = some (1 + 1 + 2 + 1, { Style.init with fg_color := spec_fold 12 }, false) ∧
    skip_color ([98] ++ ATTR_COLOR :: [49, 50, 44, 120]) 1 = 1 + 1 + 2 + 1) ∧
    spec_fold 12 = 12 :=
  ⟨⟨(comma_after_foreground [98] [49, 50, 44, 120] Style.init 12 2 (by decide) (by decide)
      (by decide)).1,
    (comma_after_foreground [98] [49, 50, 44, 120] Style.init 12 2 (by decide) (by decide)
      (by decide)).2.1⟩, by decide⟩

/-- Claim C28. A Color code whose digits are not followed by a comma and a
digit changes the foreground only: from every prior style, `fe_print_text`
leaves the Color case with the foreground set to the folded index and with the
background colour and the six flags as they were. -/
theorem foreground_only_color (a b : List Nat) (st : Style) (v n : Nat)
    (hf : spec_field b = some (v, n))
    (hb : ¬ (byteAt b n = 44 ∧ g_ascii_isdigit (byteAt b (n + 1)) = true)) :
    ∃ (q : Nat) (st1 : Style),
      fe_switch (a ++ ATTR_COLOR :: b) a.length st = some (q, st1, false) ∧
      st1 = { st with fg_color := spec_fold v } ∧
      st1.bg_color = st.bg_color ∧ st1.bold = st.bold ∧ st1.italic = st.italic ∧
      st1.underline = st.underline ∧ st1.strikethrough = st.strikethrough ∧
      st1.hidden = st.hidden ∧ st1.reverse = st.reverse := by
  refine ⟨_, _, fe_switch_color a b st, ?_⟩
  rw [spec_color_fg_only st b v n hf hb]
  simp

/-- Claim C28 at the line `^B ^C4,a`, from a style with bold and underline
set, the foreground 7 and the background 9. -/
theorem foreground_only_color_witness :
    ∃ (q : Nat) (st1 : Style),
      fe_switch ([2] ++ ATTR_COLOR :: [52, 44, 97]) 1 ⟨true, false, true, false, false, false, 7, 9⟩
        = some (q, st1, false) ∧
      st1 = { (⟨true, false, true, false, false, false, 7, 9⟩ : Style) with
        fg_color := spec_fold 4 } ∧
      st1.bg_color = 9 ∧ st1.bold = true ∧ st1.italic = false ∧
      st1.underline = true ∧ st1.strikethrough = false ∧
      st1.hidden = false ∧ st1.reverse = false :=
  foreground_only_color [2] [52, 44, 97] ⟨true, false, true, false, false, false, 7, 9⟩ 4 1
    (by decide) (by decide)

/-- Claim C29. `apply_url_tags_to_line` counts its visible offset in bytes: the
start offset of every word (with `line_start_offset = 0`) is the number of
bytes of the visible text that precede the word, which is never less than the
number of characters that precede it.  For the line `é http://a.b` the visible
text before the classified word `http://a.b` is `é` and a space, 3 bytes and 2
characters, and the start offset emitted is 3, strictly greater than the 2
characters that precede the word. -/
theorem offset_counts_bytes (chk : List Nat → Int) (text : List Nat) :
    (∀ w ∈ apply_url_tags_to_line chk 0 text, ∃ pre post : List Nat,
      visible_text text = pre ++ w.word ++ post ∧ w.start_offset = (pre.length : Int) ∧
      w.end_offset = (pre.length : Int) + (w.word.length : Int) ∧
      utf8_chars pre ≤ pre.length) ∧
    visible_text line_e_acute_url = [195, 169, 32] ++ word_http_a_b ∧
    url_ranges (apply_url_tags_to_line accept_http_a_b 0 line_e_acute_url) = [(3, 13)] ∧
    utf8_chars [195, 169, 32] = 2 ∧
    ∃ w ∈ apply_url_tags_to_line accept_http_a_b 0 line_e_acute_url,
      w.tagged = true ∧ w.word = word_http_a_b ∧
      ((utf8_chars [195, 169, 32] : Nat) : Int) < w.start_offset := by
  refine ⟨?_, by decide, by decide, by decide, ⟨word_http_a_b, 3, 13, true⟩, by decide, rfl, rfl,
    by decide⟩
  intro w hw
  obtain ⟨s, hinv, hout⟩ := apply_url_tags_inv chk 0 text
  rw [hout] at hw
  obtain ⟨a1, a2, a3, pre, post, hvis, hs, he⟩ := hinv.2.2.1 w hw
  exact ⟨pre, post, hvis, by rw [hs]; omega, by rw [he]; omega, utf8_chars_le pre⟩

/-- Claim C29 at the line `é http://a.b`, for the word `http://a.b`. -/
theorem offset_counts_bytes_witness :
    (⟨word_http_a_b, 3, 13, true⟩ : UrlWord)
        ∈ apply_url_tags_to_line accept_http_a_b 0 line_e_acute_url ∧
      ∃ pre post : List Nat,
        visible_text line_e_acute_url = pre ++ word_http_a_b ++ post ∧
        (3 : Int) = (pre.length : Int) ∧
        (13 : Int) = (pre.length : Int) + (word_http_a_b.length : Int) ∧
        utf8_chars pre ≤ pre.length :=
  ⟨by decide, (offset_counts_bytes accept_http_a_b line_e_acute_url).1
    ⟨word_http_a_b, 3, 13, true⟩ (by decide)⟩

/-- Claim C30. Wherever `apply_url_tags_to_line` starts a word (at a byte that
is not NUL, no format code, no Color code and no whitespace), the stripping loop
copies exactly `word_len = text_offset - word_start_offset` bytes, and that
number is at least 1.  So for every line, every word handed to the classifier
has as many bytes as its two offsets are apart, is not empty, and holds no NUL,
no whitespace byte and no control code byte. -/
theorem word_buffer_filled (chk : List Nat → Int) (k : Int) (text : List Nat) :
    (∀ p word_start_offset : Nat, byteAt text p ≠ 0 → is_format_code (byteAt text p) = false →
      byteAt text p ≠ ATTR_COLOR → g_ascii_isspace (byteAt text p) = false →
      (url_extract text.length text p
          (url_word_end text.length text p word_start_offset).1 []).length
        = (url_word_end text.length text p word_start_offset).2 - word_start_offset ∧
      1 ≤ (url_word_end text.length text p word_start_offset).2 - word_start_offset) ∧
    (∀ w ∈ apply_url_tags_to_line chk k text,
      (w.word.length : Int) = w.end_offset - w.start_offset ∧ 1 ≤ w.word.length ∧
      ∀ b ∈ w.word, b ≠ 0 ∧ g_ascii_isspace b = false ∧ is_control_code b = false) := by
  constructor
  · intro p off hz hf h3 hs
    have hp : p < text.length := byteAt_ne_zero_lt text p hz
    have h9 : byteAt text p ≠ ATTR_TAB := by
      intro h; rw [h] at hs; simp [g_ascii_isspace] at hs
    have hcc : is_control_code (byteAt text p) = false := by
      rw [control_code_cases]
      simp [hf, h3, h9]
    obtain ⟨w, i1, i2, i3, i4, i5, i6, i7⟩ := url_word_end_split text text.length p off (by omega)
    have hw : w ≠ [] := i7 (by omega) hz hs hcc
    have hex := i4 text.length [] (by omega)
    simp only [List.nil_append] at hex
    have hpos : 0 < w.length := List.length_pos.mpr hw
    rw [hex, i1]
    omega
  · intro w hw
    obtain ⟨s, hinv, hout⟩ := apply_url_tags_inv chk k text
    rw [hout] at hw
    obtain ⟨a1, a2, a3, pre, post, _, hs, he⟩ := hinv.2.2.1 w hw
    have hpos : 0 < w.word.length := List.length_pos.mpr a1
    refine ⟨?_, hpos, a2⟩
    rw [hs, he]
    omega

/-- Claim C30 at the line `ab ^B cd ^C12 e`, for its second word `cde`. -/
theorem word_buffer_filled_witness :
    (⟨[99, 100, 101], 3, 6, true⟩ : UrlWord)
        ∈ apply_url_tags_to_line (fun _ => 1) 0 line_two_words ∧
      (([99, 100, 101] : List Nat).length : Int) = 6 - 3 ∧
      1 ≤ ([99, 100, 101] : List Nat).length ∧
      ∀ b ∈ ([99, 100, 101] : List Nat),
        b ≠ 0 ∧ g_ascii_isspace b = false ∧ is_control_code b = false :=
  ⟨by decide, (word_buffer_filled (fun _ => 1) 0 line_two_words).2
    ⟨[99, 100, 101], 3, 6, true⟩ (by decide)⟩

end FeGtk4
